import Mathlib

/-!
Shallow embedding of the four allreduce traffic-matrix generators of the
`inc-htsim` repository (directory `sim/datacenter/p6_inc/tm_gen/`):

* `gen_allreduce_extended.py`      — hierarchical multi-ring allreduce (Ring)
* `gen_allreduce_tree_extended.py` — tree allreduce (Tree)
* `gen_allreduce_supernode.py`     — star allreduce, multi-iteration (Supernode)
* `gen_allreduce_inc_ded_pod.py`   — INC pod-aggregated allreduce (IncHierarchical)

Each generator is embedded as a pure function from its CLI parameters to a
`Schedule`: the node-count header, the ordered list of emitted flow records,
the two back-patched header values (`Connections`, `Triggers`) and the list
of declared trigger ids.  Python's mutable counters (`id`, `trig_id`) are
threaded as explicit state through folds that mirror the source loops; the
`connections` counter is incremented exactly once per printed flow line in
every generator that has it, so its final value is embedded as the length of
the emitted flow list.  Where the Python scripts shuffle node ids, the
post-shuffle order is taken as an explicit `perm` argument, because the
shuffle itself draws on the process RNG.  List indexing uses `getD` with
default `0`; the defaulted branch is only reachable where the Python script
would raise (IndexError / ZeroDivisionError), and theorems carry validity
hypotheses that keep out of that region.
-/

namespace TmGen

/-- Optional INC semantics annotation printed on a flow line:
`semantics agg_op <op> agg_dir <dir> fid <f> rid <r> cid <c>`. -/
structure Sem where
  op : String
  dir : String
  fid : Nat
  rid : Nat
  cid : Nat
deriving DecidableEq, Repr

/-- One flow record (one `src->dst id ...` line of the connection matrix).
`gate = none` renders as `start 0`, `gate = some t` as `trigger t`;
`done = some t` renders as `send_done_trigger t`. -/
structure Flow where
  src : Nat
  dst : Nat
  flowId : Nat
  gate : Option Nat
  size : Int
  done : Option Nat
  sem : Option Sem
deriving DecidableEq, Repr

/-- The generated artifact: node count, ordered flow records, the two
back-patched header values and the declared trigger ids (in file order). -/
structure Schedule where
  nodes : Nat
  flows : List Flow
  connHeader : Int
  trigHeader : Int
  decls : List Nat
deriving DecidableEq, Repr

/-- Generic loop combinator: run an emitting step over a list of loop
indices, threading state and concatenating the emitted flow records in
order, exactly as the Python `for` loops print them. -/
def foldEmit {σ : Type} (f : σ → Nat → σ × List Flow) : σ → List Nat → σ × List Flow
  | st, [] => (st, [])
  | st, n :: ns =>
    let p := f st n
    let q := foldEmit f p.1 ns
    (q.1, p.2 ++ q.2)

/-! ### Ring generator (`gen_allreduce_extended.py`)

CLI: `<filename> <nodes> <conns> <groupsize> <flowsize> <locality> <randseed>`.
`srcs = list(range(nodes))` is shuffled unconditionally (the seed only
initialises the RNG when nonzero), so the shuffled order is the `perm`
argument here.  State threaded through the phases is the pair
`(id, trig_id)` plus the collected `group_end_triggers` / `leader_triggers`
lists. -/

/-- The shuffled member list of one ring:
`groupsrcs = [srcs[group*groupsize+n] for n in range(groupsize)]`,
sorted when `locality == 1`. -/
def ringGroupSrcs (perm : List Nat) (gs loc g : Nat) : List Nat :=
  let l := (List.range gs).map (fun n => perm.getD (g * gs + n) 0)
  if loc = 1 then l.mergeSort (fun a b => Nat.ble a b) else l

/-- Body of the phase-1 inner loop (`for d in range(1, groupsize)`): emit the
`d`-th hop of chain `s` of a ring.  `d == 1` starts at time 0, later hops are
gated on the running `trig_id` which is then incremented; every hop except
`d == groupsize-1` attaches `send_done_trigger trig_id`. -/
def ringChainStep (gsrcs : List Nat) (gs : Nat) (fsz : Int) (s : Nat)
    (st : Nat × Nat) (d : Nat) : (Nat × Nat) × List Flow :=
  let fid := st.1 + 1
  let srcI := (s + d - 1) % gs
  let dstI := (s + d) % gs
  let gt : Option Nat := if d = 1 then none else some st.2
  let trig := if d = 1 then st.2 else st.2 + 1
  let dn : Option Nat := if d ≠ gs - 1 then some trig else none
  ((fid, trig),
   [{ src := gsrcs.getD srcI 0, dst := gsrcs.getD dstI 0, flowId := fid,
      gate := gt, size := fsz, done := dn, sem := none }])

/-- One whole chain (`for d in range(1, groupsize)` for a fixed `s`). -/
def ringChainEmit (gsrcs : List Nat) (gs : Nat) (fsz : Int) (s : Nat)
    (st : Nat × Nat) : (Nat × Nat) × List Flow :=
  foldEmit (ringChainStep gsrcs gs fsz s) st (List.range' 1 (gs - 1))

/-- Phase-1 emission for one ring (`for s in range(groupsize)` around the
chain loop). -/
def ringGroupEmit (perm : List Nat) (gs loc : Nat) (fsz : Int)
    (st : Nat × Nat) (g : Nat) : (Nat × Nat) × List Flow :=
  foldEmit
    (fun st2 s => ringChainEmit (ringGroupSrcs perm gs loc g) gs fsz s st2)
    st (List.range gs)

/-- Body of the phase-1 outer loop: one ring's emission followed by
`group_end_triggers.append(trig_id - 1)`. -/
def ringP1Step (perm : List Nat) (gs loc : Nat) (fsz : Int)
    (st : (Nat × Nat) × List Nat) (g : Nat) :
    ((Nat × Nat) × List Nat) × List Flow :=
  let p := ringGroupEmit perm gs loc fsz st.1 g
  ((p.1, st.2 ++ [p.1.2 - 1]), p.2)

/-- Phase 1 over all rings, collecting `group_end_triggers.append(trig_id - 1)`
after each ring.  The initial state is `id = 0`, `trig_id = 1`. -/
def ringPhase1 (perm : List Nat) (groups gs loc : Nat) (fsz : Int) :
    ((Nat × Nat) × List Nat) × List Flow :=
  foldEmit (ringP1Step perm gs loc fsz) ((0, 1), []) (List.range groups)

/-- Body of the phase-2 loop: each ring's leader sends to the next ring's
leader, gated on that ring's recorded end trigger, with size `flowsize // 10`;
`trig_id` is pre-incremented and attached as the completion trigger, and
collected into `leader_triggers`. -/
def ringP2Step (perm : List Nat) (groups gs : Nat) (fsz : Int) (gets : List Nat)
    (st : (Nat × Nat) × List Nat) (g : Nat) : ((Nat × Nat) × List Nat) × List Flow :=
  let trig := st.1.2 + 1
  let fid := st.1.1 + 1
  let leader := perm.getD (g * gs) 0
  let nextLeader := perm.getD (((g + 1) % groups) * gs) 0
  (((fid, trig), st.2 ++ [trig]),
   [{ src := leader, dst := nextLeader, flowId := fid,
      gate := some (gets.getD g 0), size := fsz.fdiv 10,
      done := some trig, sem := none }])

/-- Phase 2 over all rings, returning the collected `leader_triggers`. -/
def ringPhase2 (perm : List Nat) (groups gs : Nat) (fsz : Int) (gets : List Nat)
    (st : Nat × Nat) : ((Nat × Nat) × List Nat) × List Flow :=
  foldEmit (ringP2Step perm groups gs fsz gets) (st, []) (List.range groups)

/-- Body of the phase-3 inner loop (`for s in range(groupsize - 1)`): hop
`s → s+1` down the ring, gated on the running `leader_done_trigger`; all hops
except the last allocate a fresh completion trigger that becomes the next
hop's gate. -/
def ringP3GroupStep (gsrcs : List Nat) (gs : Nat) (fsz : Int)
    (st : (Nat × Nat) × Nat) (s : Nat) : ((Nat × Nat) × Nat) × List Flow :=
  let fid := st.1.1 + 1
  let src := gsrcs.getD s 0
  let dst := gsrcs.getD (s + 1) 0
  if s < gs - 2 then
    let trig := st.1.2 + 1
    (((fid, trig), trig),
     [{ src := src, dst := dst, flowId := fid, gate := some st.2, size := fsz,
        done := some trig, sem := none }])
  else
    (((fid, st.1.2), st.2),
     [{ src := src, dst := dst, flowId := fid, gate := some st.2, size := fsz,
        done := none, sem := none }])

/-- Phase 3 over all rings. -/
def ringPhase3 (perm : List Nat) (groups gs loc : Nat) (fsz : Int)
    (lts : List Nat) (st : Nat × Nat) : (Nat × Nat) × List Flow :=
  foldEmit
    (fun st2 g =>
      let p := foldEmit (ringP3GroupStep (ringGroupSrcs perm gs loc g) gs fsz)
        (st2, lts.getD g 0) (List.range (gs - 1))
      (p.1.1, p.2))
    st (List.range groups)

/-- The whole Ring generator.  `groups = conns // groupsize`; the trigger
section declares every id in `range(1, trig_id + 1)` and `trigger_count`
counts exactly those lines. -/
def ringGen (nodes conns gs : Nat) (fsz : Int) (loc : Nat) (perm : List Nat) :
    Schedule :=
  let groups := conns / gs
  let p1 := ringPhase1 perm groups gs loc fsz
  let p2 := ringPhase2 perm groups gs fsz p1.1.2 p1.1.1
  let p3 := ringPhase3 perm groups gs loc fsz p2.1.2 p2.1.1
  { nodes := nodes,
    flows := p1.2 ++ p2.2 ++ p3.2,
    connHeader := ((p1.2 ++ p2.2 ++ p3.2).length : Int),
    trigHeader := (p3.1.2 : Int),
    decls := List.range' 1 p3.1.2 }

/-! ### Tree generator (`gen_allreduce_tree_extended.py`)

CLI: `<filename> <nodes> <branch_factor> <flowsize> <randseed>`.  The seed is
parsed and fed to the RNG, but nothing random is ever drawn, so the output is
a function of `nodes`, `branch_factor` and `flowsize` alone.  Unlike the
other generators the two header values are computed up front by the formula
`(nodes - 1) * 2`, not by counting emitted lines. -/

/-- `parent = (i - 1) // branch_factor`. -/
def treeParent (bf i : Nat) : Nat := (i - 1) / bf

/-- `children[parent]`: the ids `1 ≤ i < nodes` appended in ascending order
whose computed parent is `p`. -/
def treeChildren (nodes bf p : Nat) : List Nat :=
  (List.range' 1 (nodes - 1)).filter (fun i => treeParent bf i = p)

/-- Body of the upward loop (`for i in range(nodes-1, 0, -1)`): node `i`
sends to its parent, starting at time 0, attaching `send_done_trigger
trig_id` and then incrementing `trig_id`. -/
def treeUpStep (bf : Nat) (fsz : Int) (st : Nat × Nat) (i : Nat) :
    (Nat × Nat) × List Flow :=
  let fid := st.1 + 1
  ((fid, st.2 + 1),
   [{ src := i, dst := treeParent bf i, flowId := fid, gate := none,
      size := fsz, done := some st.2, sem := none }])

/-- Body of the downward inner loop: `parent` sends to `child` gated on
`trigger (trig_id - (nodes - 1))`; every child except the last in the
parent's child list attaches `send_done_trigger trig_id` and increments
`trig_id`. -/
def treeDownStep (nodes p : Nat) (fsz : Int) (childrenL : List Nat)
    (st : Nat × Nat) (child : Nat) : (Nat × Nat) × List Flow :=
  let fid := st.1 + 1
  let gt : Option Nat := some (st.2 - (nodes - 1))
  if childrenL.getLast? = some child then
    ((fid, st.2),
     [{ src := p, dst := child, flowId := fid, gate := gt, size := fsz,
        done := none, sem := none }])
  else
    ((fid, st.2 + 1),
     [{ src := p, dst := child, flowId := fid, gate := gt, size := fsz,
        done := some st.2, sem := none }])

/-- The downward broadcast phase (`for parent in range(nodes)` around the
child loop). -/
def treeDownPhase (nodes bf : Nat) (fsz : Int) (st : Nat × Nat) :
    (Nat × Nat) × List Flow :=
  foldEmit
    (fun st2 p =>
      foldEmit (treeDownStep nodes p fsz (treeChildren nodes bf p)) st2
        (treeChildren nodes bf p))
    st (List.range nodes)

/-- The whole Tree generator.  Headers use the hardcoded formula
`(nodes - 1) * 2` (as a Python int, so over `Int` here); the trigger section
declares `range(1, trig_id + 1)` with the final counter value. -/
def treeGen (nodes bf : Nat) (fsz : Int) : Schedule :=
  let up := foldEmit (treeUpStep bf fsz) (0, 1) ((List.range' 1 (nodes - 1)).reverse)
  let down := treeDownPhase nodes bf fsz up.1
  { nodes := nodes,
    flows := up.2 ++ down.2,
    connHeader := ((nodes : Int) - 1) * 2,
    trigHeader := ((nodes : Int) - 1) * 2,
    decls := List.range' 1 down.1.2 }

/-! ### Supernode generator (`gen_allreduce_supernode.py`)

CLI: `<filename> <nodes> <flowsize> <iterations> <randseed>`.  The supernode
is `nodes - 1`; `regular_nodes = list(range(nodes - 1))` is shuffled only
when the seed is nonzero, so the shuffled order is the `perm` argument and is
consulted only in that case. -/

/-- Body of the phase-1 loop: `node` sends to the supernode.  On iteration 0
every send starts at time 0, on later iterations every send is gated on the
previous iteration's closing trigger (`gt` is that per-iteration value);
`trig_id` is pre-incremented, attached, and collected into
`phase1_send_done_triggers`. -/
def snP1Step (sn : Nat) (fsz : Int) (gt : Option Nat)
    (st : (Nat × Nat) × List Nat) (node : Nat) :
    ((Nat × Nat) × List Nat) × List Flow :=
  let fid := st.1.1 + 1
  let trig := st.1.2 + 1
  (((fid, trig), st.2 ++ [trig]),
   [{ src := node, dst := sn, flowId := fid, gate := gt, size := fsz,
      done := some trig, sem := none }])

/-- Body of the phase-2 loop (`for i, dest in enumerate(regular_nodes)`): the
supernode sends to `regular_nodes[i]` gated on the running `phase2_trigger`.
All but the last send pre-increment and attach a fresh trigger; the last send
does so only on a non-final iteration (becoming the next iteration's gate),
and on the final iteration attaches nothing and clears the trigger. -/
def snP2Step (sn : Nat) (fsz : Int) (regs : List Nat)
    (iteration iterations : Nat) (st : (Nat × Nat) × Option Nat) (i : Nat) :
    ((Nat × Nat) × Option Nat) × List Flow :=
  let fid := st.1.1 + 1
  let dest := regs.getD i 0
  let gt := st.2
  if i < regs.length - 1 then
    let trig := st.1.2 + 1
    (((fid, trig), some trig),
     [{ src := sn, dst := dest, flowId := fid, gate := gt, size := fsz,
        done := some trig, sem := none }])
  else if iteration < iterations - 1 then
    let trig := st.1.2 + 1
    (((fid, trig), some trig),
     [{ src := sn, dst := dest, flowId := fid, gate := gt, size := fsz,
        done := some trig, sem := none }])
  else
    (((fid, st.1.2), none),
     [{ src := sn, dst := dest, flowId := fid, gate := gt, size := fsz,
        done := none, sem := none }])

/-- One whole iteration: phase 1 over `regular_nodes` (the gate is `start 0`
on iteration 0, otherwise the stored `next_iteration_trigger`), then
`phase2_start_trigger = phase1_send_done_triggers[-1]`, then phase 2; the
final `phase2_trigger` becomes `next_iteration_trigger`. -/
def snIterStep (sn : Nat) (fsz : Int) (regs : List Nat) (iterations : Nat)
    (st : (Nat × Nat) × Option Nat) (iteration : Nat) :
    ((Nat × Nat) × Option Nat) × List Flow :=
  let gt : Option Nat := if iteration = 0 then none else st.2
  let p1 := foldEmit (snP1Step (sn) fsz gt) (st.1, []) regs
  let phase2Start := p1.1.2.getLastD 0
  let p2 := foldEmit (snP2Step sn fsz regs iteration iterations)
    (p1.1.1, some phase2Start) (List.range regs.length)
  (p2.1, p1.2 ++ p2.2)

/-- The whole Supernode generator. -/
def supernodeGen (nodes : Nat) (fsz : Int) (iterations : Nat) (randseed : Int)
    (perm : List Nat) : Schedule :=
  let sn := nodes - 1
  let regs := if randseed ≠ 0 then perm else List.range sn
  let p := foldEmit (snIterStep sn fsz regs iterations) ((0, 1), none)
    (List.range iterations)
  { nodes := nodes,
    flows := p.2,
    connHeader := (p.2.length : Int),
    trigHeader := (p.1.1.2 : Int),
    decls := List.range' 1 p.1.1.2 }

/-! ### IncHierarchical generator (`gen_allreduce_inc_ded_pod.py`)

CLI: `<out_file> <nodes> <k> <flowsize> <chunks> <fid> <iterations> <window>
<randseed>`.  The seed is fed to the RNG when nonzero, but `hosts =
list(range(nodes))` is never shuffled, so the output does not depend on it.
The aggregation pod is pod 0, of `k*k // 4` nodes. -/

/-- `nodes_per_pod(k) = k * k // 4`. -/
def nodes_per_pod (k : Nat) : Nat := k * k / 4

/-- `agg_nodes = list(range(AGG_POD_START, AGG_POD_END + 1))` with
`AGG_POD = 0`, i.e. `range(0, POD_SIZE)`. -/
def aggNodesL (k : Nat) : List Nat := List.range (nodes_per_pod k)

/-- `chunk_to_agg_node(cid) = agg_nodes[cid % len(agg_nodes)]`. -/
def chunk_to_agg_node (k cid : Nat) : Nat :=
  (aggNodesL k).getD (cid % (aggNodesL k).length) 0

/-- `start_or_trigger_str`: `None` or `0` renders as `start 0`, anything
else as `trigger t`. -/
def start_or_trigger (t : Option Nat) : Option Nat :=
  match t with
  | none => none
  | some v => if v = 0 then none else some v

/-- Body of the uplink loop (`for src in hosts`): skip the aggregator
itself; otherwise send `src -> dst_agg` gated on the chunk-start condition,
with UP semantics, pre-incrementing and attaching a completion trigger that
is remembered as `last_upload_trig`. -/
def incUpStep (dstAgg : Nat) (fsz : Int) (fid rid c : Nat) (gt : Option Nat)
    (st : (Nat × Nat) × Option Nat) (src : Nat) :
    ((Nat × Nat) × Option Nat) × List Flow :=
  if src = dstAgg then (st, [])
  else
    let flowN := st.1.1 + 1
    let trig := st.1.2 + 1
    (((flowN, trig), some trig),
     [{ src := src, dst := dstAgg, flowId := flowN, gate := gt, size := fsz,
        done := some trig,
        sem := some { op := "SUM", dir := "UP", fid := fid, rid := rid, cid := c } }])

/-- Body of the downlink loop (`for dst in hosts`): skip the aggregator;
otherwise send `dst_agg -> dst` gated on `trigger last_upload_trig`, with
DOWN semantics, pre-incrementing and attaching a completion trigger that is
remembered as `last_down_trig`. -/
def incDownStep (dstAgg : Nat) (fsz : Int) (fid rid c lastUp : Nat)
    (st : (Nat × Nat) × Option Nat) (dst : Nat) :
    ((Nat × Nat) × Option Nat) × List Flow :=
  if dst = dstAgg then (st, [])
  else
    let flowN := st.1.1 + 1
    let trig := st.1.2 + 1
    (((flowN, trig), some trig),
     [{ src := dstAgg, dst := dst, flowId := flowN, gate := some lastUp,
        size := fsz, done := some trig,
        sem := some { op := "SUM", dir := "DOWN", fid := fid, rid := rid, cid := c } }])

/-- State threaded through the chunk loop: the counters `(flow_id, trig_id)`,
the `last_downlink_trigger` array (with `none` standing for the `-1`
sentinel) and `iteration_start_trigger`. -/
structure IncSt where
  flowId : Nat
  trig : Nat
  ldt : List (Option Nat)
  iterStart : Option Nat
deriving DecidableEq, Repr

/-- The chunk-start condition: the first `window` chunks take
`iteration_start_trigger`; later chunks take
`last_downlink_trigger[c - window]` unless that is still the `-1` sentinel. -/
def incChunkStart (window : Nat) (st : IncSt) (c : Nat) : Option Nat :=
  if c < window then st.iterStart
  else
    match st.ldt.getD (c - window) none with
    | none => st.iterStart
    | some t => some t

/-- The `if last_..._trig is None: trig_id += 1; last_..._trig = trig_id`
fixup after the uplink and downlink loops: returns the new `trig_id` and
the (possibly synthetic) last trigger. -/
def fixupTrig : Option Nat → Nat → Nat × Nat
  | none, T => (T + 1, T + 1)
  | some t, T => (T, t)

/-- One chunk of one iteration: the uplink loop, the synthetic-trigger fixup
when no host contributed, the downlink loop and its fixup, and the update of
`last_downlink_trigger[c]`. -/
def incChunk (nodes k : Nat) (fsz : Int) (fid window rid : Nat)
    (st : IncSt) (c : Nat) : IncSt × List Flow :=
  let chunkStart := incChunkStart window st c
  let dstAgg := chunk_to_agg_node k c
  let gt := start_or_trigger chunkStart
  let up := foldEmit (incUpStep dstAgg fsz fid rid c gt)
    ((st.flowId, st.trig), none) (List.range nodes)
  let lastUpP : Nat × Nat := fixupTrig up.1.2 up.1.1.2
  let down := foldEmit (incDownStep dstAgg fsz fid rid c lastUpP.2)
    ((up.1.1.1, lastUpP.1), none) (List.range nodes)
  let lastDownP : Nat × Nat := fixupTrig down.1.2 down.1.1.2
  ({ flowId := down.1.1.1, trig := lastDownP.1,
     ldt := st.ldt.set c (some lastDownP.2), iterStart := st.iterStart },
   up.2 ++ down.2)

/-- One iteration (`rid = it + 1`): the chunk loop, then
`iteration_start_trigger = last_downlink_trigger[chunks - 1]`. -/
def incIter (nodes k : Nat) (fsz : Int) (fid chunks window : Nat)
    (st : IncSt) (it : Nat) : IncSt × List Flow :=
  let p := foldEmit (incChunk nodes k fsz fid window (it + 1)) st
    (List.range chunks)
  ({ p.1 with iterStart := p.1.ldt.getD (chunks - 1) none }, p.2)

/-- The whole IncHierarchical generator.  `last_downlink_trigger` starts as
`[-1] * chunks`; the `Triggers` header is the final `trig_id` itself. -/
def incGen (nodes k : Nat) (fsz : Int) (chunks fid iterations window : Nat) :
    Schedule :=
  let p := foldEmit (incIter nodes k fsz fid chunks window)
    { flowId := 0, trig := 1, ldt := List.replicate chunks none, iterStart := none }
    (List.range iterations)
  { nodes := nodes,
    flows := p.2,
    connHeader := (p.2.length : Int),
    trigHeader := (p.1.trig : Int),
    decls := List.range' 1 p.1.trig }

/-! ### The trigger-dependency graph and its properties

`Referenced` says a trigger id occurs on some flow line (as a `trigger` gate
or as a `send_done_trigger`); `Edge L i j` says the flow at position `i`
owns the completion trigger that gates the flow at position `j`; `FlowDAG`
says this relation has no cycle. -/

/-- Trigger id `t` is referenced by some flow of `L`, either as its start
gate or as its attached completion trigger. -/
def Referenced (L : List Flow) (t : Nat) : Prop :=
  ∃ f ∈ L, f.gate = some t ∨ f.done = some t

/-- Structural closure of a schedule: every referenced trigger id has
exactly one matching declaration line. -/
def ClosedSched (S : Schedule) : Prop :=
  ∀ t, Referenced S.flows t → S.decls.count t = 1

/-- Trigger id `t` is declared but never referenced by any flow. -/
def Unref (S : Schedule) (t : Nat) : Prop :=
  t ∈ S.decls ∧ ¬ Referenced S.flows t

/-- Dependency edge between flow positions: the flow at `i` attaches the
completion trigger on which the flow at `j` is gated. -/
def Edge (L : List Flow) (i j : Nat) : Prop :=
  ∃ fi fj t, L[i]? = some fi ∧ L[j]? = some fj ∧
    fi.done = some t ∧ fj.gate = some t

/-- The flow list's trigger-dependency graph has no (directed) cycle. -/
def FlowDAG (L : List Flow) : Prop :=
  ∀ i, ¬ Relation.TransGen (Edge L) i i

/-- State invariant of the INC chunk loop: every stored
`last_downlink_trigger` entry and the `iteration_start_trigger` are bounded
by the counter. -/
def IncInv (st : IncSt) : Prop :=
  (∀ c2 t, st.ldt.getD c2 none = some t → t ≤ st.trig) ∧
  (∀ t, st.iterStart = some t → t ≤ st.trig)

/-- Positivity invariant of the INC chunk loop: the counter has been started
(`trig_id ≥ 1`) and every stored `last_downlink_trigger` entry and the
`iteration_start_trigger` hold pre-incremented trigger values (`≥ 2`). -/
def IncPos (st : IncSt) : Prop :=
  1 ≤ st.trig ∧ (∀ c2 t, st.ldt.getD c2 none = some t → 2 ≤ t) ∧
  (∀ t, st.iterStart = some t → 2 ≤ t)

/-- The flow is an INC uplink flow of round `rid`, chunk `c` (semantics
`agg_dir UP rid <rid> cid <c>`). -/
def isUp (rid c : Nat) (f : Flow) : Bool :=
  match f.sem with
  | some s => s.dir == "UP" && s.rid == rid && s.cid == c
  | none => false

/-- The flow is an INC downlink flow of round `rid`, chunk `c` (semantics
`agg_dir DOWN rid <rid> cid <c>`). -/
def isDown (rid c : Nat) (f : Flow) : Bool :=
  match f.sem with
  | some s => s.dir == "DOWN" && s.rid == rid && s.cid == c
  | none => false

/-- Accounting relation tying a flow list to the running `trig_id` counter:
`Spanned b T0 L T1` says the counter goes from `T0` to `T1 ≥ T0` across `L`,
each flow's attached `done` trigger lies in its own counter span, and each
flow's gate is below the counter value after the flow (strictly when
`b = false`; when `b = true` equality is allowed but every `done` must
strictly exceed its span start).  Both modes force dependency edges to point
forward in the list. -/
inductive Spanned (b : Bool) : Nat → List Flow → Nat → Prop where
  | nil : ∀ {T0 T1 : Nat}, T0 ≤ T1 → Spanned b T0 [] T1
  | cons : ∀ {T0 T T1 : Nat} {f : Flow} {fs : List Flow},
      T0 ≤ T →
      (∀ t, f.gate = some t → t < T ∨ (b = true ∧ t ≤ T)) →
      (∀ t, f.done = some t → T0 ≤ t ∧ t ≤ T ∧ (b = true → T0 < t)) →
      (∀ t u, f.gate = some t → f.done = some u → t < u) →
      Spanned b T fs T1 → Spanned b T0 (f :: fs) T1

theorem Spanned.start_le {b : Bool} {T0 L T1} (h : Spanned b T0 L T1) :
    T0 ≤ T1 := by
  induction h with
  | nil h => exact h
  | cons h1 _ _ _ _ ih => exact le_trans h1 ih

theorem Spanned.done_ge {b : Bool} {T0 L T1} (h : Spanned b T0 L T1) :
    ∀ f ∈ L, ∀ t, f.done = some t → T0 ≤ t := by
  induction h with
  | nil _ => intro f hf; simp at hf
  | cons h1 _ h3 _ _ ih =>
    intro f hf t ht
    rcases List.mem_cons.mp hf with rfl | hf
    · exact (h3 t ht).1
    · exact le_trans h1 (ih f hf t ht)

theorem Spanned.done_gt {T0 L T1} (h : Spanned true T0 L T1) :
    ∀ f ∈ L, ∀ t, f.done = some t → T0 < t := by
  induction h with
  | nil _ => intro f hf; simp at hf
  | cons h1 _ h3 _ _ ih =>
    intro f hf t ht
    rcases List.mem_cons.mp hf with rfl | hf
    · exact (h3 t ht).2.2 rfl
    · exact lt_of_le_of_lt h1 (ih f hf t ht)

theorem Spanned.done_le {b : Bool} {T0 L T1} (h : Spanned b T0 L T1) :
    ∀ f ∈ L, ∀ t, f.done = some t → t ≤ T1 := by
  induction h with
  | nil _ => intro f hf; simp at hf
  | cons _ _ h3 _ htail ih =>
    intro f hf t ht
    rcases List.mem_cons.mp hf with rfl | hf
    · exact le_trans (h3 t ht).2.1 htail.start_le
    · exact ih f hf t ht

theorem Spanned.gate_le {b : Bool} {T0 L T1} (h : Spanned b T0 L T1) :
    ∀ f ∈ L, ∀ t, f.gate = some t → t ≤ T1 := by
  induction h with
  | nil _ => intro f hf; simp at hf
  | cons _ h2 _ _ htail ih =>
    intro f hf t ht
    rcases List.mem_cons.mp hf with rfl | hf
    · rcases h2 t ht with h | h
      · exact le_trans (le_of_lt h) htail.start_le
      · exact le_trans h.2 htail.start_le
    · exact ih f hf t ht

theorem Spanned.gate_lt {T0 L T1} (h : Spanned false T0 L T1) :
    ∀ f ∈ L, ∀ t, f.gate = some t → t < T1 := by
  induction h with
  | nil _ => intro f hf; simp at hf
  | cons _ h2 _ _ htail ih =>
    intro f hf t ht
    rcases List.mem_cons.mp hf with rfl | hf
    · rcases h2 t ht with h | h
      · exact lt_of_lt_of_le h htail.start_le
      · exact absurd h.1 (by simp)
    · exact ih f hf t ht

theorem Spanned.mono {b : Bool} {T0 L T1} (h : Spanned b T0 L T1)
    {T0' T1' : Nat} (h0 : T0' ≤ T0) (h1 : T1 ≤ T1') : Spanned b T0' L T1' := by
  induction h generalizing T0' T1' with
  | nil h => exact Spanned.nil (le_trans h0 (le_trans h h1))
  | cons hT hg hd hgd htail ih =>
    refine Spanned.cons (le_trans h0 hT) hg ?_ hgd (ih le_rfl h1)
    intro t ht
    exact ⟨le_trans h0 (hd t ht).1, (hd t ht).2.1,
      fun hb => lt_of_le_of_lt h0 ((hd t ht).2.2 hb)⟩

theorem Spanned.append {b : Bool} {T0 T T1 A B} (hA : Spanned b T0 A T)
    (hB : Spanned b T B T1) : Spanned b T0 (A ++ B) T1 := by
  induction hA with
  | nil h => exact hB.mono h le_rfl
  | cons h1 h2 h3 h4 _ ih => exact Spanned.cons h1 h2 h3 h4 (ih hB)

/-- A helper for the one-flow emission steps. -/
theorem Spanned.single {b : Bool} {T0 T1 : Nat} {f : Flow} (hT : T0 ≤ T1)
    (hg : ∀ t, f.gate = some t → t < T1 ∨ (b = true ∧ t ≤ T1))
    (hd : ∀ t, f.done = some t → T0 ≤ t ∧ t ≤ T1 ∧ (b = true → T0 < t))
    (hgd : ∀ t u, f.gate = some t → f.done = some u → t < u) :
    Spanned b T0 [f] T1 :=
  Spanned.cons hT hg hd hgd (Spanned.nil le_rfl)

theorem mem_of_getElem? {α : Type} {l : List α} {n : Nat} {a : α}
    (h : l[n]? = some a) : a ∈ l := by
  induction l generalizing n with
  | nil => simp at h
  | cons x xs ih =>
    cases n with
    | zero => simp at h; simp [h]
    | succ m =>
      rw [List.getElem?_cons_succ] at h
      exact List.mem_cons_of_mem _ (ih h)

/-- In a spanned flow list every dependency edge points strictly forward. -/
theorem Spanned.edge_lt {b : Bool} {T0 L T1} (h : Spanned b T0 L T1) :
    ∀ i j, Edge L i j → i < j := by
  induction h with
  | nil _ =>
    intro i j he
    rcases he with ⟨fi, fj, t, hi, _, _, _⟩
    simp at hi
  | @cons T0 T T1 f fs hT hg hd hgd htail ih =>
    intro i j he
    rcases he with ⟨fi, fj, t, hi, hj, hdi, hgj⟩
    cases i with
    | zero =>
      cases j with
      | zero =>
        simp at hi hj
        subst hi; subst hj
        exact absurd (hgd t t hgj hdi) (lt_irrefl t)
      | succ j' => exact Nat.succ_pos j'
    | succ i' =>
      cases j with
      | zero =>
        simp at hj
        subst hj
        rw [List.getElem?_cons_succ] at hi
        have hmem : fi ∈ fs := mem_of_getElem? hi
        have hge : T ≤ t := htail.done_ge fi hmem t hdi
        rcases hg t hgj with hlt | ⟨hb, hle⟩
        · exact absurd (lt_of_lt_of_le hlt hge) (lt_irrefl t)
        · subst hb
          have hgt : T < t := htail.done_gt fi hmem t hdi
          exact absurd (lt_of_le_of_lt hle hgt) (lt_irrefl t)
      | succ j' =>
        rw [List.getElem?_cons_succ] at hi hj
        exact Nat.succ_lt_succ (ih i' j' ⟨fi, fj, t, hi, hj, hdi, hgj⟩)

/-- Any relation whose edges strictly increase has no cycle. -/
theorem flowDAG_of_forward {L : List Flow}
    (h : ∀ i j, Edge L i j → i < j) : FlowDAG L := by
  intro i hcyc
  have key : ∀ a c, Relation.TransGen (Edge L) a c → a < c := by
    intro a c hac
    induction hac with
    | single he => exact h _ _ he
    | tail _ he ih => exact lt_trans ih (h _ _ he)
  exact lt_irrefl i (key i i hcyc)

/-- Gluing: a lax-gated segment followed by a strict-done segment still has
only forward edges, hence no cycle. -/
theorem flowDAG_glue {T0 Tm T1 : Nat} {A B : List Flow}
    (hA : Spanned false T0 A Tm) (hB : Spanned true Tm B T1) :
    FlowDAG (A ++ B) := by
  apply flowDAG_of_forward
  intro i j he
  rcases he with ⟨fi, fj, t, hi, hj, hdi, hgj⟩
  by_cases hiA : i < A.length
  · by_cases hjA : j < A.length
    · rw [List.getElem?_append_left hiA] at hi
      rw [List.getElem?_append_left hjA] at hj
      exact hA.edge_lt i j ⟨fi, fj, t, hi, hj, hdi, hgj⟩
    · exact lt_of_lt_of_le hiA (le_of_not_lt hjA)
  · by_cases hjA : j < A.length
    · rw [List.getElem?_append_right (le_of_not_lt hiA)] at hi
      rw [List.getElem?_append_left hjA] at hj
      have hmemi : fi ∈ B := mem_of_getElem? hi
      have hmemj : fj ∈ A := mem_of_getElem? hj
      have h1 : Tm ≤ t := hB.done_ge fi hmemi t hdi
      have h2 : t < Tm := hA.gate_lt fj hmemj t hgj
      exact absurd (lt_of_lt_of_le h2 h1) (lt_irrefl t)
    · rw [List.getElem?_append_right (le_of_not_lt hiA)] at hi
      rw [List.getElem?_append_right (le_of_not_lt hjA)] at hj
      have := hB.edge_lt (i - A.length) (j - A.length)
        ⟨fi, fj, t, hi, hj, hdi, hgj⟩
      omega

/-- A fully lax-gated list has no cycle. -/
theorem flowDAG_of_spanned {T0 T1 : Nat} {L : List Flow}
    (h : Spanned false T0 L T1) : FlowDAG L :=
  flowDAG_of_forward (fun i j he => h.edge_lt i j he)

/-! ### Fold lemmas -/

theorem foldEmit_append {σ : Type} (f : σ → Nat → σ × List Flow) (st : σ)
    (l1 l2 : List Nat) :
    foldEmit f st (l1 ++ l2) =
      ((foldEmit f (foldEmit f st l1).1 l2).1,
       (foldEmit f st l1).2 ++ (foldEmit f (foldEmit f st l1).1 l2).2) := by
  induction l1 generalizing st with
  | nil => simp [foldEmit]
  | cons n ns ih => simp [foldEmit, ih, List.append_assoc]

/-- Workhorse: if every step of a fold emits a spanned segment (relative to
a counter projection `tr`) and preserves a state invariant `P`, then the
whole fold emits a spanned list and preserves `P`. -/
theorem foldEmit_single {σ : Type} (f : σ → Nat → σ × List Flow) (st : σ)
    (x : Nat) : foldEmit f st [x] = ((f st x).1, (f st x).2 ++ []) := rfl

theorem spanned_foldEmit {σ : Type} (b : Bool) (tr : σ → Nat) (P : σ → Prop)
    (f : σ → Nat → σ × List Flow) (l : List Nat)
    (hstep : ∀ st n, n ∈ l → P st →
      Spanned b (tr st) (f st n).2 (tr (f st n).1) ∧ P (f st n).1) :
    ∀ st, P st →
      Spanned b (tr st) (foldEmit f st l).2 (tr (foldEmit f st l).1) ∧
        P (foldEmit f st l).1 := by
  induction l with
  | nil => intro st hP; exact ⟨Spanned.nil le_rfl, hP⟩
  | cons n ns ih =>
    intro st hP
    have h1 := hstep st n (List.mem_cons_self n ns) hP
    have h2 := ih (fun st2 m hm hP2 => hstep st2 m (List.mem_cons_of_mem n hm) hP2)
      (f st n).1 h1.2
    exact ⟨by simpa [foldEmit] using h1.1.append h2.1, by simpa [foldEmit] using h2.2⟩

/-- Companion workhorse: a per-flow predicate `Q` holding on every step's
emission (under an invariant `P`) holds on the whole fold's emission. -/
theorem allFlows_foldEmit {σ : Type} (P : σ → Prop) (Q : Flow → Prop)
    (f : σ → Nat → σ × List Flow) (l : List Nat)
    (hstep : ∀ st n, n ∈ l → P st →
      (∀ fl ∈ (f st n).2, Q fl) ∧ P (f st n).1) :
    ∀ st, P st →
      (∀ fl ∈ (foldEmit f st l).2, Q fl) ∧ P (foldEmit f st l).1 := by
  induction l with
  | nil => intro st hP; exact ⟨by intro fl h; simp [foldEmit] at h, hP⟩
  | cons n ns ih =>
    intro st hP
    have h1 := hstep st n (List.mem_cons_self n ns) hP
    have h2 := ih (fun st2 m hm hP2 => hstep st2 m (List.mem_cons_of_mem n hm) hP2)
      (f st n).1 h1.2
    refine ⟨?_, by simpa [foldEmit] using h2.2⟩
    intro fl hfl
    simp only [foldEmit, List.mem_append] at hfl
    rcases hfl with h | h
    · exact h1.1 fl h
    · exact h2.1 fl h

/-- A trigger id in `[1, T]` occurs exactly once among the declarations
`range(1, T + 1)`. -/
theorem count_range'_one {T t : Nat} (h1 : 1 ≤ t) (h2 : t ≤ T) :
    (List.range' 1 T).count t = 1 :=
  List.count_eq_one_of_mem (List.nodup_range' 1 T 1 Nat.one_pos)
    (List.mem_range'_1.mpr ⟨h1, by omega⟩)

/-- Closure of a schedule follows from range-shaped declarations plus lower
and upper bounds on every referenced trigger id. -/
theorem closedSched_of_bounds (S : Schedule) (T : Nat)
    (hdecls : S.decls = List.range' 1 T)
    (hlo : ∀ f ∈ S.flows, ∀ t, f.gate = some t ∨ f.done = some t → 1 ≤ t)
    (hhi : ∀ f ∈ S.flows, ∀ t, f.gate = some t ∨ f.done = some t → t ≤ T) :
    ClosedSched S := by
  rintro t ⟨f, hf, hor⟩
  rw [hdecls]
  exact count_range'_one (hlo f hf t hor) (hhi f hf t hor)

theorem getLastD_ge_of_all {l : List Nat} {B : Nat} (h : ∀ x ∈ l, B ≤ x)
    (hne : l ≠ []) : B ≤ l.getLastD 0 := by
  have h2 : l.getLast?.isSome := List.getLast?_isSome.mpr hne
  rcases Option.isSome_iff_exists.mp h2 with ⟨a, ha⟩
  rw [List.getLastD_eq_getLast?, ha]
  exact h a (List.mem_of_mem_getLast? ha)

theorem getD_ge_of_mem {l : List Nat} {B : Nat} (h : ∀ x ∈ l, B ≤ x)
    {i : Nat} (hi : i < l.length) : B ≤ l.getD i 0 := by
  rw [List.getD_eq_getElem l 0 hi]
  exact h _ (List.getElem_mem hi)

/-- Fold lemma for strict reference bounds: if every step's emission only
references trigger ids strictly below the step's own final counter, and the
counter is monotone, then every referenced id is strictly below the fold's
final counter. -/
theorem refLt_foldEmit {σ : Type} (tr : σ → Nat) (P : σ → Prop)
    (f : σ → Nat → σ × List Flow) (l : List Nat)
    (hstep : ∀ st n, n ∈ l → P st →
      (∀ fl ∈ (f st n).2, ∀ t, fl.gate = some t ∨ fl.done = some t →
        t < tr (f st n).1) ∧ tr st ≤ tr (f st n).1 ∧ P (f st n).1) :
    ∀ st, P st →
      (∀ fl ∈ (foldEmit f st l).2, ∀ t, fl.gate = some t ∨ fl.done = some t →
        t < tr (foldEmit f st l).1) ∧ tr st ≤ tr (foldEmit f st l).1 ∧
      P (foldEmit f st l).1 := by
  induction l with
  | nil =>
    intro st hP
    exact ⟨by intro fl h; simp [foldEmit] at h, le_rfl, hP⟩
  | cons n ns ih =>
    intro st hP
    have h1 := hstep st n (List.mem_cons_self n ns) hP
    have h2 := ih (fun st2 m hm hP2 => hstep st2 m (List.mem_cons_of_mem n hm) hP2)
      (f st n).1 h1.2.2
    refine ⟨?_, ?_, by simpa [foldEmit] using h2.2.2⟩
    · intro fl hfl t hor
      simp only [foldEmit, List.mem_append] at hfl
      show t < tr (foldEmit f (f st n).1 ns).1
      rcases hfl with h | h
      · exact lt_of_lt_of_le (h1.1 fl h t hor) h2.2.1
      · exact h2.1 fl h t hor
    · show tr st ≤ tr (foldEmit f (f st n).1 ns).1
      exact le_trans h1.2.1 h2.2.1

/-! ### Ring chain and group structure

Quantitative description of phase 1 of the Ring generator, for `gs ≥ 3`:
each chain advances `trig_id` by `gs - 2`, each ring (group) by
`gs * (gs - 2)`, the final hop of a chain is gated on the counter value
reached just before it (`trig_id - 1` at chain end) and attaches no
completion trigger, while the hop before it attaches exactly that
trigger. -/

/-- Evaluation of the chain step at the first hop `d = 1` (hypothesis
`1 ≠ gs - 1` holds whenever `gs ≥ 3`). -/
theorem ringChainStep_first (gsrcs : List Nat) (gs : Nat) (fsz : Int) (s : Nat)
    (fid T : Nat) (h2 : ¬ (1 : Nat) = gs - 1) :
    ringChainStep gsrcs gs fsz s (fid, T) 1 =
      ((fid + 1, T),
       [{ src := gsrcs.getD (s % gs) 0, dst := gsrcs.getD ((s + 1) % gs) 0,
          flowId := fid + 1, gate := none, size := fsz, done := some T,
          sem := none }]) := by
  simp [ringChainStep, h2]

/-- Evaluation of the chain step at a middle hop `2 ≤ d < gs - 1`. -/
theorem ringChainStep_mid (gsrcs : List Nat) (gs : Nat) (fsz : Int) (s d : Nat)
    (fid T : Nat) (h1 : ¬ d = 1) (h2 : ¬ d = gs - 1) :
    ringChainStep gsrcs gs fsz s (fid, T) d =
      ((fid + 1, T + 1),
       [{ src := gsrcs.getD ((s + d - 1) % gs) 0, dst := gsrcs.getD ((s + d) % gs) 0,
          flowId := fid + 1, gate := some T, size := fsz, done := some (T + 1),
          sem := none }]) := by
  simp [ringChainStep, h1, h2]

/-- Evaluation of the chain step at the final hop `d = gs - 1 ≥ 2`. -/
theorem ringChainStep_last (gsrcs : List Nat) (gs : Nat) (fsz : Int) (s : Nat)
    (fid T : Nat) (hgs : 3 ≤ gs) :
    ringChainStep gsrcs gs fsz s (fid, T) (gs - 1) =
      ((fid + 1, T + 1),
       [{ src := gsrcs.getD ((s + (gs - 1) - 1) % gs) 0,
          dst := gsrcs.getD ((s + (gs - 1)) % gs) 0,
          flowId := fid + 1, gate := some T, size := fsz, done := none,
          sem := none }]) := by
  have h1 : ¬ (gs - 1 = 1) := by omega
  have h2 : ¬ (gs = 2) := by omega
  simp [ringChainStep, h1, h2]

theorem ringChain_prefix (gsrcs : List Nat) (gs : Nat) (fsz : Int) (s : Nat)
    (m : Nat) (hm1 : 1 ≤ m) (hm2 : m ≤ gs - 2) (fid T : Nat) :
    (foldEmit (ringChainStep gsrcs gs fsz s) (fid, T) (List.range' 1 m)).1 =
      (fid + m, T + (m - 1)) ∧
    (foldEmit (ringChainStep gsrcs gs fsz s) (fid, T) (List.range' 1 m)).2.length = m ∧
    ((foldEmit (ringChainStep gsrcs gs fsz s) (fid, T) (List.range' 1 m)).2.getLast?).map
        Flow.done = some (some (T + (m - 1))) := by
  induction m with
  | zero => omega
  | succ n ih =>
    rcases Nat.eq_or_lt_of_le hm1 with h1 | h1
    · -- m = 1 : the single hop d = 1
      have hn : n = 0 := by omega
      subst hn
      have hne : ¬ (1 : Nat) = gs - 1 := by omega
      show (foldEmit (ringChainStep gsrcs gs fsz s) (fid, T) [1]).1 = _ ∧ _
      rw [show (List.range' 1 1 : List Nat) = [1] from rfl] at *
      simp [foldEmit, ringChainStep_first gsrcs gs fsz s fid T hne]
    · -- m = n + 1 with n ≥ 1 : append hop d = n + 1
      have hn1 : 1 ≤ n := by omega
      have hn2 : n ≤ gs - 2 := by omega
      have ihn := ih hn1 hn2
      have hsplit : List.range' 1 (n + 1) = List.range' 1 n ++ [n + 1] := by
        rw [List.range'_concat]
        congr 1
        simp
        omega
      rw [hsplit, foldEmit_append, ihn.1]
      have hd1 : ¬ (n + 1 = 1) := by omega
      have hd2 : ¬ (n + 1 = gs - 1) := by omega
      rw [show (foldEmit (ringChainStep gsrcs gs fsz s) (fid + n, T + (n - 1)) [n + 1]) =
            ((ringChainStep gsrcs gs fsz s (fid + n, T + (n - 1)) (n + 1)).1,
             (ringChainStep gsrcs gs fsz s (fid + n, T + (n - 1)) (n + 1)).2 ++ []) from rfl]
      rw [ringChainStep_mid gsrcs gs fsz s (n + 1) (fid + n) (T + (n - 1)) hd1 hd2]
      refine ⟨?_, ?_, ?_⟩
      · simp only [Prod.mk.injEq]
        constructor <;> omega
      · simp [ihn.2.1]
      · rw [List.append_nil, List.getLast?_concat]
        simp
        omega

theorem ringChainEmit_spec (gsrcs : List Nat) (gs : Nat) (fsz : Int) (s : Nat)
    (hgs : 3 ≤ gs) (fid T : Nat) :
    (ringChainEmit gsrcs gs fsz s (fid, T)).1 = (fid + (gs - 1), T + (gs - 2)) ∧
    (ringChainEmit gsrcs gs fsz s (fid, T)).2.length = gs - 1 ∧
    ((ringChainEmit gsrcs gs fsz s (fid, T)).2.getLast?).map
        (fun f => (f.gate, f.done)) = some (some (T + (gs - 2) - 1), none) ∧
    (((ringChainEmit gsrcs gs fsz s (fid, T)).2.dropLast.getLast?).map
        Flow.done) = some (some (T + (gs - 2) - 1)) := by
  have hpre := ringChain_prefix gsrcs gs fsz s (gs - 2) (by omega) le_rfl fid T
  have hsplit : List.range' 1 (gs - 1) = List.range' 1 (gs - 2) ++ [gs - 1] := by
    have h : gs - 1 = (gs - 2) + 1 := by omega
    rw [h, List.range'_concat]
    congr 1
    simp
    omega
  have hd1 : ¬ (gs - 1 = 1) := by omega
  unfold ringChainEmit
  rw [hsplit, foldEmit_append, hpre.1]
  rw [show (foldEmit (ringChainStep gsrcs gs fsz s)
        (fid + (gs - 2), T + (gs - 2 - 1)) [gs - 1]) =
        ((ringChainStep gsrcs gs fsz s (fid + (gs - 2), T + (gs - 2 - 1)) (gs - 1)).1,
         (ringChainStep gsrcs gs fsz s (fid + (gs - 2), T + (gs - 2 - 1)) (gs - 1)).2 ++ []) from rfl]
  rw [ringChainStep_last gsrcs gs fsz s (fid + (gs - 2)) (T + (gs - 2 - 1)) hgs]
  obtain ⟨f, hf, hfd⟩ : ∃ f, (foldEmit (ringChainStep gsrcs gs fsz s) (fid, T)
      (List.range' 1 (gs - 2))).2.getLast? = some f ∧ f.done = some (T + (gs - 2 - 1)) := by
    rcases hopt : (foldEmit (ringChainStep gsrcs gs fsz s) (fid, T)
      (List.range' 1 (gs - 2))).2.getLast? with _ | f
    · rw [hopt] at hpre; simp at hpre
    · rw [hopt] at hpre
      refine ⟨f, rfl, ?_⟩
      have h3 := hpre.2.2
      simp at h3
      exact h3
  refine ⟨?_, ?_, ?_, ?_⟩
  · simp only [Prod.mk.injEq]
    constructor <;> omega
  · simp [hpre.2.1]
    omega
  · rw [List.append_nil, List.getLast?_concat]
    simp
    omega
  · rw [List.append_nil, List.dropLast_concat, hf]
    simp [hfd]
    omega

/-- A run of `m ≥ 1` chains (the first `m` values of `s`): the counter
advances by `m * (gs - 2)`, `m * (gs - 1)` hops are emitted, the final hop
is gated on the end counter minus one and attaches nothing, and the hop
before it attaches exactly that trigger. -/
theorem ringChains_prefix (gsrcs : List Nat) (gs : Nat) (fsz : Int)
    (hgs : 3 ≤ gs) (m : Nat) (hm : 1 ≤ m) (fid T : Nat) :
    (foldEmit (fun st2 s => ringChainEmit gsrcs gs fsz s st2) (fid, T)
        (List.range m)).1 = (fid + m * (gs - 1), T + m * (gs - 2)) ∧
    (foldEmit (fun st2 s => ringChainEmit gsrcs gs fsz s st2) (fid, T)
        (List.range m)).2.length = m * (gs - 1) ∧
    ((foldEmit (fun st2 s => ringChainEmit gsrcs gs fsz s st2) (fid, T)
        (List.range m)).2.getLast?).map (fun f => (f.gate, f.done)) =
      some (some (T + m * (gs - 2) - 1), none) ∧
    ((foldEmit (fun st2 s => ringChainEmit gsrcs gs fsz s st2) (fid, T)
        (List.range m)).2.dropLast.getLast?).map Flow.done =
      some (some (T + m * (gs - 2) - 1)) := by
  induction m with
  | zero => omega
  | succ n ih =>
    rcases Nat.eq_or_lt_of_le hm with h1 | h1
    · -- m = 1 : a single chain
      have hn : n = 0 := by omega
      subst hn
      have hc := ringChainEmit_spec gsrcs gs fsz 0 hgs fid T
      have hfold : (foldEmit (fun st2 s => ringChainEmit gsrcs gs fsz s st2) (fid, T)
          (List.range 1)) = ((ringChainEmit gsrcs gs fsz 0 (fid, T)).1,
            (ringChainEmit gsrcs gs fsz 0 (fid, T)).2 ++ []) := rfl
      rw [hfold, List.append_nil, hc.1]
      refine ⟨by simp, by simp [hc.2.1], ?_, ?_⟩
      · rw [hc.2.2.1]
        simp
      · rw [hc.2.2.2]
        simp
    · -- m = n + 1 with n ≥ 1
      have hn1 : 1 ≤ n := by omega
      have ihn := ih hn1
      rw [List.range_succ, foldEmit_append, ihn.1]
      have hc := ringChainEmit_spec gsrcs gs fsz n hgs (fid + n * (gs - 1))
        (T + n * (gs - 2))
      have hfold : (foldEmit (fun st2 s => ringChainEmit gsrcs gs fsz s st2)
          (fid + n * (gs - 1), T + n * (gs - 2)) [n]) =
            ((ringChainEmit gsrcs gs fsz n (fid + n * (gs - 1), T + n * (gs - 2))).1,
             (ringChainEmit gsrcs gs fsz n (fid + n * (gs - 1), T + n * (gs - 2))).2 ++ []) := rfl
      rw [hfold, List.append_nil, hc.1]
      obtain ⟨fl, hfl, hflv⟩ : ∃ fl, (ringChainEmit gsrcs gs fsz n
          (fid + n * (gs - 1), T + n * (gs - 2))).2.getLast? = some fl ∧
          (fl.gate, fl.done) = (some (T + n * (gs - 2) + (gs - 2) - 1), none) := by
        rcases hopt : (ringChainEmit gsrcs gs fsz n
            (fid + n * (gs - 1), T + n * (gs - 2))).2.getLast? with _ | fl
        · rw [hopt] at hc; simp at hc
        · rw [hopt] at hc
          have h3 := hc.2.2.1
          simp at h3
          exact ⟨fl, rfl, by simp [h3.1, h3.2]⟩
      obtain ⟨fp, hfp, hfpv⟩ : ∃ fp, (ringChainEmit gsrcs gs fsz n
          (fid + n * (gs - 1), T + n * (gs - 2))).2.dropLast.getLast? = some fp ∧
          fp.done = some (T + n * (gs - 2) + (gs - 2) - 1) := by
        rcases hopt : (ringChainEmit gsrcs gs fsz n
            (fid + n * (gs - 1), T + n * (gs - 2))).2.dropLast.getLast? with _ | fp
        · rw [hopt] at hc; simp at hc
        · rw [hopt] at hc
          have h3 := hc.2.2.2
          simp at h3
          exact ⟨fp, rfl, by simp [h3]⟩
      have hCne : (ringChainEmit gsrcs gs fsz n
          (fid + n * (gs - 1), T + n * (gs - 2))).2 ≠ [] := by
        intro hnil
        rw [hnil] at hfl
        simp at hfl
      refine ⟨?_, ?_, ?_, ?_⟩
      · simp only [Prod.mk.injEq]
        constructor
        · rw [Nat.succ_mul]; omega
        · rw [Nat.succ_mul]; omega
      · rw [List.length_append, ihn.2.1, hc.2.1, Nat.succ_mul]
      · rw [List.getLast?_append, hfl]
        simp only [Option.or_some, Option.map_some']
        rw [Nat.succ_mul]
        rw [Prod.mk.injEq] at hflv
        simp [hflv.1, hflv.2]
        omega
      · rw [List.dropLast_append_of_ne_nil _ hCne, List.getLast?_append, hfp]
        simp only [Option.or_some, Option.map_some']
        rw [Nat.succ_mul, hfpv]
        simp
        omega

/-- Evaluation of one phase-1 outer step from an explicit state. -/
theorem ringP1Step_eval (perm : List Nat) (gs loc : Nat) (fsz : Int)
    (hgs : 3 ≤ gs) (fid T : Nat) (gets : List Nat) (g : Nat) :
    ringP1Step perm gs loc fsz ((fid, T), gets) g =
      (((fid + gs * (gs - 1), T + gs * (gs - 2)),
        gets ++ [T + gs * (gs - 2) - 1]),
       (ringGroupEmit perm gs loc fsz (fid, T) g).2) := by
  have hgrp := ringChains_prefix (ringGroupSrcs perm gs loc g) gs fsz hgs gs
    (by omega) fid T
  unfold ringP1Step
  show (((ringGroupEmit perm gs loc fsz (fid, T) g).1, _), _) = _
  unfold ringGroupEmit
  rw [hgrp.1]

/-- Phase-1 state after `m` rings: counters `(m·gs·(gs-1), 1 + m·gs·(gs-2))`,
`group_end_triggers = [(g+1)·gs·(gs-2) for g in range(m)]`, and
`m·gs·(gs-1)` emitted flows. -/
theorem ringPhase1_spec (perm : List Nat) (gs loc : Nat) (fsz : Int)
    (hgs : 3 ≤ gs) (m : Nat) :
    (ringPhase1 perm m gs loc fsz).1.1 =
      (m * (gs * (gs - 1)), 1 + m * (gs * (gs - 2))) ∧
    (ringPhase1 perm m gs loc fsz).1.2 =
      (List.range m).map (fun g => (g + 1) * (gs * (gs - 2))) ∧
    (ringPhase1 perm m gs loc fsz).2.length = m * (gs * (gs - 1)) := by
  induction m with
  | zero => simp [ringPhase1, foldEmit]
  | succ n ih =>
    have hst : (ringPhase1 perm n gs loc fsz).1 =
        ((n * (gs * (gs - 1)), 1 + n * (gs * (gs - 2))),
         (List.range n).map (fun g => (g + 1) * (gs * (gs - 2)))) := by
      rw [← ih.1, ← ih.2.1]
    have hunf : ringPhase1 perm (n + 1) gs loc fsz =
        ((foldEmit (ringP1Step perm gs loc fsz)
            (ringPhase1 perm n gs loc fsz).1 [n]).1,
         (ringPhase1 perm n gs loc fsz).2 ++
           (foldEmit (ringP1Step perm gs loc fsz)
             (ringPhase1 perm n gs loc fsz).1 [n]).2) := by
      unfold ringPhase1
      rw [List.range_succ, foldEmit_append]
    rw [hunf, hst, foldEmit_single,
      ringP1Step_eval perm gs loc fsz hgs _ _ _ n]
    have hgrp := ringChains_prefix (ringGroupSrcs perm gs loc n) gs fsz hgs gs
      (by omega) (n * (gs * (gs - 1))) (1 + n * (gs * (gs - 2)))
    refine ⟨?_, ?_, ?_⟩
    · simp only [Prod.mk.injEq]
      constructor
      · rw [Nat.succ_mul]
      · rw [Nat.succ_mul]; omega
    · rw [List.range_succ, List.map_append]
      simp only [List.map_cons, List.map_nil, List.append_cancel_left_eq,
        List.cons.injEq, and_true]
      rw [Nat.succ_mul]
      omega
    · rw [List.length_append, ih.2.2]
      show _ + ((ringGroupEmit perm gs loc fsz (_, _) n).2 ++ []).length = _
      unfold ringGroupEmit
      rw [List.append_nil, hgrp.2.1, Nat.succ_mul]

/-- The phase-1 flow stream of a longer run extends that of a shorter run:
the fold over `range groups` splits at any `m ≤ groups`. -/
theorem ringPhase1_flows_split (perm : List Nat) (gs loc : Nat) (fsz : Int)
    (m groups : Nat) (h : m ≤ groups) :
    ∃ rest, (ringPhase1 perm groups gs loc fsz).2 =
      (ringPhase1 perm m gs loc fsz).2 ++ rest := by
  have hr : List.range groups = List.range m ++ List.range' m (groups - m) := by
    rw [List.range_eq_range']
    rw [show List.range' 0 groups = List.range' 0 ((groups - m) + m) by congr 1; omega]
    rw [← List.range'_append 0 m (groups - m) 1]
    simp [List.range_eq_range']
  unfold ringPhase1
  rw [hr, foldEmit_append]
  exact ⟨_, rfl⟩

/-- The gates of the phase-2 leader flows are exactly the recorded
`group_end_triggers`, in ring order. -/
theorem ringPhase2_gates (perm : List Nat) (groups gs : Nat) (fsz : Int)
    (gets : List Nat) (m : Nat) :
    ∀ st2 : (Nat × Nat) × List Nat,
    (foldEmit (ringP2Step perm groups gs fsz gets) st2 (List.range m)).2.map
        Flow.gate = (List.range m).map (fun g => some (gets.getD g 0)) := by
  induction m with
  | zero => intro st2; rfl
  | succ n ih =>
    intro st2
    rw [List.range_succ, foldEmit_append, List.map_append, List.map_append,
      ih st2]
    simp [ringP2Step, foldEmit]

/-- C5 amended: for every ring of size at least 3, the trigger recorded as
that ring's reduction-done trigger — the trigger on which the ring's phase-2
leader flow is gated, with value `(g+1)·gs·(gs-2)` for ring `g` — is the
start-gate trigger of the final intra-ring reduction flow of that ring, and
equally the completion trigger (`send_done_trigger`) of the ring's
second-to-last intra-ring reduction flow; the final intra-ring flow itself
attaches no completion trigger. -/
theorem C5_amended (conns gs loc : Nat) (fsz : Int) (perm : List Nat)
    (hgs : 3 ≤ gs) (g : Nat) (hg : g < conns / gs) :
    (ringPhase1 perm (conns / gs) gs loc fsz).1.2[g]? =
      some ((g + 1) * (gs * (gs - 2))) ∧
    ((ringPhase2 perm (conns / gs) gs fsz
        (ringPhase1 perm (conns / gs) gs loc fsz).1.2
        (ringPhase1 perm (conns / gs) gs loc fsz).1.1).2.map Flow.gate)[g]? =
      some (some ((g + 1) * (gs * (gs - 2)))) ∧
    ((ringPhase1 perm (conns / gs) gs loc fsz).2.map
        (fun f => (f.gate, f.done)))[(g + 1) * (gs * (gs - 1)) - 1]? =
      some (some ((g + 1) * (gs * (gs - 2))), none) ∧
    ((ringPhase1 perm (conns / gs) gs loc fsz).2.map
        Flow.done)[(g + 1) * (gs * (gs - 1)) - 2]? =
      some (some ((g + 1) * (gs * (gs - 2)))) := by
  have hspec := ringPhase1_spec perm gs loc fsz hgs (conns / gs)
  have hL1 : 1 ≤ gs * (gs - 1) :=
    Nat.mul_pos (by omega) (by omega)
  have hL2 : 2 ≤ gs * (gs - 1) :=
    le_trans (by omega : 2 ≤ gs - 1) (Nat.le_mul_of_pos_left _ (by omega))
  have hq1 : 1 ≤ gs * (gs - 2) :=
    Nat.mul_pos (by omega) (by omega)
  have hsmL : (g + 1) * (gs * (gs - 1)) = g * (gs * (gs - 1)) + gs * (gs - 1) := by
    ring
  have hsmq : (g + 1) * (gs * (gs - 2)) = g * (gs * (gs - 2)) + gs * (gs - 2) := by
    ring
  -- the recorded trigger
  have hA : (ringPhase1 perm (conns / gs) gs loc fsz).1.2[g]? =
      some ((g + 1) * (gs * (gs - 2))) := by
    rw [hspec.2.1, List.getElem?_map, List.getElem?_range hg]
    rfl
  -- locate the ring's segment inside the phase-1 flow stream
  obtain ⟨rest, hre⟩ := ringPhase1_flows_split perm gs loc fsz (g + 1)
    (conns / gs) (by omega)
  have hPspec := ringPhase1_spec perm gs loc fsz hgs (g + 1)
  have hgspec := ringPhase1_spec perm gs loc fsz hgs g
  have hst : (ringPhase1 perm g gs loc fsz).1 =
      ((g * (gs * (gs - 1)), 1 + g * (gs * (gs - 2))),
       (List.range g).map (fun g2 => (g2 + 1) * (gs * (gs - 2)))) := by
    rw [← hgspec.1, ← hgspec.2.1]
  have hunf : ringPhase1 perm (g + 1) gs loc fsz =
      ((foldEmit (ringP1Step perm gs loc fsz)
          (ringPhase1 perm g gs loc fsz).1 [g]).1,
       (ringPhase1 perm g gs loc fsz).2 ++
         (foldEmit (ringP1Step perm gs loc fsz)
           (ringPhase1 perm g gs loc fsz).1 [g]).2) := by
    unfold ringPhase1
    rw [List.range_succ, foldEmit_append]
  have hPflows : (ringPhase1 perm (g + 1) gs loc fsz).2 =
      (ringPhase1 perm g gs loc fsz).2 ++
        ((ringGroupEmit perm gs loc fsz
          (g * (gs * (gs - 1)), 1 + g * (gs * (gs - 2))) g).2 ++ []) := by
    rw [hunf, hst, foldEmit_single, ringP1Step_eval perm gs loc fsz hgs _ _ _ g]
  have hgrp := ringChains_prefix (ringGroupSrcs perm gs loc g) gs fsz hgs gs
    (by omega) (g * (gs * (gs - 1))) (1 + g * (gs * (gs - 2)))
  have hseglen : (ringGroupEmit perm gs loc fsz
      (g * (gs * (gs - 1)), 1 + g * (gs * (gs - 2))) g).2.length =
      gs * (gs - 1) := hgrp.2.1
  have hseglast : ((ringGroupEmit perm gs loc fsz
      (g * (gs * (gs - 1)), 1 + g * (gs * (gs - 2))) g).2.getLast?).map
        (fun f => (f.gate, f.done)) =
      some (some (1 + g * (gs * (gs - 2)) + gs * (gs - 2) - 1), none) :=
    hgrp.2.2.1
  have hsegpen : ((ringGroupEmit perm gs loc fsz
      (g * (gs * (gs - 1)), 1 + g * (gs * (gs - 2))) g).2.dropLast.getLast?).map
        Flow.done =
      some (some (1 + g * (gs * (gs - 2)) + gs * (gs - 2) - 1)) :=
    hgrp.2.2.2
  refine ⟨hA, ?_, ?_, ?_⟩
  · -- phase-2 gate
    have hgates := ringPhase2_gates perm (conns / gs) gs fsz
      (ringPhase1 perm (conns / gs) gs loc fsz).1.2 (conns / gs)
      ((ringPhase1 perm (conns / gs) gs loc fsz).1.1, [])
    unfold ringPhase2
    rw [hgates, List.getElem?_map, List.getElem?_range hg]
    simp only [Option.map_some']
    congr 2
    rw [List.getD_eq_getElem?_getD, hA]
    rfl
  · -- final intra-ring flow: gate = recorded trigger, no completion trigger
    rw [List.getElem?_map, hre]
    rw [List.getElem?_append_left (by rw [hPspec.2.2]; omega)]
    rw [hPflows, List.append_nil]
    rw [List.getElem?_append_right (by rw [hgspec.2.2]; omega)]
    rw [hgspec.2.2]
    rw [show (g + 1) * (gs * (gs - 1)) - 1 - g * (gs * (gs - 1)) =
        gs * (gs - 1) - 1 from by omega]
    rw [show (gs * (gs - 1) - 1 : Nat) =
        (ringGroupEmit perm gs loc fsz
          (g * (gs * (gs - 1)), 1 + g * (gs * (gs - 2))) g).2.length - 1
        from by rw [hseglen]]
    rw [← List.getLast?_eq_getElem?]
    rw [hseglast]
    congr 3
    omega
  · -- second-to-last intra-ring flow: completion trigger = recorded trigger
    rw [List.getElem?_map, hre]
    rw [List.getElem?_append_left (by rw [hPspec.2.2]; omega)]
    rw [hPflows, List.append_nil]
    rw [List.getElem?_append_right (by rw [hgspec.2.2]; omega)]
    rw [hgspec.2.2]
    rw [show (g + 1) * (gs * (gs - 1)) - 2 - g * (gs * (gs - 1)) =
        gs * (gs - 1) - 2 from by omega]
    have hdl : (ringGroupEmit perm gs loc fsz
        (g * (gs * (gs - 1)), 1 + g * (gs * (gs - 2))) g).2[gs * (gs - 1) - 2]? =
        (ringGroupEmit perm gs loc fsz
          (g * (gs * (gs - 1)), 1 + g * (gs * (gs - 2))) g).2.dropLast.getLast? := by
      rw [List.getLast?_eq_getElem?, List.length_dropLast, List.getElem?_dropLast,
        hseglen]
      rw [if_pos (by omega)]
      rw [show gs * (gs - 1) - 1 - 1 = gs * (gs - 1) - 2 from by omega]
    rw [hdl, hsegpen]
    congr 2
    omega

/-- C5 amended, instantiated: one ring of size 4 with the identity shuffle;
the recorded trigger is 8, the gate of the phase-2 flow, the gate of the
12th phase-1 flow (index 11) which attaches nothing, and the completion
trigger of the 11th phase-1 flow (index 10). -/
theorem C5_amended_witness :
    (3 ≤ 4 ∧ 0 < 4 / 4) ∧
    ((ringPhase1 [0, 1, 2, 3] (4 / 4) 4 0 1000).1.2[0]? =
        some ((0 + 1) * (4 * (4 - 2))) ∧
      ((ringPhase2 [0, 1, 2, 3] (4 / 4) 4 1000
          (ringPhase1 [0, 1, 2, 3] (4 / 4) 4 0 1000).1.2
          (ringPhase1 [0, 1, 2, 3] (4 / 4) 4 0 1000).1.1).2.map Flow.gate)[0]? =
        some (some ((0 + 1) * (4 * (4 - 2)))) ∧
      ((ringPhase1 [0, 1, 2, 3] (4 / 4) 4 0 1000).2.map
          (fun f => (f.gate, f.done)))[(0 + 1) * (4 * (4 - 1)) - 1]? =
        some (some ((0 + 1) * (4 * (4 - 2))), none) ∧
      ((ringPhase1 [0, 1, 2, 3] (4 / 4) 4 0 1000).2.map
          Flow.done)[(0 + 1) * (4 * (4 - 1)) - 2]? =
        some (some ((0 + 1) * (4 * (4 - 2))))) :=
  ⟨⟨by decide, by decide⟩,
   C5_amended 4 4 0 1000 [0, 1, 2, 3] (by decide) 0 (by decide)⟩

/-! ### Spanned runs of the four generators -/

theorem getD_le_of_all {l : List Nat} {B : Nat} (h : ∀ x ∈ l, x ≤ B)
    (g : Nat) : l.getD g 0 ≤ B := by
  rw [List.getD_eq_getElem?_getD]
  rcases hg : l[g]? with _ | x
  · simp
  · simpa using h x (mem_of_getElem? hg)

theorem getLastD_le_of_all {l : List Nat} {B : Nat} (h : ∀ x ∈ l, x ≤ B) :
    l.getLastD 0 ≤ B := by
  rw [List.getLastD_eq_getLast?]
  rcases hg : l.getLast? with _ | x
  · simp
  · rw [List.getLast?_eq_getElem?] at hg
    simpa using h x (mem_of_getElem? hg)

/-- The upward phase of the Tree generator is a (lax) spanned run. -/
theorem treeUp_spanned (bf : Nat) (fsz : Int) (l : List Nat) (st : Nat × Nat) :
    Spanned false st.2 (foldEmit (treeUpStep bf fsz) st l).2
      (foldEmit (treeUpStep bf fsz) st l).1.2 := by
  refine (spanned_foldEmit false Prod.snd (fun _ => True) (treeUpStep bf fsz) l
    ?_ st trivial).1
  rintro ⟨fid, T⟩ n _ _
  refine ⟨?_, trivial⟩
  show Spanned false T _ _
  rw [show treeUpStep bf fsz (fid, T) n =
      ((fid + 1, T + 1),
       [{ src := n, dst := treeParent bf n, flowId := fid + 1, gate := none,
          size := fsz, done := some T, sem := none }]) from rfl]
  show Spanned false T _ (T + 1)
  refine Spanned.single (by omega) ?_ ?_ ?_
  · intro t ht; simp at ht
  · intro t ht
    simp at ht
    subst ht
    exact ⟨le_rfl, by omega, by simp⟩
  · intro t u ht _; simp at ht

/-- Evaluation of the downward step at the last child of a parent. -/
theorem treeDownStep_last (nodes p : Nat) (fsz : Int) (childrenL : List Nat)
    (fid T child : Nat) (hc : childrenL.getLast? = some child) :
    treeDownStep nodes p fsz childrenL (fid, T) child =
      ((fid + 1, T),
       [{ src := p, dst := child, flowId := fid + 1,
          gate := some (T - (nodes - 1)), size := fsz, done := none,
          sem := none }]) := by
  simp [treeDownStep, hc]

/-- Evaluation of the downward step at a non-last child of a parent. -/
theorem treeDownStep_mid (nodes p : Nat) (fsz : Int) (childrenL : List Nat)
    (fid T child : Nat) (hc : ¬ childrenL.getLast? = some child) :
    treeDownStep nodes p fsz childrenL (fid, T) child =
      ((fid + 1, T + 1),
       [{ src := p, dst := child, flowId := fid + 1,
          gate := some (T - (nodes - 1)), size := fsz, done := some T,
          sem := none }]) := by
  simp [treeDownStep, hc]

/-- The downward phase of the Tree generator is a (lax) spanned run, for
`nodes ≥ 2` and any counter value ≥ 1. -/
theorem treeDown_spanned (nodes bf : Nat) (fsz : Int) (hn : 2 ≤ nodes)
    (st : Nat × Nat) (hst : 1 ≤ st.2) :
    Spanned false st.2 (treeDownPhase nodes bf fsz st).2
      (treeDownPhase nodes bf fsz st).1.2 := by
  refine (spanned_foldEmit false (fun s => s.2) (fun s => 1 ≤ s.2) _
    (List.range nodes) ?_ st hst).1
  intro st2 p _ hP
  refine (spanned_foldEmit false (fun s => s.2) (fun s => 1 ≤ s.2) _
    (treeChildren nodes bf p) ?_ st2 hP)
  rintro ⟨fid, T⟩ child _ hP3
  have hT : 1 ≤ T := hP3
  by_cases hc : (treeChildren nodes bf p).getLast? = some child
  · rw [treeDownStep_last nodes p fsz _ fid T child hc]
    refine ⟨?_, hT⟩
    show Spanned false T _ T
    refine Spanned.single le_rfl ?_ ?_ ?_
    · intro t ht
      simp at ht
      subst ht
      left
      omega
    · intro t ht; simp at ht
    · intro t u _ hu; simp at hu
  · rw [treeDownStep_mid nodes p fsz _ fid T child hc]
    refine ⟨?_, (by omega : 1 ≤ T + 1)⟩
    show Spanned false T _ (T + 1)
    refine Spanned.single (by omega) ?_ ?_ ?_
    · intro t ht
      simp at ht
      subst ht
      left
      omega
    · intro t ht
      simp at ht
      subst ht
      exact ⟨le_rfl, by omega, by simp⟩
    · intro t u ht hu
      simp at ht hu
      omega

/-- Phase 1 of a Supernode iteration is a strict spanned run: the gate is a
fixed trigger bounded by the counter, and every send attaches a fresh
trigger. -/
theorem snP1_spanned (sn : Nat) (fsz : Int) (gt : Option Nat) (l : List Nat)
    (st : (Nat × Nat) × List Nat)
    (hgt : ∀ t, gt = some t → t ≤ st.1.2)
    (hacc : ∀ x ∈ st.2, x ≤ st.1.2) :
    Spanned true st.1.2 (foldEmit (snP1Step sn fsz gt) st l).2
      (foldEmit (snP1Step sn fsz gt) st l).1.1.2 ∧
    ((∀ t, gt = some t → t ≤ (foldEmit (snP1Step sn fsz gt) st l).1.1.2) ∧
     ∀ x ∈ (foldEmit (snP1Step sn fsz gt) st l).1.2,
       x ≤ (foldEmit (snP1Step sn fsz gt) st l).1.1.2) := by
  refine spanned_foldEmit true (fun s => s.1.2)
    (fun s => (∀ t, gt = some t → t ≤ s.1.2) ∧ ∀ x ∈ s.2, x ≤ s.1.2)
    (snP1Step sn fsz gt) l ?_ st ⟨hgt, hacc⟩
  rintro ⟨⟨fid, T⟩, acc⟩ node _ ⟨h1, h2⟩
  rw [show snP1Step sn fsz gt ((fid, T), acc) node =
      (((fid + 1, T + 1), acc ++ [T + 1]),
       [{ src := node, dst := sn, flowId := fid + 1, gate := gt, size := fsz,
          done := some (T + 1), sem := none }]) from rfl]
  refine ⟨?_, ?_, ?_⟩
  · show Spanned true T _ (T + 1)
    refine Spanned.single (by omega) ?_ ?_ ?_
    · intro t ht
      simp at ht
      subst ht
      have hb : t ≤ T := h1 t rfl
      left; omega
    · intro t ht
      simp at ht
      subst ht
      exact ⟨by omega, le_rfl, fun _ => by omega⟩
    · intro t u ht hu
      simp at ht hu
      subst ht; subst hu
      have hb : t ≤ T := h1 t rfl
      omega
  · intro t ht
    have hb : t ≤ T := h1 t ht
    show t ≤ T + 1
    omega
  · intro x hx
    show x ≤ T + 1
    rcases List.mem_append.mp hx with h | h
    · have hb : x ≤ T := h2 x h; omega
    · simp at h; omega

/-- Phase 2 of a Supernode iteration is a strict spanned run: the running
`phase2_trigger` is always bounded by the counter. -/
theorem snP2_spanned (sn : Nat) (fsz : Int) (regs : List Nat)
    (iteration iterations : Nat) (l : List Nat) (st : (Nat × Nat) × Option Nat)
    (hph : ∀ t, st.2 = some t → t ≤ st.1.2) :
    Spanned true st.1.2
      (foldEmit (snP2Step sn fsz regs iteration iterations) st l).2
      (foldEmit (snP2Step sn fsz regs iteration iterations) st l).1.1.2 ∧
    (∀ t, (foldEmit (snP2Step sn fsz regs iteration iterations) st l).1.2 = some t →
      t ≤ (foldEmit (snP2Step sn fsz regs iteration iterations) st l).1.1.2) := by
  refine spanned_foldEmit true (fun s => s.1.2)
    (fun s => ∀ t, s.2 = some t → t ≤ s.1.2)
    (snP2Step sn fsz regs iteration iterations) l ?_ st hph
  rintro ⟨⟨fid, T⟩, ph⟩ i _ h1
  by_cases hb1 : i < regs.length - 1
  · rw [show snP2Step sn fsz regs iteration iterations ((fid, T), ph) i =
        (((fid + 1, T + 1), some (T + 1)),
         [{ src := sn, dst := regs.getD i 0, flowId := fid + 1, gate := ph,
            size := fsz, done := some (T + 1), sem := none }])
      from by simp [snP2Step, hb1]]
    refine ⟨?_, ?_⟩
    · show Spanned true T _ (T + 1)
      refine Spanned.single (by omega) ?_ ?_ ?_
      · intro t ht
        simp at ht
        subst ht
        have hb : t ≤ T := h1 t rfl
        left; omega
      · intro t ht
        simp at ht
        subst ht
        exact ⟨by omega, le_rfl, fun _ => by omega⟩
      · intro t u ht hu
        simp at ht hu
        subst ht; subst hu
        have hb : t ≤ T := h1 t rfl
        omega
    · intro t ht
      simp at ht
      subst ht
      show T + 1 ≤ T + 1
      omega
  · by_cases hb2 : iteration < iterations - 1
    · rw [show snP2Step sn fsz regs iteration iterations ((fid, T), ph) i =
          (((fid + 1, T + 1), some (T + 1)),
           [{ src := sn, dst := regs.getD i 0, flowId := fid + 1, gate := ph,
              size := fsz, done := some (T + 1), sem := none }])
        from by simp [snP2Step, hb1, hb2]]
      refine ⟨?_, ?_⟩
      · show Spanned true T _ (T + 1)
        refine Spanned.single (by omega) ?_ ?_ ?_
        · intro t ht
          simp at ht
          subst ht
          have hb : t ≤ T := h1 t rfl
          left; omega
        · intro t ht
          simp at ht
          subst ht
          exact ⟨by omega, le_rfl, fun _ => by omega⟩
        · intro t u ht hu
          simp at ht hu
          subst ht; subst hu
          have hb : t ≤ T := h1 t rfl
          omega
      · intro t ht
        simp at ht
        subst ht
        show T + 1 ≤ T + 1
        omega
    · rw [show snP2Step sn fsz regs iteration iterations ((fid, T), ph) i =
          (((fid + 1, T), none),
           [{ src := sn, dst := regs.getD i 0, flowId := fid + 1, gate := ph,
              size := fsz, done := none, sem := none }])
        from by simp [snP2Step, hb1, hb2]]
      refine ⟨?_, ?_⟩
      · show Spanned true T _ T
        refine Spanned.single le_rfl ?_ ?_ ?_
        · intro t ht
          simp at ht
          subst ht
          exact Or.inr ⟨rfl, h1 t rfl⟩
        · intro t ht; simp at ht
        · intro t u _ hu; simp at hu
      · intro t ht
        simp at ht

/-- One whole Supernode iteration is a strict spanned run and preserves the
bound on `next_iteration_trigger`. -/
theorem snIter_spanned (sn : Nat) (fsz : Int) (regs : List Nat)
    (iterations : Nat) (st : (Nat × Nat) × Option Nat) (iteration : Nat)
    (hP : ∀ t, st.2 = some t → t ≤ st.1.2) :
    Spanned true st.1.2 (snIterStep sn fsz regs iterations st iteration).2
      (snIterStep sn fsz regs iterations st iteration).1.1.2 ∧
    (∀ t, (snIterStep sn fsz regs iterations st iteration).1.2 = some t →
      t ≤ (snIterStep sn fsz regs iterations st iteration).1.1.2) := by
  have hgt : ∀ t, (if iteration = 0 then none else st.2) = some t → t ≤ st.1.2 := by
    intro t ht
    by_cases h0 : iteration = 0
    · rw [if_pos h0] at ht; simp at ht
    · rw [if_neg h0] at ht; exact hP t ht
  have h1 := snP1_spanned sn fsz (if iteration = 0 then none else st.2) regs
    (st.1, []) hgt (by simp)
  have hstart : (foldEmit (snP1Step sn fsz (if iteration = 0 then none else st.2))
      (st.1, []) regs).1.2.getLastD 0 ≤
      (foldEmit (snP1Step sn fsz (if iteration = 0 then none else st.2))
        (st.1, []) regs).1.1.2 :=
    getLastD_le_of_all h1.2.2
  have h2 := snP2_spanned sn fsz regs iteration iterations
    (List.range regs.length)
    ((foldEmit (snP1Step sn fsz (if iteration = 0 then none else st.2))
        (st.1, []) regs).1.1,
     some ((foldEmit (snP1Step sn fsz (if iteration = 0 then none else st.2))
        (st.1, []) regs).1.2.getLastD 0))
    (by intro t ht
        have h3 : (some ((foldEmit (snP1Step sn fsz
            (if iteration = 0 then none else st.2)) (st.1, []) regs).1.2.getLastD 0) :
            Option Nat) = some t := ht
        rw [Option.some.injEq] at h3
        subst h3
        exact hstart)
  exact ⟨h1.1.append h2.1, h2.2⟩

/-- The full Supernode flow list is a strict spanned run from counter 1. -/
theorem supernode_spanned (sn : Nat) (fsz : Int) (iterations : Nat)
    (regs : List Nat) :
    Spanned true 1
      (foldEmit (snIterStep sn fsz regs iterations) ((0, 1), none)
        (List.range iterations)).2
      (foldEmit (snIterStep sn fsz regs iterations) ((0, 1), none)
        (List.range iterations)).1.1.2 := by
  refine (spanned_foldEmit true (fun s => s.1.2)
    (fun s => ∀ t, s.2 = some t → t ≤ s.1.2) _ (List.range iterations)
    ?_ ((0, 1), none) (by simp)).1
  intro st2 it _ hP
  exact snIter_spanned sn fsz regs iterations st2 it hP

/-- The uplink loop of one INC chunk is a strict spanned run; the fixed gate
stays bounded and `last_upload_trig` is bounded by the counter. -/
theorem incUp_spanned (dstAgg : Nat) (fsz : Int) (fid rid c : Nat)
    (gt : Option Nat) (l : List Nat) (st : (Nat × Nat) × Option Nat)
    (hgt : ∀ t, gt = some t → t ≤ st.1.2)
    (hlast : ∀ t, st.2 = some t → t ≤ st.1.2) :
    Spanned true st.1.2 (foldEmit (incUpStep dstAgg fsz fid rid c gt) st l).2
      (foldEmit (incUpStep dstAgg fsz fid rid c gt) st l).1.1.2 ∧
    ((∀ t, gt = some t →
        t ≤ (foldEmit (incUpStep dstAgg fsz fid rid c gt) st l).1.1.2) ∧
     ∀ t, (foldEmit (incUpStep dstAgg fsz fid rid c gt) st l).1.2 = some t →
        t ≤ (foldEmit (incUpStep dstAgg fsz fid rid c gt) st l).1.1.2) := by
  refine spanned_foldEmit true (fun s => s.1.2)
    (fun s => (∀ t, gt = some t → t ≤ s.1.2) ∧ ∀ t, s.2 = some t → t ≤ s.1.2)
    (incUpStep dstAgg fsz fid rid c gt) l ?_ st ⟨hgt, hlast⟩
  rintro ⟨⟨fid0, T⟩, lu⟩ src _ ⟨h1, h2⟩
  by_cases hs : src = dstAgg
  · rw [show incUpStep dstAgg fsz fid rid c gt ((fid0, T), lu) src =
        (((fid0, T), lu), []) from by simp [incUpStep, hs]]
    exact ⟨Spanned.nil le_rfl, h1, h2⟩
  · rw [show incUpStep dstAgg fsz fid rid c gt ((fid0, T), lu) src =
        (((fid0 + 1, T + 1), some (T + 1)),
         [{ src := src, dst := dstAgg, flowId := fid0 + 1, gate := gt,
            size := fsz, done := some (T + 1),
            sem := some { op := "SUM", dir := "UP", fid := fid, rid := rid,
                          cid := c } }]) from by simp [incUpStep, hs]]
    refine ⟨?_, ?_, ?_⟩
    · show Spanned true T _ (T + 1)
      refine Spanned.single (by omega) ?_ ?_ ?_
      · intro t ht
        simp at ht
        subst ht
        have hb : t ≤ T := h1 t rfl
        left; omega
      · intro t ht
        simp at ht
        subst ht
        exact ⟨by omega, le_rfl, fun _ => by omega⟩
      · intro t u ht hu
        simp at ht hu
        subst ht; subst hu
        have hb : t ≤ T := h1 t rfl
        omega
    · intro t ht
      have hb : t ≤ T := h1 t ht
      show t ≤ T + 1
      omega
    · intro t ht
      simp at ht
      subst ht
      show T + 1 ≤ T + 1
      omega

/-- The downlink loop of one INC chunk is a strict spanned run, gated on the
fixed `last_upload_trig`, with `last_down_trig` bounded by the counter. -/
theorem incDown_spanned (dstAgg : Nat) (fsz : Int) (fid rid c lastUp : Nat)
    (l : List Nat) (st : (Nat × Nat) × Option Nat)
    (hup : lastUp ≤ st.1.2)
    (hlast : ∀ t, st.2 = some t → t ≤ st.1.2) :
    Spanned true st.1.2 (foldEmit (incDownStep dstAgg fsz fid rid c lastUp) st l).2
      (foldEmit (incDownStep dstAgg fsz fid rid c lastUp) st l).1.1.2 ∧
    (lastUp ≤ (foldEmit (incDownStep dstAgg fsz fid rid c lastUp) st l).1.1.2 ∧
     ∀ t, (foldEmit (incDownStep dstAgg fsz fid rid c lastUp) st l).1.2 = some t →
        t ≤ (foldEmit (incDownStep dstAgg fsz fid rid c lastUp) st l).1.1.2) := by
  refine spanned_foldEmit true (fun s => s.1.2)
    (fun s => lastUp ≤ s.1.2 ∧ ∀ t, s.2 = some t → t ≤ s.1.2)
    (incDownStep dstAgg fsz fid rid c lastUp) l ?_ st ⟨hup, hlast⟩
  rintro ⟨⟨fid0, T⟩, ld⟩ dst _ ⟨h1, h2⟩
  by_cases hs : dst = dstAgg
  · rw [show incDownStep dstAgg fsz fid rid c lastUp ((fid0, T), ld) dst =
        (((fid0, T), ld), []) from by simp [incDownStep, hs]]
    exact ⟨Spanned.nil le_rfl, h1, h2⟩
  · rw [show incDownStep dstAgg fsz fid rid c lastUp ((fid0, T), ld) dst =
        (((fid0 + 1, T + 1), some (T + 1)),
         [{ src := dstAgg, dst := dst, flowId := fid0 + 1,
            gate := some lastUp, size := fsz, done := some (T + 1),
            sem := some { op := "SUM", dir := "DOWN", fid := fid, rid := rid,
                          cid := c } }]) from by simp [incDownStep, hs]]
    have hb : lastUp ≤ T := h1
    refine ⟨?_, ?_, ?_⟩
    · show Spanned true T _ (T + 1)
      refine Spanned.single (by omega) ?_ ?_ ?_
      · intro t ht
        simp at ht
        subst ht
        left; omega
      · intro t ht
        simp at ht
        subst ht
        exact ⟨by omega, le_rfl, fun _ => by omega⟩
      · intro t u ht hu
        simp at ht hu
        subst ht; subst hu
        omega
    · show lastUp ≤ T + 1
      omega
    · intro t ht
      simp at ht
      subst ht
      show T + 1 ≤ T + 1
      omega

theorem fixupTrig_le (lu : Option Nat) (T : Nat)
    (h : ∀ t, lu = some t → t ≤ T) :
    T ≤ (fixupTrig lu T).1 ∧ (fixupTrig lu T).2 ≤ (fixupTrig lu T).1 := by
  cases lu with
  | none => simp [fixupTrig]
  | some t => exact ⟨le_rfl, h t rfl⟩

/-- One INC chunk is a strict spanned run preserving the invariant. -/
theorem incChunk_spanned (nodes k : Nat) (fsz : Int) (fid window rid : Nat)
    (st : IncSt) (c : Nat) (hP : IncInv st) :
    Spanned true st.trig (incChunk nodes k fsz fid window rid st c).2
      (incChunk nodes k fsz fid window rid st c).1.trig ∧
    IncInv (incChunk nodes k fsz fid window rid st c).1 := by
  have hcs : ∀ t, incChunkStart window st c = some t → t ≤ st.trig := by
    intro t ht
    unfold incChunkStart at ht
    by_cases hw : c < window
    · rw [if_pos hw] at ht
      exact hP.2 t ht
    · rw [if_neg hw] at ht
      rcases hld : st.ldt.getD (c - window) none with _ | t2
      · rw [hld] at ht
        exact hP.2 t ht
      · rw [hld] at ht
        have h3 : t2 = t := by simpa using ht
        subst h3
        exact hP.1 _ t2 hld
  have hgt : ∀ t, start_or_trigger (incChunkStart window st c) = some t →
      t ≤ st.trig := by
    intro t ht
    unfold start_or_trigger at ht
    rcases hopt : incChunkStart window st c with _ | v
    · rw [hopt] at ht
      simp at ht
    · rw [hopt] at ht
      by_cases hv : v = 0
      · simp [hv] at ht
      · simp [hv] at ht
        have h4 : v ≤ st.trig := hcs v hopt
        omega
  simp only [incChunk]
  set UP := foldEmit (incUpStep (chunk_to_agg_node k c) fsz fid rid c
      (start_or_trigger (incChunkStart window st c)))
    ((st.flowId, st.trig), none) (List.range nodes) with hUP
  obtain ⟨hupS, hupGT, hupLast⟩ := incUp_spanned (chunk_to_agg_node k c) fsz
    fid rid c (start_or_trigger (incChunkStart window st c)) (List.range nodes)
    ((st.flowId, st.trig), none) hgt (by simp)
  rw [← hUP] at hupS hupLast
  have hfix1 := fixupTrig_le UP.1.2 UP.1.1.2 hupLast
  set DN := foldEmit (incDownStep (chunk_to_agg_node k c) fsz fid rid c
      (fixupTrig UP.1.2 UP.1.1.2).2)
    ((UP.1.1.1, (fixupTrig UP.1.2 UP.1.1.2).1), none) (List.range nodes) with hDN
  obtain ⟨hdnS, hdnUp, hdnLast⟩ := incDown_spanned (chunk_to_agg_node k c) fsz
    fid rid c (fixupTrig UP.1.2 UP.1.1.2).2 (List.range nodes)
    ((UP.1.1.1, (fixupTrig UP.1.2 UP.1.1.2).1), none) hfix1.2 (by simp)
  rw [← hDN] at hdnS hdnLast
  have hfix2 := fixupTrig_le DN.1.2 DN.1.1.2 hdnLast
  have hchain : st.trig ≤ (fixupTrig DN.1.2 DN.1.1.2).1 :=
    le_trans hupS.start_le (le_trans hfix1.1
      (le_trans hdnS.start_le hfix2.1))
  constructor
  · exact Spanned.append (hupS.mono le_rfl hfix1.1) (hdnS.mono le_rfl hfix2.1)
  · constructor
    · intro c2 t h
      show t ≤ (fixupTrig DN.1.2 DN.1.1.2).1
      rw [List.getD_eq_getElem?_getD, List.getElem?_set] at h
      by_cases hcc : c = c2
      · rw [if_pos hcc] at h
        by_cases hlen : c < st.ldt.length
        · rw [if_pos hlen] at h
          simp at h
          rw [← h]
          exact hfix2.2
        · rw [if_neg hlen] at h
          simp at h
      · rw [if_neg hcc] at h
        refine le_trans (hP.1 c2 t ?_) hchain
        rw [List.getD_eq_getElem?_getD]
        exact h
    · intro t h
      have hold : t ≤ st.trig := hP.2 t h
      exact le_trans hold hchain

/-- One INC iteration is a strict spanned run preserving the invariant. -/
theorem incIter_spanned (nodes k : Nat) (fsz : Int) (fid chunks window : Nat)
    (st : IncSt) (it : Nat) (hP : IncInv st) :
    Spanned true st.trig (incIter nodes k fsz fid chunks window st it).2
      (incIter nodes k fsz fid chunks window st it).1.trig ∧
    IncInv (incIter nodes k fsz fid chunks window st it).1 := by
  have h := spanned_foldEmit true IncSt.trig IncInv
    (incChunk nodes k fsz fid window (it + 1)) (List.range chunks)
    (fun st2 c _ hP2 => incChunk_spanned nodes k fsz fid window (it + 1) st2 c hP2)
    st hP
  simp only [incIter]
  refine ⟨h.1, ?_, ?_⟩
  · intro c2 t hh
    exact h.2.1 c2 t hh
  · intro t hh
    exact h.2.1 (chunks - 1) t hh

/-- The full IncHierarchical flow list is a strict spanned run from 1. -/
theorem incFold_spanned (nodes k : Nat) (fsz : Int) (chunks fid iterations window : Nat) :
    Spanned true 1
      (foldEmit (incIter nodes k fsz fid chunks window)
        { flowId := 0, trig := 1, ldt := List.replicate chunks none,
          iterStart := none } (List.range iterations)).2
      (foldEmit (incIter nodes k fsz fid chunks window)
        { flowId := 0, trig := 1, ldt := List.replicate chunks none,
          iterStart := none } (List.range iterations)).1.trig := by
  have h := spanned_foldEmit true IncSt.trig IncInv
    (incIter nodes k fsz fid chunks window) (List.range iterations)
    (fun st2 itv _ hP2 => incIter_spanned nodes k fsz fid chunks window st2 itv hP2)
    { flowId := 0, trig := 1, ldt := List.replicate chunks none,
      iterStart := none } ?_
  · exact h.1
  · constructor
    · intro c2 t hh
      rw [List.getD_eq_getElem?_getD, List.getElem?_replicate] at hh
      split at hh <;> simp at hh
    · intro t hh
      simp at hh

/-- Every phase-1 chain hop is a (lax) spanned step, for any `d` and any
group size. -/
theorem ringChainStep_spanned (gsrcs : List Nat) (gs : Nat) (fsz : Int)
    (s fid T d : Nat) :
    Spanned false T (ringChainStep gsrcs gs fsz s (fid, T) d).2
      (ringChainStep gsrcs gs fsz s (fid, T) d).1.2 := by
  by_cases h1 : d = 1
  · subst h1
    by_cases h2 : (1 : Nat) ≠ gs - 1
    · rw [show ringChainStep gsrcs gs fsz s (fid, T) 1 =
          ((fid + 1, T),
           [{ src := gsrcs.getD (s % gs) 0, dst := gsrcs.getD ((s + 1) % gs) 0,
              flowId := fid + 1, gate := none, size := fsz, done := some T,
              sem := none }]) from by simp [ringChainStep, h2]]
      show Spanned false T _ T
      refine Spanned.single le_rfl ?_ ?_ ?_
      · intro t ht; simp at ht
      · intro t ht
        simp at ht
        subst ht
        exact ⟨le_rfl, le_rfl, by simp⟩
      · intro t u ht _; simp at ht
    · have h3 : (1 : Nat) = gs - 1 := not_not.mp h2
      rw [show ringChainStep gsrcs gs fsz s (fid, T) 1 =
          ((fid + 1, T),
           [{ src := gsrcs.getD (s % gs) 0, dst := gsrcs.getD ((s + 1) % gs) 0,
              flowId := fid + 1, gate := none, size := fsz, done := none,
              sem := none }]) from by simp [ringChainStep, ← h3]]
      show Spanned false T _ T
      refine Spanned.single le_rfl ?_ ?_ ?_
      · intro t ht; simp at ht
      · intro t ht; simp at ht
      · intro t u ht _; simp at ht
  · by_cases h2 : d ≠ gs - 1
    · rw [show ringChainStep gsrcs gs fsz s (fid, T) d =
          ((fid + 1, T + 1),
           [{ src := gsrcs.getD ((s + d - 1) % gs) 0,
              dst := gsrcs.getD ((s + d) % gs) 0,
              flowId := fid + 1, gate := some T, size := fsz,
              done := some (T + 1), sem := none }])
        from by simp [ringChainStep, h1, h2]]
      show Spanned false T _ (T + 1)
      refine Spanned.single (by omega) ?_ ?_ ?_
      · intro t ht
        simp at ht
        subst ht
        left; omega
      · intro t ht
        simp at ht
        subst ht
        exact ⟨by omega, le_rfl, by simp⟩
      · intro t u ht hu
        simp at ht hu
        omega
    · have h3 : d = gs - 1 := not_not.mp h2
      rw [show ringChainStep gsrcs gs fsz s (fid, T) d =
          ((fid + 1, T + 1),
           [{ src := gsrcs.getD ((s + d - 1) % gs) 0,
              dst := gsrcs.getD ((s + d) % gs) 0,
              flowId := fid + 1, gate := some T, size := fsz,
              done := none, sem := none }])
        from by simp [ringChainStep, h1, ← h3]]
      show Spanned false T _ (T + 1)
      refine Spanned.single (by omega) ?_ ?_ ?_
      · intro t ht
        simp at ht
        subst ht
        left; omega
      · intro t ht; simp at ht
      · intro t u ht hu; simp at hu

theorem ringChainEmit_spanned (gsrcs : List Nat) (gs : Nat) (fsz : Int)
    (s : Nat) (st : Nat × Nat) :
    Spanned false st.2 (ringChainEmit gsrcs gs fsz s st).2
      (ringChainEmit gsrcs gs fsz s st).1.2 :=
  (spanned_foldEmit false Prod.snd (fun _ => True)
    (ringChainStep gsrcs gs fsz s) (List.range' 1 (gs - 1))
    (by rintro ⟨fid, T⟩ d _ _
        exact ⟨ringChainStep_spanned gsrcs gs fsz s fid T d, trivial⟩)
    st trivial).1

theorem ringGroupEmit_spanned (perm : List Nat) (gs loc : Nat) (fsz : Int)
    (st : Nat × Nat) (g : Nat) :
    Spanned false st.2 (ringGroupEmit perm gs loc fsz st g).2
      (ringGroupEmit perm gs loc fsz st g).1.2 :=
  (spanned_foldEmit false Prod.snd (fun _ => True)
    (fun st2 s => ringChainEmit (ringGroupSrcs perm gs loc g) gs fsz s st2)
    (List.range gs)
    (fun st2 s _ _ =>
      ⟨ringChainEmit_spanned (ringGroupSrcs perm gs loc g) gs fsz s st2, trivial⟩)
    st trivial).1

/-- Phase 1 of the Ring generator is a (lax) spanned run, and every recorded
`group_end_trigger` is bounded by the final counter. -/
theorem ringP1_spanned (perm : List Nat) (groups gs loc : Nat) (fsz : Int) :
    Spanned false 1 (ringPhase1 perm groups gs loc fsz).2
      (ringPhase1 perm groups gs loc fsz).1.1.2 ∧
    ∀ x ∈ (ringPhase1 perm groups gs loc fsz).1.2,
      x ≤ (ringPhase1 perm groups gs loc fsz).1.1.2 := by
  have h := spanned_foldEmit false (fun s => s.1.2)
    (fun s => ∀ x ∈ s.2, x ≤ s.1.2) (ringP1Step perm gs loc fsz)
    (List.range groups) ?_ ((0, 1), []) (by simp)
  · exact ⟨h.1, h.2⟩
  · intro st2 g _ hP2
    constructor
    · exact ringGroupEmit_spanned perm gs loc fsz st2.1 g
    · intro x hx
      have hmono : st2.1.2 ≤ (ringGroupEmit perm gs loc fsz st2.1 g).1.2 :=
        (ringGroupEmit_spanned perm gs loc fsz st2.1 g).start_le
      show x ≤ (ringGroupEmit perm gs loc fsz st2.1 g).1.2
      rcases List.mem_append.mp hx with hm | hm
      · exact le_trans (hP2 x hm) hmono
      · simp at hm
        omega

/-- Phase 2 of the Ring generator is a (lax) spanned run when the recorded
group-end triggers are bounded by the incoming counter; the collected
`leader_triggers` are bounded by the final counter. -/
theorem ringP2_spanned (perm : List Nat) (groups gs : Nat) (fsz : Int)
    (gets : List Nat) (st : Nat × Nat) (hgets : ∀ x ∈ gets, x ≤ st.2) :
    Spanned false st.2 (ringPhase2 perm groups gs fsz gets st).2
      (ringPhase2 perm groups gs fsz gets st).1.1.2 ∧
    ∀ x ∈ (ringPhase2 perm groups gs fsz gets st).1.2,
      x ≤ (ringPhase2 perm groups gs fsz gets st).1.1.2 := by
  have h := spanned_foldEmit false (fun s => s.1.2)
    (fun s => (∀ x ∈ gets, x ≤ s.1.2) ∧ ∀ x ∈ s.2, x ≤ s.1.2)
    (ringP2Step perm groups gs fsz gets) (List.range groups) ?_ (st, [])
    ⟨hgets, by simp⟩
  · exact ⟨h.1, h.2.2⟩
  · rintro ⟨⟨fid, T⟩, lts⟩ g _ ⟨hg1, hg2⟩
    rw [show ringP2Step perm groups gs fsz gets ((fid, T), lts) g =
        (((fid + 1, T + 1), lts ++ [T + 1]),
         [{ src := perm.getD (g * gs) 0,
            dst := perm.getD (((g + 1) % groups) * gs) 0, flowId := fid + 1,
            gate := some (gets.getD g 0), size := fsz.fdiv 10,
            done := some (T + 1), sem := none }]) from rfl]
    refine ⟨?_, ?_, ?_⟩
    · show Spanned false T _ (T + 1)
      refine Spanned.single (by omega) ?_ ?_ ?_
      · intro t ht
        simp at ht
        subst ht
        have hb : gets[g]?.getD 0 ≤ T := by
          rw [← List.getD_eq_getElem?_getD]
          exact getD_le_of_all hg1 g
        left; omega
      · intro t ht
        simp at ht
        subst ht
        exact ⟨by omega, le_rfl, by simp⟩
      · intro t u ht hu
        simp at ht hu
        subst ht; subst hu
        have hb : gets[g]?.getD 0 ≤ T := by
          rw [← List.getD_eq_getElem?_getD]
          exact getD_le_of_all hg1 g
        omega
    · intro x hx
      have hb : x ≤ T := hg1 x hx
      show x ≤ T + 1
      omega
    · intro x hx
      show x ≤ T + 1
      rcases List.mem_append.mp hx with hm | hm
      · have hb : x ≤ T := hg2 x hm
        omega
      · simp at hm
        omega

/-- Phase 3 of the Ring generator is a strict spanned run when the
`leader_triggers` are bounded by the incoming counter. -/
theorem ringP3_spanned (perm : List Nat) (groups gs loc : Nat) (fsz : Int)
    (lts : List Nat) (st : Nat × Nat) (hlts : ∀ x ∈ lts, x ≤ st.2) :
    Spanned true st.2 (ringPhase3 perm groups gs loc fsz lts st).2
      (ringPhase3 perm groups gs loc fsz lts st).1.2 := by
  have hinner : ∀ (g : Nat) (st2 : Nat × Nat), (∀ x ∈ lts, x ≤ st2.2) →
      Spanned true st2.2
        (foldEmit (ringP3GroupStep (ringGroupSrcs perm gs loc g) gs fsz)
          (st2, lts.getD g 0) (List.range (gs - 1))).2
        (foldEmit (ringP3GroupStep (ringGroupSrcs perm gs loc g) gs fsz)
          (st2, lts.getD g 0) (List.range (gs - 1))).1.1.2 := by
    intro g st2 hb
    refine (spanned_foldEmit true (fun s => s.1.2) (fun s => s.2 ≤ s.1.2)
      (ringP3GroupStep (ringGroupSrcs perm gs loc g) gs fsz)
      (List.range (gs - 1)) ?_ (st2, lts.getD g 0)
      (getD_le_of_all hb g)).1
    rintro ⟨⟨fid, T⟩, ld⟩ s _ hld
    have hldT : ld ≤ T := hld
    by_cases hs : s < gs - 2
    · rw [show ringP3GroupStep (ringGroupSrcs perm gs loc g) gs fsz
          ((fid, T), ld) s =
          (((fid + 1, T + 1), T + 1),
           [{ src := (ringGroupSrcs perm gs loc g).getD s 0,
              dst := (ringGroupSrcs perm gs loc g).getD (s + 1) 0,
              flowId := fid + 1, gate := some ld, size := fsz,
              done := some (T + 1), sem := none }])
        from by simp [ringP3GroupStep, hs]]
      refine ⟨?_, ?_⟩
      · show Spanned true T _ (T + 1)
        refine Spanned.single (by omega) ?_ ?_ ?_
        · intro t ht
          simp at ht
          subst ht
          left; omega
        · intro t ht
          simp at ht
          subst ht
          exact ⟨by omega, le_rfl, fun _ => by omega⟩
        · intro t u ht hu
          simp at ht hu
          subst ht; subst hu
          omega
      · show T + 1 ≤ T + 1
        omega
    · rw [show ringP3GroupStep (ringGroupSrcs perm gs loc g) gs fsz
          ((fid, T), ld) s =
          (((fid + 1, T), ld),
           [{ src := (ringGroupSrcs perm gs loc g).getD s 0,
              dst := (ringGroupSrcs perm gs loc g).getD (s + 1) 0,
              flowId := fid + 1, gate := some ld, size := fsz,
              done := none, sem := none }])
        from by simp [ringP3GroupStep, hs]]
      refine ⟨?_, hldT⟩
      show Spanned true T _ T
      refine Spanned.single le_rfl ?_ ?_ ?_
      · intro t ht
        simp at ht
        subst ht
        exact Or.inr ⟨rfl, hldT⟩
      · intro t ht; simp at ht
      · intro t u _ hu; simp at hu
  refine (spanned_foldEmit true Prod.snd (fun s => ∀ x ∈ lts, x ≤ s.2) _
    (List.range groups) ?_ st hlts).1
  intro st2 g _ hP2
  refine ⟨hinner g st2 hP2, ?_⟩
  intro x hx
  exact le_trans (hP2 x hx) (hinner g st2 hP2).start_le

/-- C7: for every schedule generated by any of the four generators and any
parameter set, the directed graph with an edge from flow X to flow Y
whenever X's completion trigger is Y's start gate contains no cycle. -/
theorem C7_acyclic :
    (∀ (nodes conns gs : Nat) (fsz : Int) (loc : Nat) (perm : List Nat),
      FlowDAG (ringGen nodes conns gs fsz loc perm).flows) ∧
    (∀ (nodes bf : Nat) (fsz : Int), FlowDAG (treeGen nodes bf fsz).flows) ∧
    (∀ (nodes : Nat) (fsz : Int) (iterations : Nat) (randseed : Int)
      (perm : List Nat),
      FlowDAG (supernodeGen nodes fsz iterations randseed perm).flows) ∧
    (∀ (nodes k : Nat) (fsz : Int) (chunks fid iterations window : Nat),
      FlowDAG (incGen nodes k fsz chunks fid iterations window).flows) := by
  refine ⟨?_, ?_, ?_, ?_⟩
  · intro nodes conns gs fsz loc perm
    have h1 := ringP1_spanned perm (conns / gs) gs loc fsz
    have h2 := ringP2_spanned perm (conns / gs) gs fsz
      (ringPhase1 perm (conns / gs) gs loc fsz).1.2
      (ringPhase1 perm (conns / gs) gs loc fsz).1.1 h1.2
    have h3 := ringP3_spanned perm (conns / gs) gs loc fsz
      (ringPhase2 perm (conns / gs) gs fsz
        (ringPhase1 perm (conns / gs) gs loc fsz).1.2
        (ringPhase1 perm (conns / gs) gs loc fsz).1.1).1.2
      (ringPhase2 perm (conns / gs) gs fsz
        (ringPhase1 perm (conns / gs) gs loc fsz).1.2
        (ringPhase1 perm (conns / gs) gs loc fsz).1.1).1.1 h2.2
    exact flowDAG_glue (h1.1.append h2.1) h3
  · intro nodes bf fsz
    match nodes with
    | 0 => exact flowDAG_of_spanned (Spanned.nil (le_refl 1))
    | 1 => exact flowDAG_of_spanned (Spanned.nil (le_refl 1))
    | (n + 2) =>
      have h1 := treeUp_spanned bf fsz ((List.range' 1 (n + 2 - 1)).reverse) (0, 1)
      have h2 := treeDown_spanned (n + 2) bf fsz (by omega)
        (foldEmit (treeUpStep bf fsz) (0, 1) ((List.range' 1 (n + 2 - 1)).reverse)).1
        (le_trans (by omega) h1.start_le)
      exact flowDAG_of_spanned (h1.append h2)
  · intro nodes fsz iterations randseed perm
    exact flowDAG_of_forward
      (fun i j he =>
        (supernode_spanned (nodes - 1) fsz iterations
          (if randseed ≠ 0 then perm else List.range (nodes - 1))).edge_lt i j he)
  · intro nodes k fsz chunks fid iterations window
    exact flowDAG_of_forward
      (fun i j he =>
        (incFold_spanned nodes k fsz chunks fid iterations window).edge_lt i j he)

/-! ### Trigger-reference bounds and schedule closure -/

/-- Every start gate emitted in Ring phase 1 carries a started (`≥ 1`)
counter value. -/
theorem ringP1_gates_ge (perm : List Nat) (groups gs loc : Nat) (fsz : Int) :
    ∀ f ∈ (ringPhase1 perm groups gs loc fsz).2, ∀ t,
      f.gate = some t → 1 ≤ t := by
  have h := allFlows_foldEmit (fun st : (Nat × Nat) × List Nat => 1 ≤ st.1.2)
    (fun fl => ∀ t, fl.gate = some t → 1 ≤ t)
    (ringP1Step perm gs loc fsz) (List.range groups) ?_ ((0, 1), [])
    (by norm_num)
  · exact h.1
  · intro st g _ hP
    have hg := allFlows_foldEmit (fun st2 : Nat × Nat => 1 ≤ st2.2)
      (fun fl => ∀ t, fl.gate = some t → 1 ≤ t)
      (fun st2 s => ringChainEmit (ringGroupSrcs perm gs loc g) gs fsz s st2)
      (List.range gs) ?_ st.1 hP
    · exact ⟨hg.1, hg.2⟩
    · intro st2 s _ hP2
      have hc := allFlows_foldEmit (fun st3 : Nat × Nat => 1 ≤ st3.2)
        (fun fl => ∀ t, fl.gate = some t → 1 ≤ t)
        (ringChainStep (ringGroupSrcs perm gs loc g) gs fsz s)
        (List.range' 1 (gs - 1)) ?_ st2 hP2
      · exact ⟨hc.1, hc.2⟩
      · rintro ⟨fid, T⟩ d _ hP3
        have hb : (1 : Nat) ≤ T := hP3
        constructor
        · intro fl hfl t ht
          simp only [ringChainStep, List.mem_singleton] at hfl
          subst hfl
          by_cases h1 : d = 1
          · simp [h1] at ht
          · simp [h1] at ht
            omega
        · show (1 : Nat) ≤ if d = 1 then T else T + 1
          split <;> omega

/-- Every start gate emitted in Ring phase 2 is a recorded group-end
trigger, hence `≥ 1` when those are. -/
theorem ringP2_gates_ge (perm : List Nat) (groups gs : Nat) (fsz : Int)
    (gets : List Nat) (st : Nat × Nat)
    (hgets : ∀ g, g < groups → 1 ≤ gets.getD g 0) :
    ∀ f ∈ (ringPhase2 perm groups gs fsz gets st).2, ∀ t,
      f.gate = some t → 1 ≤ t := by
  have h := allFlows_foldEmit (fun _ : (Nat × Nat) × List Nat => True)
    (fun fl => ∀ t, fl.gate = some t → 1 ≤ t)
    (ringP2Step perm groups gs fsz gets) (List.range groups) ?_ (st, []) trivial
  · exact h.1
  · intro st2 g hg _
    refine ⟨?_, trivial⟩
    intro fl hfl t ht
    simp only [ringP2Step, List.mem_singleton] at hfl
    subst hfl
    simp at ht
    have hb : 1 ≤ gets[g]?.getD 0 := by
      rw [← List.getD_eq_getElem?_getD]
      exact hgets g (List.mem_range.mp hg)
    omega

/-- The state of the phase-2 fold after `m` rings: both counters advance by
`m` and `leader_triggers` collects the successive counter values. -/
theorem ringPhase2_state (perm : List Nat) (groups gs : Nat) (fsz : Int)
    (gets : List Nat) (st : Nat × Nat) (m : Nat) :
    (foldEmit (ringP2Step perm groups gs fsz gets) (st, [])
        (List.range m)).1 =
      ((st.1 + m, st.2 + m), (List.range m).map (fun g => st.2 + g + 1)) := by
  induction m with
  | zero => simp [foldEmit]
  | succ n ih =>
    have hL : (foldEmit (ringP2Step perm groups gs fsz gets) (st, [])
        (List.range (n + 1))).1 =
        (ringP2Step perm groups gs fsz gets
          ((st.1 + n, st.2 + n), (List.range n).map (fun g => st.2 + g + 1))
          n).1 := by
      rw [List.range_succ, foldEmit_append, foldEmit_single, ih]
    rw [hL]
    show ((st.1 + n + 1, st.2 + n + 1),
      ((List.range n).map (fun g => st.2 + g + 1)) ++ [st.2 + n + 1]) =
      ((st.1 + (n + 1), st.2 + (n + 1)),
       (List.range (n + 1)).map (fun g => st.2 + g + 1))
    rw [List.range_succ, List.map_append]
    rfl

/-- Every start gate emitted in Ring phase 3 is a running leader trigger,
hence `≥ 1` when the collected leader triggers are. -/
theorem ringP3_gates_ge (perm : List Nat) (groups gs loc : Nat) (fsz : Int)
    (lts : List Nat) (st : Nat × Nat)
    (hlts : ∀ g, g < groups → 1 ≤ lts.getD g 0) :
    ∀ f ∈ (ringPhase3 perm groups gs loc fsz lts st).2, ∀ t,
      f.gate = some t → 1 ≤ t := by
  have h := allFlows_foldEmit (fun _ : Nat × Nat => True)
    (fun fl => ∀ t, fl.gate = some t → 1 ≤ t)
    (fun st2 g =>
      let p := foldEmit (ringP3GroupStep (ringGroupSrcs perm gs loc g) gs fsz)
        (st2, lts.getD g 0) (List.range (gs - 1))
      (p.1.1, p.2))
    (List.range groups) ?_ st trivial
  · exact h.1
  · intro st2 g hg _
    have hgm : g < groups := List.mem_range.mp hg
    have hin := allFlows_foldEmit (fun st3 : (Nat × Nat) × Nat => 1 ≤ st3.2)
      (fun fl => ∀ t, fl.gate = some t → 1 ≤ t)
      (ringP3GroupStep (ringGroupSrcs perm gs loc g) gs fsz)
      (List.range (gs - 1)) ?_ (st2, lts.getD g 0) (hlts g hgm)
    · exact ⟨hin.1, trivial⟩
    · rintro ⟨⟨fid, T⟩, ld⟩ s _ hld
      have hb : (1 : Nat) ≤ ld := hld
      by_cases hs : s < gs - 2
      · constructor
        · intro fl hfl t ht
          simp [ringP3GroupStep, hs] at hfl
          subst hfl
          simp at ht
          omega
        · simp only [ringP3GroupStep, if_pos hs]
          show (1 : Nat) ≤ T + 1
          omega
      · constructor
        · intro fl hfl t ht
          simp [ringP3GroupStep, hs] at hfl
          subst hfl
          simp at ht
          omega
        · simp only [ringP3GroupStep, if_neg hs]
          exact hb

/-- The Ring generator produces a closed schedule whenever the group size is
at least 3. -/
theorem ringGen_closed (nodes conns gs : Nat) (fsz : Int) (loc : Nat)
    (perm : List Nat) (hgs : 3 ≤ gs) :
    ClosedSched (ringGen nodes conns gs fsz loc perm) := by
  have h1 := ringP1_spanned perm (conns / gs) gs loc fsz
  have h2 := ringP2_spanned perm (conns / gs) gs fsz
    (ringPhase1 perm (conns / gs) gs loc fsz).1.2
    (ringPhase1 perm (conns / gs) gs loc fsz).1.1 h1.2
  have h3 := ringP3_spanned perm (conns / gs) gs loc fsz
    (ringPhase2 perm (conns / gs) gs fsz
      (ringPhase1 perm (conns / gs) gs loc fsz).1.2
      (ringPhase1 perm (conns / gs) gs loc fsz).1.1).1.2
    (ringPhase2 perm (conns / gs) gs fsz
      (ringPhase1 perm (conns / gs) gs loc fsz).1.2
      (ringPhase1 perm (conns / gs) gs loc fsz).1.1).1.1 h2.2
  have hspec := ringPhase1_spec perm gs loc fsz hgs (conns / gs)
  have hgets1 : ∀ g, g < conns / gs →
      1 ≤ (ringPhase1 perm (conns / gs) gs loc fsz).1.2.getD g 0 := by
    intro g hgm
    rw [hspec.2.1]
    have hlen : g < ((List.range (conns / gs)).map
        (fun g => (g + 1) * (gs * (gs - 2)))).length := by
      simp [hgm]
    rw [List.getD_eq_getElem _ 0 hlen]
    simp only [List.getElem_map, List.getElem_range]
    have hpos : 0 < (g + 1) * (gs * (gs - 2)) :=
      Nat.mul_pos (by omega) (Nat.mul_pos (by omega) (by omega))
    omega
  have hlts1 : ∀ g, g < conns / gs →
      1 ≤ (ringPhase2 perm (conns / gs) gs fsz
        (ringPhase1 perm (conns / gs) gs loc fsz).1.2
        (ringPhase1 perm (conns / gs) gs loc fsz).1.1).1.2.getD g 0 := by
    intro g hgm
    have hst := ringPhase2_state perm (conns / gs) gs fsz
      (ringPhase1 perm (conns / gs) gs loc fsz).1.2
      (ringPhase1 perm (conns / gs) gs loc fsz).1.1 (conns / gs)
    show 1 ≤ (foldEmit (ringP2Step perm (conns / gs) gs fsz
      (ringPhase1 perm (conns / gs) gs loc fsz).1.2)
      ((ringPhase1 perm (conns / gs) gs loc fsz).1.1, [])
      (List.range (conns / gs))).1.2.getD g 0
    rw [hst]
    have hlen : g < ((List.range (conns / gs)).map
        (fun g2 => (ringPhase1 perm (conns / gs) gs loc fsz).1.1.2 + g2 + 1)).length := by
      simp [hgm]
    rw [List.getD_eq_getElem _ 0 hlen]
    simp only [List.getElem_map, List.getElem_range]
    omega
  have hT1 : (1 : Nat) ≤ (ringPhase1 perm (conns / gs) gs loc fsz).1.1.2 :=
    h1.1.start_le
  have hT12 := h2.1.start_le
  have hT23 := h3.start_le
  refine closedSched_of_bounds _
    ((ringPhase3 perm (conns / gs) gs loc fsz
      (ringPhase2 perm (conns / gs) gs fsz
        (ringPhase1 perm (conns / gs) gs loc fsz).1.2
        (ringPhase1 perm (conns / gs) gs loc fsz).1.1).1.2
      (ringPhase2 perm (conns / gs) gs fsz
        (ringPhase1 perm (conns / gs) gs loc fsz).1.2
        (ringPhase1 perm (conns / gs) gs loc fsz).1.1).1.1).1.2) rfl ?_ ?_
  · intro f hf t hor
    have hf2 : f ∈ (ringPhase1 perm (conns / gs) gs loc fsz).2 ++
        (ringPhase2 perm (conns / gs) gs fsz
          (ringPhase1 perm (conns / gs) gs loc fsz).1.2
          (ringPhase1 perm (conns / gs) gs loc fsz).1.1).2 ++
        (ringPhase3 perm (conns / gs) gs loc fsz
          (ringPhase2 perm (conns / gs) gs fsz
            (ringPhase1 perm (conns / gs) gs loc fsz).1.2
            (ringPhase1 perm (conns / gs) gs loc fsz).1.1).1.2
          (ringPhase2 perm (conns / gs) gs fsz
            (ringPhase1 perm (conns / gs) gs loc fsz).1.2
            (ringPhase1 perm (conns / gs) gs loc fsz).1.1).1.1).2 := hf
    rcases List.mem_append.mp hf2 with h12 | hp3
    · rcases List.mem_append.mp h12 with hp1 | hp2
      · rcases hor with hg | hd
        · exact ringP1_gates_ge perm (conns / gs) gs loc fsz f hp1 t hg
        · exact h1.1.done_ge f hp1 t hd
      · rcases hor with hg | hd
        · exact ringP2_gates_ge perm (conns / gs) gs fsz _ _ hgets1 f hp2 t hg
        · exact le_trans hT1 (h2.1.done_ge f hp2 t hd)
    · rcases hor with hg | hd
      · exact ringP3_gates_ge perm (conns / gs) gs loc fsz _ _ hlts1 f hp3 t hg
      · exact le_trans hT1 (le_trans hT12 (h3.done_ge f hp3 t hd))
  · intro f hf t hor
    have hf2 : f ∈ (ringPhase1 perm (conns / gs) gs loc fsz).2 ++
        (ringPhase2 perm (conns / gs) gs fsz
          (ringPhase1 perm (conns / gs) gs loc fsz).1.2
          (ringPhase1 perm (conns / gs) gs loc fsz).1.1).2 ++
        (ringPhase3 perm (conns / gs) gs loc fsz
          (ringPhase2 perm (conns / gs) gs fsz
            (ringPhase1 perm (conns / gs) gs loc fsz).1.2
            (ringPhase1 perm (conns / gs) gs loc fsz).1.1).1.2
          (ringPhase2 perm (conns / gs) gs fsz
            (ringPhase1 perm (conns / gs) gs loc fsz).1.2
            (ringPhase1 perm (conns / gs) gs loc fsz).1.1).1.1).2 := hf
    rcases List.mem_append.mp hf2 with h12 | hp3
    · rcases List.mem_append.mp h12 with hp1 | hp2
      · rcases hor with hg | hd
        · exact le_trans (h1.1.gate_le f hp1 t hg) (le_trans hT12 hT23)
        · exact le_trans (h1.1.done_le f hp1 t hd) (le_trans hT12 hT23)
      · rcases hor with hg | hd
        · exact le_trans (h2.1.gate_le f hp2 t hg) hT23
        · exact le_trans (h2.1.done_le f hp2 t hd) hT23
    · rcases hor with hg | hd
      · exact h3.gate_le f hp3 t hg
      · exact h3.done_le f hp3 t hd

/-- The Tree upward-phase state: both counters advance by the number of
processed nodes. -/
theorem treeUp_state (bf : Nat) (fsz : Int) :
    ∀ (l : List Nat) (st : Nat × Nat),
      (foldEmit (treeUpStep bf fsz) st l).1 =
        (st.1 + l.length, st.2 + l.length) := by
  intro l
  induction l with
  | nil => intro st; simp [foldEmit]
  | cons i is ih =>
    intro st
    show (foldEmit (treeUpStep bf fsz) (st.1 + 1, st.2 + 1) is).1 = _
    rw [ih]
    simp [Prod.ext_iff]
    omega

/-- No Tree upward flow has a start gate. -/
theorem treeUp_gates_none (bf : Nat) (fsz : Int) (l : List Nat)
    (st : Nat × Nat) :
    ∀ f ∈ (foldEmit (treeUpStep bf fsz) st l).2, f.gate = none := by
  have h := allFlows_foldEmit (fun _ : Nat × Nat => True)
    (fun fl => fl.gate = none) (treeUpStep bf fsz) l ?_ st trivial
  · exact h.1
  · rintro ⟨fid, T⟩ n _ _
    refine ⟨?_, trivial⟩
    intro fl hfl
    simp only [treeUpStep, List.mem_singleton] at hfl
    subst hfl
    rfl

/-- Every Tree downward gate is `≥ 1` once the counter has reached `nodes`. -/
theorem treeDown_gates_ge (nodes bf : Nat) (fsz : Int) (hn : 1 ≤ nodes)
    (st : Nat × Nat) (hst : nodes ≤ st.2) :
    ∀ f ∈ (treeDownPhase nodes bf fsz st).2, ∀ t,
      f.gate = some t → 1 ≤ t := by
  have h := allFlows_foldEmit (fun s : Nat × Nat => nodes ≤ s.2)
    (fun fl => ∀ t, fl.gate = some t → 1 ≤ t)
    (fun st2 p =>
      foldEmit (treeDownStep nodes p fsz (treeChildren nodes bf p)) st2
        (treeChildren nodes bf p))
    (List.range nodes) ?_ st hst
  · exact h.1
  · intro st2 p _ hP
    refine allFlows_foldEmit (fun s : Nat × Nat => nodes ≤ s.2)
      (fun fl => ∀ t, fl.gate = some t → 1 ≤ t)
      (treeDownStep nodes p fsz (treeChildren nodes bf p))
      (treeChildren nodes bf p) ?_ st2 hP
    rintro ⟨fid, T⟩ child _ hP3
    have hT : nodes ≤ T := hP3
    by_cases hc : (treeChildren nodes bf p).getLast? = some child
    · rw [treeDownStep_last nodes p fsz _ fid T child hc]
      refine ⟨?_, hT⟩
      intro fl hfl t ht
      simp at hfl
      subst hfl
      simp at ht
      omega
    · rw [treeDownStep_mid nodes p fsz _ fid T child hc]
      refine ⟨?_, by show nodes ≤ T + 1; omega⟩
      intro fl hfl t ht
      simp at hfl
      subst hfl
      simp at ht
      omega

/-- The Tree generator always produces a closed schedule. -/
theorem treeGen_closed (nodes bf : Nat) (fsz : Int) :
    ClosedSched (treeGen nodes bf fsz) := by
  match nodes with
  | 0 =>
    rintro t ⟨f, hf, _⟩
    have hf2 : f ∈ ([] : List Flow) := hf
    simp at hf2
  | 1 =>
    rintro t ⟨f, hf, _⟩
    have hf2 : f ∈ ([] : List Flow) := hf
    simp at hf2
  | (n + 2) =>
    have h1 := treeUp_spanned bf fsz ((List.range' 1 (n + 2 - 1)).reverse) (0, 1)
    have hupT : (foldEmit (treeUpStep bf fsz) (0, 1)
        ((List.range' 1 (n + 2 - 1)).reverse)).1.2 = n + 2 := by
      rw [treeUp_state]
      simp
      omega
    have h2 := treeDown_spanned (n + 2) bf fsz (by omega)
      (foldEmit (treeUpStep bf fsz) (0, 1) ((List.range' 1 (n + 2 - 1)).reverse)).1
      (le_trans (by omega) h1.start_le)
    refine closedSched_of_bounds _
      ((treeDownPhase (n + 2) bf fsz
        (foldEmit (treeUpStep bf fsz) (0, 1)
          ((List.range' 1 (n + 2 - 1)).reverse)).1).1.2) rfl ?_ ?_
    · intro f hf t hor
      have hf2 : f ∈ (foldEmit (treeUpStep bf fsz) (0, 1)
          ((List.range' 1 (n + 2 - 1)).reverse)).2 ++
          (treeDownPhase (n + 2) bf fsz
            (foldEmit (treeUpStep bf fsz) (0, 1)
              ((List.range' 1 (n + 2 - 1)).reverse)).1).2 := hf
      rcases List.mem_append.mp hf2 with hup | hdn
      · rcases hor with hg | hd
        · rw [treeUp_gates_none bf fsz _ _ f hup] at hg
          simp at hg
        · exact h1.done_ge f hup t hd
      · rcases hor with hg | hd
        · exact treeDown_gates_ge (n + 2) bf fsz (by omega) _
            (le_of_eq hupT.symm) f hdn t hg
        · exact le_trans (by omega : (1 : Nat) ≤ n + 2)
            (le_of_le_of_eq (le_refl (n + 2)) hupT.symm |>.trans
              (h2.done_ge f hdn t hd))
    · intro f hf t hor
      have hf2 : f ∈ (foldEmit (treeUpStep bf fsz) (0, 1)
          ((List.range' 1 (n + 2 - 1)).reverse)).2 ++
          (treeDownPhase (n + 2) bf fsz
            (foldEmit (treeUpStep bf fsz) (0, 1)
              ((List.range' 1 (n + 2 - 1)).reverse)).1).2 := hf
      rcases List.mem_append.mp hf2 with hup | hdn
      · rcases hor with hg | hd
        · exact le_trans (h1.gate_le f hup t hg) h2.start_le
        · exact le_trans (h1.done_le f hup t hd) h2.start_le
      · rcases hor with hg | hd
        · exact h2.gate_le f hdn t hg
        · exact h2.done_le f hdn t hd

/-- Supernode phase-1 state: both counters advance by the node count and
`phase1_send_done_triggers` collects the successive counter values. -/
theorem snP1_state (sn : Nat) (fsz : Int) (gt : Option Nat) :
    ∀ (l : List Nat) (st : (Nat × Nat) × List Nat),
      (foldEmit (snP1Step sn fsz gt) st l).1.1 =
        (st.1.1 + l.length, st.1.2 + l.length) ∧
      (foldEmit (snP1Step sn fsz gt) st l).1.2 =
        st.2 ++ (List.range l.length).map (fun i => st.1.2 + i + 1) := by
  intro l
  induction l with
  | nil => intro st; exact ⟨by simp [foldEmit], by simp [foldEmit]⟩
  | cons r rs ih =>
    intro st
    have h := ih ((st.1.1 + 1, st.1.2 + 1), st.2 ++ [st.1.2 + 1])
    constructor
    · show (foldEmit (snP1Step sn fsz gt)
        ((st.1.1 + 1, st.1.2 + 1), st.2 ++ [st.1.2 + 1]) rs).1.1 = _
      rw [h.1]
      simp [Prod.ext_iff]
      omega
    · show (foldEmit (snP1Step sn fsz gt)
        ((st.1.1 + 1, st.1.2 + 1), st.2 ++ [st.1.2 + 1]) rs).1.2 = _
      rw [h.2]
      have hfun : ((fun i => st.1.2 + i + 1) ∘ Nat.succ) =
          (fun i => st.1.2 + 1 + i + 1) := by
        funext i
        simp [Function.comp]
        omega
      simp only [List.length_cons, List.range_succ_eq_map, List.map_cons,
        List.map_map]
      simp [hfun, List.append_assoc]

/-- Every gate in the Supernode flow stream is a pre-incremented trigger
value, hence `≥ 2`. -/
theorem snGen_gates_ge (sn : Nat) (fsz : Int) (iterations : Nat)
    (regs : List Nat) :
    ∀ f ∈ (foldEmit (snIterStep sn fsz regs iterations) ((0, 1), none)
        (List.range iterations)).2, ∀ t, f.gate = some t → 2 ≤ t := by
  match regs with
  | [] =>
    have hnil : ∀ (l : List Nat) (st : (Nat × Nat) × Option Nat),
        (foldEmit (snIterStep sn fsz [] iterations) st l).2 = [] := by
      intro l
      induction l with
      | nil => intro st; rfl
      | cons n ns ih =>
        intro st
        show (snIterStep sn fsz [] iterations st n).2 ++ _ = []
        rw [show (snIterStep sn fsz [] iterations st n).2 = [] from rfl, ih]
        rfl
    intro f hf
    rw [hnil] at hf
    simp at hf
  | r :: rs =>
    have h := allFlows_foldEmit
      (fun st : (Nat × Nat) × Option Nat =>
        1 ≤ st.1.2 ∧ ∀ t, st.2 = some t → 2 ≤ t)
      (fun fl => ∀ t, fl.gate = some t → 2 ≤ t)
      (snIterStep sn fsz (r :: rs) iterations) (List.range iterations) ?_
      ((0, 1), none) ⟨le_rfl, by simp⟩
    · exact h.1
    · intro st iteration _ hP
      have hP1c : (1 : Nat) ≤ st.1.2 := hP.1
      have hgt : ∀ t, (if iteration = 0 then none else st.2) = some t →
          2 ≤ t := by
        intro t ht
        by_cases h0 : iteration = 0
        · rw [if_pos h0] at ht
          simp at ht
        · rw [if_neg h0] at ht
          exact hP.2 t ht
      have hp1flows := allFlows_foldEmit
        (fun _ : (Nat × Nat) × List Nat => True)
        (fun fl => ∀ t, fl.gate = some t → 2 ≤ t)
        (snP1Step sn fsz (if iteration = 0 then none else st.2)) (r :: rs)
        (fun st2 node _ _ =>
          ⟨fun fl hfl t ht => by
            simp only [snP1Step, List.mem_singleton] at hfl
            subst hfl
            exact hgt t ht, trivial⟩)
        (st.1, []) trivial
      have hp1 := snP1_state sn fsz (if iteration = 0 then none else st.2)
        (r :: rs) (st.1, [])
      have hstart : 2 ≤ (foldEmit
          (snP1Step sn fsz (if iteration = 0 then none else st.2))
          (st.1, []) (r :: rs)).1.2.getLastD 0 := by
        rw [hp1.2]
        apply getLastD_ge_of_all
        · intro x hx
          simp at hx
          obtain ⟨i, hi, hx⟩ := hx
          omega
        · simp
      have hp2cnt : (foldEmit
          (snP1Step sn fsz (if iteration = 0 then none else st.2))
          (st.1, []) (r :: rs)).1.1.2 = st.1.2 + (r :: rs).length := by
        rw [hp1.1]
      have hp2 := allFlows_foldEmit
        (fun st2 : (Nat × Nat) × Option Nat =>
          1 ≤ st2.1.2 ∧ ∀ t, st2.2 = some t → 2 ≤ t)
        (fun fl => ∀ t, fl.gate = some t → 2 ≤ t)
        (snP2Step sn fsz (r :: rs) iteration iterations)
        (List.range (r :: rs).length) ?_
        ((foldEmit (snP1Step sn fsz (if iteration = 0 then none else st.2))
            (st.1, []) (r :: rs)).1.1,
         some ((foldEmit
            (snP1Step sn fsz (if iteration = 0 then none else st.2))
            (st.1, []) (r :: rs)).1.2.getLastD 0)) ?_
      · constructor
        · intro fl hfl t ht
          have hfl2 : fl ∈ (foldEmit
              (snP1Step sn fsz (if iteration = 0 then none else st.2))
              (st.1, []) (r :: rs)).2 ++
              (foldEmit (snP2Step sn fsz (r :: rs) iteration iterations)
                ((foldEmit (snP1Step sn fsz
                    (if iteration = 0 then none else st.2))
                  (st.1, []) (r :: rs)).1.1,
                 some ((foldEmit (snP1Step sn fsz
                    (if iteration = 0 then none else st.2))
                  (st.1, []) (r :: rs)).1.2.getLastD 0))
                (List.range (r :: rs).length)).2 := hfl
          rcases List.mem_append.mp hfl2 with hm | hm
          · exact hp1flows.1 fl hm t ht
          · exact hp2.1 fl hm t ht
        · exact ⟨hp2.2.1, hp2.2.2⟩
      · rintro ⟨⟨fid, T⟩, gop⟩ i _ ⟨hT, hgop⟩
        have hT' : (1 : Nat) ≤ T := hT
        by_cases hi : i < rs.length
        · rw [show snP2Step sn fsz (r :: rs) iteration iterations
              ((fid, T), gop) i =
              (((fid + 1, T + 1), some (T + 1)),
               [{ src := sn, dst := (r :: rs).getD i 0, flowId := fid + 1,
                  gate := gop, size := fsz, done := some (T + 1),
                  sem := none }]) from by simp [snP2Step, hi]]
          refine ⟨?_, by show (1 : Nat) ≤ T + 1; omega, ?_⟩
          · intro fl hfl t ht
            simp at hfl
            subst hfl
            exact hgop t ht
          · intro t ht
            simp at ht
            omega
        · by_cases hit : iteration < iterations - 1
          · rw [show snP2Step sn fsz (r :: rs) iteration iterations
                ((fid, T), gop) i =
                (((fid + 1, T + 1), some (T + 1)),
                 [{ src := sn, dst := (r :: rs).getD i 0, flowId := fid + 1,
                    gate := gop, size := fsz, done := some (T + 1),
                    sem := none }]) from by simp [snP2Step, hi, hit]]
            refine ⟨?_, by show (1 : Nat) ≤ T + 1; omega, ?_⟩
            · intro fl hfl t ht
              simp at hfl
              subst hfl
              exact hgop t ht
            · intro t ht
              simp at ht
              omega
          · rw [show snP2Step sn fsz (r :: rs) iteration iterations
                ((fid, T), gop) i =
                (((fid + 1, T), none),
                 [{ src := sn, dst := (r :: rs).getD i 0, flowId := fid + 1,
                    gate := gop, size := fsz, done := none,
                    sem := none }]) from by simp [snP2Step, hi, hit]]
            refine ⟨?_, hT', ?_⟩
            · intro fl hfl t ht
              simp at hfl
              subst hfl
              exact hgop t ht
            · intro t ht
              simp at ht
      · constructor
        · rw [hp2cnt]
          omega
        · intro t ht
          rw [Option.some.injEq] at ht
          subst ht
          exact hstart

/-- The Supernode generator always produces a closed schedule. -/
theorem supernodeGen_closed (nodes : Nat) (fsz : Int) (iterations : Nat)
    (randseed : Int) (perm : List Nat) :
    ClosedSched (supernodeGen nodes fsz iterations randseed perm) := by
  have hsp := supernode_spanned (nodes - 1) fsz iterations
    (if randseed ≠ 0 then perm else List.range (nodes - 1))
  have hg := snGen_gates_ge (nodes - 1) fsz iterations
    (if randseed ≠ 0 then perm else List.range (nodes - 1))
  refine closedSched_of_bounds _
    ((foldEmit (snIterStep (nodes - 1) fsz
        (if randseed ≠ 0 then perm else List.range (nodes - 1)) iterations)
      ((0, 1), none) (List.range iterations)).1.1.2) rfl ?_ ?_
  · intro f hf t hor
    have hf2 : f ∈ (foldEmit (snIterStep (nodes - 1) fsz
        (if randseed ≠ 0 then perm else List.range (nodes - 1)) iterations)
      ((0, 1), none) (List.range iterations)).2 := hf
    rcases hor with hgx | hd
    · exact le_trans (by omega) (hg f hf2 t hgx)
    · exact hsp.done_ge f hf2 t hd
  · intro f hf t hor
    have hf2 : f ∈ (foldEmit (snIterStep (nodes - 1) fsz
        (if randseed ≠ 0 then perm else List.range (nodes - 1)) iterations)
      ((0, 1), none) (List.range iterations)).2 := hf
    rcases hor with hgx | hd
    · exact hsp.gate_le f hf2 t hgx
    · exact hsp.done_le f hf2 t hd

/-- Trigger id 1 is declared but never referenced by any Supernode flow. -/
theorem supernodeGen_unref1 (nodes : Nat) (fsz : Int) (iterations : Nat)
    (randseed : Int) (perm : List Nat) :
    Unref (supernodeGen nodes fsz iterations randseed perm) 1 := by
  have hsp := supernode_spanned (nodes - 1) fsz iterations
    (if randseed ≠ 0 then perm else List.range (nodes - 1))
  constructor
  · show (1 : Nat) ∈ List.range' 1
      (foldEmit (snIterStep (nodes - 1) fsz
          (if randseed ≠ 0 then perm else List.range (nodes - 1)) iterations)
        ((0, 1), none) (List.range iterations)).1.1.2
    have h1T := hsp.start_le
    exact List.mem_range'_1.mpr ⟨le_rfl, by omega⟩
  · rintro ⟨f, hf, hor⟩
    have hf2 : f ∈ (foldEmit (snIterStep (nodes - 1) fsz
        (if randseed ≠ 0 then perm else List.range (nodes - 1)) iterations)
      ((0, 1), none) (List.range iterations)).2 := hf
    rcases hor with hgx | hd
    · have := snGen_gates_ge (nodes - 1) fsz iterations
        (if randseed ≠ 0 then perm else List.range (nodes - 1)) f hf2 1 hgx
      omega
    · exact absurd (hsp.done_gt f hf2 1 hd) (lt_irrefl 1)

theorem fixupTrig_ge (lu : Option Nat) (T : Nat) (hT : 1 ≤ T)
    (h : ∀ t, lu = some t → 2 ≤ t) :
    1 ≤ (fixupTrig lu T).1 ∧ 2 ≤ (fixupTrig lu T).2 := by
  cases lu with
  | none =>
    simp [fixupTrig]
    omega
  | some t => exact ⟨hT, h t rfl⟩

/-- One INC chunk only emits gates holding pre-incremented trigger values
(`≥ 2`), and preserves the positivity invariant. -/
theorem incChunk_gates_ge (nodes k : Nat) (fsz : Int) (fid window rid : Nat)
    (st : IncSt) (c : Nat) (hP : IncPos st) :
    (∀ f ∈ (incChunk nodes k fsz fid window rid st c).2, ∀ t,
      f.gate = some t → 2 ≤ t) ∧
    IncPos (incChunk nodes k fsz fid window rid st c).1 := by
  have hcs : ∀ t, incChunkStart window st c = some t → 2 ≤ t := by
    intro t ht
    unfold incChunkStart at ht
    by_cases hw : c < window
    · rw [if_pos hw] at ht
      exact hP.2.2 t ht
    · rw [if_neg hw] at ht
      rcases hld : st.ldt.getD (c - window) none with _ | t2
      · rw [hld] at ht
        exact hP.2.2 t ht
      · rw [hld] at ht
        have h3 : t2 = t := by simpa using ht
        subst h3
        exact hP.2.1 _ t2 hld
  have hgt : ∀ t, start_or_trigger (incChunkStart window st c) = some t →
      2 ≤ t := by
    intro t ht
    unfold start_or_trigger at ht
    rcases hopt : incChunkStart window st c with _ | v
    · rw [hopt] at ht
      simp at ht
    · rw [hopt] at ht
      by_cases hv : v = 0
      · simp [hv] at ht
      · simp [hv] at ht
        have h4 : 2 ≤ v := hcs v hopt
        omega
  simp only [incChunk]
  set UP := foldEmit (incUpStep (chunk_to_agg_node k c) fsz fid rid c
      (start_or_trigger (incChunkStart window st c)))
    ((st.flowId, st.trig), none) (List.range nodes) with hUP
  have hup := allFlows_foldEmit
    (fun s : (Nat × Nat) × Option Nat =>
      1 ≤ s.1.2 ∧ ∀ t, s.2 = some t → 2 ≤ t)
    (fun fl => ∀ t, fl.gate = some t → 2 ≤ t)
    (incUpStep (chunk_to_agg_node k c) fsz fid rid c
      (start_or_trigger (incChunkStart window st c)))
    (List.range nodes) ?_ ((st.flowId, st.trig), none) ⟨hP.1, by simp⟩
  · rw [← hUP] at hup
    have hfix1 := fixupTrig_ge UP.1.2 UP.1.1.2 hup.2.1 hup.2.2
    set DN := foldEmit (incDownStep (chunk_to_agg_node k c) fsz fid rid c
        (fixupTrig UP.1.2 UP.1.1.2).2)
      ((UP.1.1.1, (fixupTrig UP.1.2 UP.1.1.2).1), none) (List.range nodes)
      with hDN
    have hdn := allFlows_foldEmit
      (fun s : (Nat × Nat) × Option Nat =>
        1 ≤ s.1.2 ∧ ∀ t, s.2 = some t → 2 ≤ t)
      (fun fl => ∀ t, fl.gate = some t → 2 ≤ t)
      (incDownStep (chunk_to_agg_node k c) fsz fid rid c
        (fixupTrig UP.1.2 UP.1.1.2).2)
      (List.range nodes) ?_
      ((UP.1.1.1, (fixupTrig UP.1.2 UP.1.1.2).1), none) ⟨hfix1.1, by simp⟩
    · rw [← hDN] at hdn
      have hfix2 := fixupTrig_ge DN.1.2 DN.1.1.2 hdn.2.1 hdn.2.2
      constructor
      · intro f hf t ht
        rcases List.mem_append.mp hf with hm | hm
        · exact hup.1 f hm t ht
        · exact hdn.1 f hm t ht
      · refine ⟨hfix2.1, ?_, ?_⟩
        · intro c2 t h
          rw [List.getD_eq_getElem?_getD, List.getElem?_set] at h
          by_cases hcc : c = c2
          · rw [if_pos hcc] at h
            by_cases hlen : c < st.ldt.length
            · rw [if_pos hlen] at h
              simp at h
              rw [← h]
              exact hfix2.2
            · rw [if_neg hlen] at h
              simp at h
          · rw [if_neg hcc] at h
            refine hP.2.1 c2 t ?_
            rw [List.getD_eq_getElem?_getD]
            exact h
        · intro t h
          exact hP.2.2 t h
    · rintro ⟨⟨fid0, T⟩, ld⟩ dst _ ⟨h1, h2⟩
      by_cases hs : dst = chunk_to_agg_node k c
      · rw [show incDownStep (chunk_to_agg_node k c) fsz fid rid c
            (fixupTrig UP.1.2 UP.1.1.2).2 ((fid0, T), ld) dst =
            (((fid0, T), ld), []) from by simp [incDownStep, hs]]
        exact ⟨by intro fl hfl; simp at hfl, h1, h2⟩
      · rw [show incDownStep (chunk_to_agg_node k c) fsz fid rid c
            (fixupTrig UP.1.2 UP.1.1.2).2 ((fid0, T), ld) dst =
            (((fid0 + 1, T + 1), some (T + 1)),
             [{ src := chunk_to_agg_node k c, dst := dst, flowId := fid0 + 1,
                gate := some (fixupTrig UP.1.2 UP.1.1.2).2,
                size := fsz, done := some (T + 1),
                sem := some { op := "SUM", dir := "DOWN", fid := fid,
                              rid := rid, cid := c } }])
          from by simp [incDownStep, hs]]
        refine ⟨?_, by show (1 : Nat) ≤ T + 1; omega, ?_⟩
        · intro fl hfl t ht
          simp at hfl
          subst hfl
          simp at ht
          subst ht
          exact hfix1.2
        · intro t ht
          simp at ht
          have hb : (1 : Nat) ≤ T := h1
          omega
  · rintro ⟨⟨fid0, T⟩, lu⟩ src _ ⟨h1, h2⟩
    by_cases hs : src = chunk_to_agg_node k c
    · rw [show incUpStep (chunk_to_agg_node k c) fsz fid rid c
          (start_or_trigger (incChunkStart window st c)) ((fid0, T), lu) src =
          (((fid0, T), lu), []) from by simp [incUpStep, hs]]
      exact ⟨by intro fl hfl; simp at hfl, h1, h2⟩
    · rw [show incUpStep (chunk_to_agg_node k c) fsz fid rid c
          (start_or_trigger (incChunkStart window st c)) ((fid0, T), lu) src =
          (((fid0 + 1, T + 1), some (T + 1)),
           [{ src := src, dst := chunk_to_agg_node k c, flowId := fid0 + 1,
              gate := start_or_trigger (incChunkStart window st c),
              size := fsz, done := some (T + 1),
              sem := some { op := "SUM", dir := "UP", fid := fid, rid := rid,
                            cid := c } }]) from by simp [incUpStep, hs]]
      refine ⟨?_, by show (1 : Nat) ≤ T + 1; omega, ?_⟩
      · intro fl hfl t ht
        simp at hfl
        subst hfl
        exact hgt t ht
      · intro t ht
        simp at ht
        have hb : (1 : Nat) ≤ T := h1
        omega

/-- One INC iteration only emits gates `≥ 2` and preserves positivity. -/
theorem incIter_gates_ge (nodes k : Nat) (fsz : Int)
    (fid chunks window : Nat) (st : IncSt) (it : Nat) (hP : IncPos st) :
    (∀ f ∈ (incIter nodes k fsz fid chunks window st it).2, ∀ t,
      f.gate = some t → 2 ≤ t) ∧
    IncPos (incIter nodes k fsz fid chunks window st it).1 := by
  have h := allFlows_foldEmit IncPos
    (fun fl => ∀ t, fl.gate = some t → 2 ≤ t)
    (incChunk nodes k fsz fid window (it + 1)) (List.range chunks)
    (fun st2 c _ hP2 =>
      incChunk_gates_ge nodes k fsz fid window (it + 1) st2 c hP2)
    st hP
  simp only [incIter]
  refine ⟨h.1, h.2.1, h.2.2.1, ?_⟩
  intro t hh
  exact h.2.2.1 (chunks - 1) t hh

/-- Every gate in the INC flow stream is `≥ 2`. -/
theorem incGen_gates_ge (nodes k : Nat) (fsz : Int)
    (chunks fid iterations window : Nat) :
    ∀ f ∈ (incGen nodes k fsz chunks fid iterations window).flows, ∀ t,
      f.gate = some t → 2 ≤ t := by
  have h := allFlows_foldEmit IncPos
    (fun fl => ∀ t, fl.gate = some t → 2 ≤ t)
    (incIter nodes k fsz fid chunks window) (List.range iterations)
    (fun st2 itv _ hP2 =>
      incIter_gates_ge nodes k fsz fid chunks window st2 itv hP2)
    { flowId := 0, trig := 1, ldt := List.replicate chunks none,
      iterStart := none } ?_
  · intro f hf t ht
    exact h.1 f hf t ht
  · refine ⟨le_rfl, ?_, ?_⟩
    · intro c2 t hh
      rw [List.getD_eq_getElem?_getD, List.getElem?_replicate] at hh
      split at hh <;> simp at hh
    · intro t hh
      simp at hh

/-- The IncHierarchical generator always produces a closed schedule. -/
theorem incGen_closed (nodes k : Nat) (fsz : Int)
    (chunks fid iterations window : Nat) :
    ClosedSched (incGen nodes k fsz chunks fid iterations window) := by
  have hsp := incFold_spanned nodes k fsz chunks fid iterations window
  have hg := incGen_gates_ge nodes k fsz chunks fid iterations window
  refine closedSched_of_bounds _
    ((foldEmit (incIter nodes k fsz fid chunks window)
      { flowId := 0, trig := 1, ldt := List.replicate chunks none,
        iterStart := none } (List.range iterations)).1.trig) rfl ?_ ?_
  · intro f hf t hor
    rcases hor with hgx | hd
    · exact le_trans (by omega) (hg f hf t hgx)
    · exact hsp.done_ge f hf t hd
  · intro f hf t hor
    rcases hor with hgx | hd
    · exact hsp.gate_le f hf t hgx
    · exact hsp.done_le f hf t hd

/-- Trigger id 1 is declared but never referenced by any INC flow. -/
theorem incGen_unref1 (nodes k : Nat) (fsz : Int)
    (chunks fid iterations window : Nat) :
    Unref (incGen nodes k fsz chunks fid iterations window) 1 := by
  have hsp := incFold_spanned nodes k fsz chunks fid iterations window
  constructor
  · show (1 : Nat) ∈ List.range' 1
      (foldEmit (incIter nodes k fsz fid chunks window)
        { flowId := 0, trig := 1, ldt := List.replicate chunks none,
          iterStart := none } (List.range iterations)).1.trig
    have h1T := hsp.start_le
    exact List.mem_range'_1.mpr ⟨le_rfl, by omega⟩
  · rintro ⟨f, hf, hor⟩
    rcases hor with hgx | hd
    · have := incGen_gates_ge nodes k fsz chunks fid iterations window
        f hf 1 hgx
      omega
    · exact absurd (hsp.done_gt f hf 1 hd) (lt_irrefl 1)

theorem range'_one_getLastD (T : Nat) (hT : 1 ≤ T) :
    (List.range' 1 T).getLastD 0 = T := by
  cases T with
  | zero => omega
  | succ n =>
    rw [List.range'_1_concat]
    simp [List.getLastD_concat]
    omega

/-- Every trigger referenced in the Tree upward phase is strictly below the
phase's final counter. -/
theorem treeUp_refLt (bf : Nat) (fsz : Int) (l : List Nat) (st : Nat × Nat) :
    (∀ fl ∈ (foldEmit (treeUpStep bf fsz) st l).2, ∀ t,
      fl.gate = some t ∨ fl.done = some t →
        t < (foldEmit (treeUpStep bf fsz) st l).1.2) ∧
    st.2 ≤ (foldEmit (treeUpStep bf fsz) st l).1.2 := by
  have h := refLt_foldEmit Prod.snd (fun _ : Nat × Nat => True)
    (treeUpStep bf fsz) l ?_ st trivial
  · exact ⟨h.1, h.2.1⟩
  · rintro ⟨fid, T⟩ i _ _
    refine ⟨?_, by show T ≤ T + 1; omega, trivial⟩
    intro fl hfl t hor
    simp only [treeUpStep, List.mem_singleton] at hfl
    subst hfl
    rcases hor with hg | hd
    · simp at hg
    · simp at hd
      show t < T + 1
      omega

/-- Every trigger referenced in the Tree downward phase is strictly below
the phase's final counter (for `nodes ≥ 2`). -/
theorem treeDown_refLt (nodes bf : Nat) (fsz : Int) (hn : 2 ≤ nodes)
    (st : Nat × Nat) (hst : 1 ≤ st.2) :
    (∀ fl ∈ (treeDownPhase nodes bf fsz st).2, ∀ t,
      fl.gate = some t ∨ fl.done = some t →
        t < (treeDownPhase nodes bf fsz st).1.2) ∧
    st.2 ≤ (treeDownPhase nodes bf fsz st).1.2 := by
  have h := refLt_foldEmit Prod.snd (fun s : Nat × Nat => 1 ≤ s.2)
    (fun st2 p =>
      foldEmit (treeDownStep nodes p fsz (treeChildren nodes bf p)) st2
        (treeChildren nodes bf p))
    (List.range nodes) ?_ st hst
  · exact ⟨h.1, h.2.1⟩
  · intro st2 p _ hP
    have hin := refLt_foldEmit Prod.snd (fun s : Nat × Nat => 1 ≤ s.2)
      (treeDownStep nodes p fsz (treeChildren nodes bf p))
      (treeChildren nodes bf p) ?_ st2 hP
    · exact hin
    · rintro ⟨fid, T⟩ child _ hP3
      have hT : (1 : Nat) ≤ T := hP3
      by_cases hc : (treeChildren nodes bf p).getLast? = some child
      · rw [treeDownStep_last nodes p fsz _ fid T child hc]
        refine ⟨?_, le_rfl, hT⟩
        intro fl hfl t hor
        simp at hfl
        subst hfl
        rcases hor with hg | hd
        · simp at hg
          show t < T
          omega
        · simp at hd
      · rw [treeDownStep_mid nodes p fsz _ fid T child hc]
        refine ⟨?_, by show T ≤ T + 1; omega, by show (1 : Nat) ≤ T + 1; omega⟩
        intro fl hfl t hor
        simp at hfl
        subst hfl
        rcases hor with hg | hd
        · simp at hg
          show t < T + 1
          omega
        · simp at hd
          show t < T + 1
          omega

/-- The last declared Tree trigger id is never referenced by any flow. -/
theorem treeGen_unref_last (nodes bf : Nat) (fsz : Int) :
    Unref (treeGen nodes bf fsz) ((treeGen nodes bf fsz).decls.getLastD 0) := by
  match nodes with
  | 0 =>
    constructor
    · rw [show (treeGen 0 bf fsz).decls = [1] from rfl]
      simp
    · rintro ⟨f, hf, _⟩
      have hf2 : f ∈ ([] : List Flow) := hf
      simp at hf2
  | 1 =>
    constructor
    · rw [show (treeGen 1 bf fsz).decls = [1] from rfl]
      simp
    · rintro ⟨f, hf, _⟩
      have hf2 : f ∈ ([] : List Flow) := hf
      simp at hf2
  | (n + 2) =>
    have h1 := treeUp_refLt bf fsz ((List.range' 1 (n + 2 - 1)).reverse) (0, 1)
    have hupT : (foldEmit (treeUpStep bf fsz) (0, 1)
        ((List.range' 1 (n + 2 - 1)).reverse)).1.2 = n + 2 := by
      rw [treeUp_state]
      simp
      omega
    have h2 := treeDown_refLt (n + 2) bf fsz (by omega)
      (foldEmit (treeUpStep bf fsz) (0, 1) ((List.range' 1 (n + 2 - 1)).reverse)).1
      (by rw [hupT]; omega)
    have hT : 1 ≤ (treeDownPhase (n + 2) bf fsz
        (foldEmit (treeUpStep bf fsz) (0, 1)
          ((List.range' 1 (n + 2 - 1)).reverse)).1).1.2 := by
      have := h2.2
      omega
    have heq : (treeGen (n + 2) bf fsz).decls.getLastD 0 =
        (treeDownPhase (n + 2) bf fsz
          (foldEmit (treeUpStep bf fsz) (0, 1)
            ((List.range' 1 (n + 2 - 1)).reverse)).1).1.2 := by
      rw [show (treeGen (n + 2) bf fsz).decls = List.range' 1
        ((treeDownPhase (n + 2) bf fsz
          (foldEmit (treeUpStep bf fsz) (0, 1)
            ((List.range' 1 (n + 2 - 1)).reverse)).1).1.2) from rfl]
      exact range'_one_getLastD _ hT
    constructor
    · rw [heq]
      show (treeDownPhase (n + 2) bf fsz
          (foldEmit (treeUpStep bf fsz) (0, 1)
            ((List.range' 1 (n + 2 - 1)).reverse)).1).1.2 ∈
        List.range' 1 ((treeDownPhase (n + 2) bf fsz
          (foldEmit (treeUpStep bf fsz) (0, 1)
            ((List.range' 1 (n + 2 - 1)).reverse)).1).1.2)
      exact List.mem_range'_1.mpr ⟨hT, by omega⟩
    · rintro ⟨f, hf, hor⟩
      rw [heq] at hor
      have hf2 : f ∈ (foldEmit (treeUpStep bf fsz) (0, 1)
          ((List.range' 1 (n + 2 - 1)).reverse)).2 ++
          (treeDownPhase (n + 2) bf fsz
            (foldEmit (treeUpStep bf fsz) (0, 1)
              ((List.range' 1 (n + 2 - 1)).reverse)).1).2 := hf
      rcases List.mem_append.mp hf2 with hup | hdn
      · have hlt := h1.1 f hup _ hor
        have hmono := h2.2
        omega
      · exact absurd (h2.1 f hdn _ hor) (lt_irrefl _)

/-! ### INC chunk structure: gates, tags and last-flow tracking -/

theorem isUp_iff (rid c : Nat) (f : Flow) :
    isUp rid c f = true ↔
      ∃ s, f.sem = some s ∧ s.dir = "UP" ∧ s.rid = rid ∧ s.cid = c := by
  cases hs : f.sem with
  | none => simp [isUp, hs]
  | some s => simp [isUp, hs, and_assoc]

theorem isDown_iff (rid c : Nat) (f : Flow) :
    isDown rid c f = true ↔
      ∃ s, f.sem = some s ∧ s.dir = "DOWN" ∧ s.rid = rid ∧ s.cid = c := by
  cases hs : f.sem with
  | none => simp [isDown, hs]
  | some s => simp [isDown, hs, and_assoc]

/-- Every flow emitted by the INC uplink loop carries the chunk's fixed UP
semantics, the fixed chunk-start gate, and an attached completion trigger. -/
theorem incUp_flows (dstAgg : Nat) (fsz : Int) (fid rid c : Nat)
    (gt : Option Nat) (l : List Nat) (st : (Nat × Nat) × Option Nat) :
    ∀ f ∈ (foldEmit (incUpStep dstAgg fsz fid rid c gt) st l).2,
      f.sem = some { op := "SUM", dir := "UP", fid := fid, rid := rid,
                     cid := c } ∧ f.gate = gt ∧ f.done.isSome = true := by
  have h := allFlows_foldEmit (fun _ : (Nat × Nat) × Option Nat => True)
    (fun fl => fl.sem = some { op := "SUM", dir := "UP", fid := fid,
                               rid := rid, cid := c } ∧
      fl.gate = gt ∧ fl.done.isSome = true)
    (incUpStep dstAgg fsz fid rid c gt) l ?_ st trivial
  · exact h.1
  · rintro ⟨⟨fid0, T⟩, lu⟩ src _ _
    refine ⟨?_, trivial⟩
    intro fl hfl
    by_cases hs : src = dstAgg
    · rw [show incUpStep dstAgg fsz fid rid c gt ((fid0, T), lu) src =
          (((fid0, T), lu), []) from by simp [incUpStep, hs]] at hfl
      simp at hfl
    · rw [show incUpStep dstAgg fsz fid rid c gt ((fid0, T), lu) src =
          (((fid0 + 1, T + 1), some (T + 1)),
           [{ src := src, dst := dstAgg, flowId := fid0 + 1, gate := gt,
              size := fsz, done := some (T + 1),
              sem := some { op := "SUM", dir := "UP", fid := fid, rid := rid,
                            cid := c } }]) from by simp [incUpStep, hs]] at hfl
      simp at hfl
      subst hfl
      exact ⟨rfl, rfl, rfl⟩

/-- Every flow emitted by the INC downlink loop carries the chunk's fixed
DOWN semantics, the fixed `last_upload_trig` gate, and an attached
completion trigger. -/
theorem incDown_flows (dstAgg : Nat) (fsz : Int) (fid rid c lastUp : Nat)
    (l : List Nat) (st : (Nat × Nat) × Option Nat) :
    ∀ f ∈ (foldEmit (incDownStep dstAgg fsz fid rid c lastUp) st l).2,
      f.sem = some { op := "SUM", dir := "DOWN", fid := fid, rid := rid,
                     cid := c } ∧ f.gate = some lastUp ∧
      f.done.isSome = true := by
  have h := allFlows_foldEmit (fun _ : (Nat × Nat) × Option Nat => True)
    (fun fl => fl.sem = some { op := "SUM", dir := "DOWN", fid := fid,
                               rid := rid, cid := c } ∧
      fl.gate = some lastUp ∧ fl.done.isSome = true)
    (incDownStep dstAgg fsz fid rid c lastUp) l ?_ st trivial
  · exact h.1
  · rintro ⟨⟨fid0, T⟩, ld⟩ dst _ _
    refine ⟨?_, trivial⟩
    intro fl hfl
    by_cases hs : dst = dstAgg
    · rw [show incDownStep dstAgg fsz fid rid c lastUp ((fid0, T), ld) dst =
          (((fid0, T), ld), []) from by simp [incDownStep, hs]] at hfl
      simp at hfl
    · rw [show incDownStep dstAgg fsz fid rid c lastUp ((fid0, T), ld) dst =
          (((fid0 + 1, T + 1), some (T + 1)),
           [{ src := dstAgg, dst := dst, flowId := fid0 + 1,
              gate := some lastUp, size := fsz, done := some (T + 1),
              sem := some { op := "SUM", dir := "DOWN", fid := fid,
                            rid := rid, cid := c } }])
        from by simp [incDownStep, hs]] at hfl
      simp at hfl
      subst hfl
      exact ⟨rfl, rfl, rfl⟩

/-- `last_upload_trig` tracks the completion trigger of the last uplink flow
emitted so far (defaulting to the incoming value when none was emitted). -/
theorem incUp_lastTrack (dstAgg : Nat) (fsz : Int) (fid rid c : Nat)
    (gt : Option Nat) :
    ∀ (l : List Nat) (st : (Nat × Nat) × Option Nat),
      (foldEmit (incUpStep dstAgg fsz fid rid c gt) st l).1.2 =
        ((foldEmit (incUpStep dstAgg fsz fid rid c gt) st l).2.map
          Flow.done).getLastD st.2 := by
  intro l
  induction l with
  | nil => intro st; rfl
  | cons n ns ih =>
    intro st
    by_cases hs : n = dstAgg
    · have hstep : incUpStep dstAgg fsz fid rid c gt st n = (st, []) := by
        simp [incUpStep, hs]
      show (foldEmit (incUpStep dstAgg fsz fid rid c gt)
          (incUpStep dstAgg fsz fid rid c gt st n).1 ns).1.2 =
        (((incUpStep dstAgg fsz fid rid c gt st n).2 ++
          (foldEmit (incUpStep dstAgg fsz fid rid c gt)
            (incUpStep dstAgg fsz fid rid c gt st n).1 ns).2).map
          Flow.done).getLastD st.2
      rw [hstep]
      simp only [List.nil_append]
      exact ih st
    · have hstep : incUpStep dstAgg fsz fid rid c gt st n =
          (((st.1.1 + 1, st.1.2 + 1), some (st.1.2 + 1)),
           [{ src := n, dst := dstAgg, flowId := st.1.1 + 1, gate := gt,
              size := fsz, done := some (st.1.2 + 1),
              sem := some { op := "SUM", dir := "UP", fid := fid, rid := rid,
                            cid := c } }]) := by
        simp [incUpStep, hs]
      show (foldEmit (incUpStep dstAgg fsz fid rid c gt)
          (incUpStep dstAgg fsz fid rid c gt st n).1 ns).1.2 =
        (((incUpStep dstAgg fsz fid rid c gt st n).2 ++
          (foldEmit (incUpStep dstAgg fsz fid rid c gt)
            (incUpStep dstAgg fsz fid rid c gt st n).1 ns).2).map
          Flow.done).getLastD st.2
      rw [hstep]
      simp only [List.singleton_append, List.map_cons, List.getLastD_cons]
      exact ih (((st.1.1 + 1, st.1.2 + 1), some (st.1.2 + 1)))

/-- `last_down_trig` tracks the completion trigger of the last downlink flow
emitted so far (defaulting to the incoming value when none was emitted). -/
theorem incDown_lastTrack (dstAgg : Nat) (fsz : Int) (fid rid c lastUp : Nat) :
    ∀ (l : List Nat) (st : (Nat × Nat) × Option Nat),
      (foldEmit (incDownStep dstAgg fsz fid rid c lastUp) st l).1.2 =
        ((foldEmit (incDownStep dstAgg fsz fid rid c lastUp) st l).2.map
          Flow.done).getLastD st.2 := by
  intro l
  induction l with
  | nil => intro st; rfl
  | cons n ns ih =>
    intro st
    by_cases hs : n = dstAgg
    · have hstep : incDownStep dstAgg fsz fid rid c lastUp st n = (st, []) := by
        simp [incDownStep, hs]
      show (foldEmit (incDownStep dstAgg fsz fid rid c lastUp)
          (incDownStep dstAgg fsz fid rid c lastUp st n).1 ns).1.2 =
        (((incDownStep dstAgg fsz fid rid c lastUp st n).2 ++
          (foldEmit (incDownStep dstAgg fsz fid rid c lastUp)
            (incDownStep dstAgg fsz fid rid c lastUp st n).1 ns).2).map
          Flow.done).getLastD st.2
      rw [hstep]
      simp only [List.nil_append]
      exact ih st
    · have hstep : incDownStep dstAgg fsz fid rid c lastUp st n =
          (((st.1.1 + 1, st.1.2 + 1), some (st.1.2 + 1)),
           [{ src := dstAgg, dst := n, flowId := st.1.1 + 1,
              gate := some lastUp, size := fsz, done := some (st.1.2 + 1),
              sem := some { op := "SUM", dir := "DOWN", fid := fid,
                            rid := rid, cid := c } }]) := by
        simp [incDownStep, hs]
      show (foldEmit (incDownStep dstAgg fsz fid rid c lastUp)
          (incDownStep dstAgg fsz fid rid c lastUp st n).1 ns).1.2 =
        (((incDownStep dstAgg fsz fid rid c lastUp st n).2 ++
          (foldEmit (incDownStep dstAgg fsz fid rid c lastUp)
            (incDownStep dstAgg fsz fid rid c lastUp st n).1 ns).2).map
          Flow.done).getLastD st.2
      rw [hstep]
      simp only [List.singleton_append, List.map_cons, List.getLastD_cons]
      exact ih (((st.1.1 + 1, st.1.2 + 1), some (st.1.2 + 1)))

theorem foldEmit_ne_nil {σ : Type} (f : σ → Nat → σ × List Flow) (n : Nat)
    (hstep : ∀ st, (f st n).2 ≠ []) :
    ∀ (l : List Nat), n ∈ l → ∀ st, (foldEmit f st l).2 ≠ [] := by
  intro l
  induction l with
  | nil => intro hn; simp at hn
  | cons m ms ih =>
    intro hn st
    show ¬ ((f st m).2 ++ (foldEmit f (f st m).1 ms).2 = [])
    intro hc
    rcases List.mem_cons.mp hn with heq | hmem
    · subst heq
      exact hstep st (List.append_eq_nil.mp hc).1
    · exact ih hmem (f st m).1 (List.append_eq_nil.mp hc).2

theorem exists_host_ne (nodes dstAgg : Nat) (hn : 2 ≤ nodes) :
    ∃ src ∈ List.range nodes, src ≠ dstAgg := by
  by_cases h0 : dstAgg = 0
  · exact ⟨1, List.mem_range.mpr (by omega), by omega⟩
  · exact ⟨0, List.mem_range.mpr (by omega), fun hc => h0 hc.symm⟩

/-- With at least two hosts, the uplink loop emits at least one flow and
stores its completion trigger; that trigger closes the uplink stream. -/
theorem incUp_last_some (dstAgg : Nat) (fsz : Int) (fid rid c : Nat)
    (gt : Option Nat) (nodes : Nat) (hn : 2 ≤ nodes)
    (st : (Nat × Nat) × Option Nat) :
    ∃ t, (foldEmit (incUpStep dstAgg fsz fid rid c gt) st
        (List.range nodes)).1.2 = some t ∧
      ((foldEmit (incUpStep dstAgg fsz fid rid c gt) st
        (List.range nodes)).2.map Flow.done).getLast? = some (some t) := by
  obtain ⟨src, hmem, hne⟩ := exists_host_ne nodes dstAgg hn
  have hnil : (foldEmit (incUpStep dstAgg fsz fid rid c gt) st
      (List.range nodes)).2 ≠ [] := by
    refine foldEmit_ne_nil _ src ?_ (List.range nodes) hmem st
    intro st2
    simp [incUpStep, hne]
  have h1 := incUp_lastTrack dstAgg fsz fid rid c gt (List.range nodes) st
  have hmapne : (foldEmit (incUpStep dstAgg fsz fid rid c gt) st
      (List.range nodes)).2.map Flow.done ≠ [] := by
    simpa using hnil
  obtain ⟨x, hx⟩ := Option.isSome_iff_exists.mp
    (List.getLast?_isSome.mpr hmapne)
  obtain ⟨f, hf, hfx⟩ := List.mem_map.mp (List.mem_of_mem_getLast? hx)
  obtain ⟨t, ht⟩ := Option.isSome_iff_exists.mp
    (incUp_flows dstAgg fsz fid rid c gt (List.range nodes) st f hf).2.2
  refine ⟨t, ?_, ?_⟩
  · rw [h1, List.getLastD_eq_getLast?, hx]
    rw [← hfx, ht]
    rfl
  · rw [hx, ← hfx, ht]

/-- With at least two hosts, the downlink loop emits at least one flow and
stores its completion trigger; that trigger closes the downlink stream. -/
theorem incDown_last_some (dstAgg : Nat) (fsz : Int) (fid rid c lastUp : Nat)
    (nodes : Nat) (hn : 2 ≤ nodes) (st : (Nat × Nat) × Option Nat) :
    ∃ t, (foldEmit (incDownStep dstAgg fsz fid rid c lastUp) st
        (List.range nodes)).1.2 = some t ∧
      ((foldEmit (incDownStep dstAgg fsz fid rid c lastUp) st
        (List.range nodes)).2.map Flow.done).getLast? = some (some t) := by
  obtain ⟨dst, hmem, hne⟩ := exists_host_ne nodes dstAgg hn
  have hnil : (foldEmit (incDownStep dstAgg fsz fid rid c lastUp) st
      (List.range nodes)).2 ≠ [] := by
    refine foldEmit_ne_nil _ dst ?_ (List.range nodes) hmem st
    intro st2
    simp [incDownStep, hne]
  have h1 := incDown_lastTrack dstAgg fsz fid rid c lastUp
    (List.range nodes) st
  have hmapne : (foldEmit (incDownStep dstAgg fsz fid rid c lastUp) st
      (List.range nodes)).2.map Flow.done ≠ [] := by
    simpa using hnil
  obtain ⟨x, hx⟩ := Option.isSome_iff_exists.mp
    (List.getLast?_isSome.mpr hmapne)
  obtain ⟨f, hf, hfx⟩ := List.mem_map.mp (List.mem_of_mem_getLast? hx)
  obtain ⟨t, ht⟩ := Option.isSome_iff_exists.mp
    (incDown_flows dstAgg fsz fid rid c lastUp (List.range nodes) st f hf).2.2
  refine ⟨t, ?_, ?_⟩
  · rw [h1, List.getLastD_eq_getLast?, hx]
    rw [← hfx, ht]
    rfl
  · rw [hx, ← hfx, ht]

/-- Structure of one INC chunk's emission: every flow is tagged with the
chunk's round and chunk ids; every DOWN flow is gated on one common trigger
`tU`, the completion trigger of the last UP flow; the updated
`last_downlink_trigger[c]` records `tD`, the completion trigger of the last
DOWN flow; every UP flow is gated on the chunk-start condition; and the rest
of the state is preserved. -/
theorem incChunk_struct (nodes k : Nat) (fsz : Int) (fid window rid : Nat)
    (st : IncSt) (c : Nat) (hn : 2 ≤ nodes) (hc : c < st.ldt.length) :
    (∀ f ∈ (incChunk nodes k fsz fid window rid st c).2,
      ∃ s, f.sem = some s ∧ s.rid = rid ∧ s.cid = c ∧
        (s.dir = "UP" ∨ s.dir = "DOWN")) ∧
    (∃ tU,
      (∀ f ∈ (incChunk nodes k fsz fid window rid st c).2,
        isDown rid c f = true → f.gate = some tU) ∧
      (((incChunk nodes k fsz fid window rid st c).2.filter
          (isUp rid c)).map Flow.done).getLast? = some (some tU)) ∧
    (∃ tD,
      (incChunk nodes k fsz fid window rid st c).1.ldt.getD c none =
        some tD ∧
      (((incChunk nodes k fsz fid window rid st c).2.filter
          (isDown rid c)).map Flow.done).getLast? = some (some tD)) ∧
    (∀ f ∈ (incChunk nodes k fsz fid window rid st c).2,
      isUp rid c f = true →
        f.gate = start_or_trigger (incChunkStart window st c)) ∧
    (incChunk nodes k fsz fid window rid st c).1.ldt.length =
      st.ldt.length ∧
    (incChunk nodes k fsz fid window rid st c).1.iterStart = st.iterStart ∧
    (∀ j, j ≠ c →
      (incChunk nodes k fsz fid window rid st c).1.ldt.getD j none =
        st.ldt.getD j none) := by
  simp only [incChunk]
  set UP := foldEmit (incUpStep (chunk_to_agg_node k c) fsz fid rid c
      (start_or_trigger (incChunkStart window st c)))
    ((st.flowId, st.trig), none) (List.range nodes) with hUP
  obtain ⟨tU, htU1, htU2⟩ := incUp_last_some (chunk_to_agg_node k c) fsz fid
    rid c (start_or_trigger (incChunkStart window st c)) nodes hn
    ((st.flowId, st.trig), none)
  rw [← hUP] at htU1 htU2
  have hupfl := incUp_flows (chunk_to_agg_node k c) fsz fid rid c
    (start_or_trigger (incChunkStart window st c)) (List.range nodes)
    ((st.flowId, st.trig), none)
  rw [← hUP] at hupfl
  set DN := foldEmit (incDownStep (chunk_to_agg_node k c) fsz fid rid c
      (fixupTrig UP.1.2 UP.1.1.2).2)
    ((UP.1.1.1, (fixupTrig UP.1.2 UP.1.1.2).1), none) (List.range nodes)
    with hDN
  obtain ⟨tD, htD1, htD2⟩ := incDown_last_some (chunk_to_agg_node k c) fsz
    fid rid c (fixupTrig UP.1.2 UP.1.1.2).2 nodes hn
    ((UP.1.1.1, (fixupTrig UP.1.2 UP.1.1.2).1), none)
  rw [← hDN] at htD1 htD2
  have hdnfl := incDown_flows (chunk_to_agg_node k c) fsz fid rid c
    (fixupTrig UP.1.2 UP.1.1.2).2 (List.range nodes)
    ((UP.1.1.1, (fixupTrig UP.1.2 UP.1.1.2).1), none)
  rw [← hDN] at hdnfl
  have hfixU : (fixupTrig UP.1.2 UP.1.1.2).2 = tU := by
    rw [htU1]
    rfl
  have hfixD : (fixupTrig DN.1.2 DN.1.1.2).2 = tD := by
    rw [htD1]
    rfl
  have hupNotDown : ∀ f ∈ UP.2, isDown rid c f = false := by
    intro f hf
    have hsem := (hupfl f hf).1
    simp [isDown, hsem]
  have hdnNotUp : ∀ f ∈ DN.2, isUp rid c f = false := by
    intro f hf
    have hsem := (hdnfl f hf).1
    simp [isUp, hsem]
  have hfilterUp : (UP.2 ++ DN.2).filter (isUp rid c) = UP.2 := by
    rw [List.filter_append]
    have h1 : UP.2.filter (isUp rid c) = UP.2 := by
      apply List.filter_eq_self.mpr
      intro f hf
      have hsem := (hupfl f hf).1
      simp [isUp, hsem]
    have h2 : DN.2.filter (isUp rid c) = [] := by
      apply List.filter_eq_nil_iff.mpr
      intro f hf
      simp [hdnNotUp f hf]
    rw [h1, h2, List.append_nil]
  have hfilterDown : (UP.2 ++ DN.2).filter (isDown rid c) = DN.2 := by
    rw [List.filter_append]
    have h1 : UP.2.filter (isDown rid c) = [] := by
      apply List.filter_eq_nil_iff.mpr
      intro f hf
      simp [hupNotDown f hf]
    have h2 : DN.2.filter (isDown rid c) = DN.2 := by
      apply List.filter_eq_self.mpr
      intro f hf
      have hsem := (hdnfl f hf).1
      simp [isDown, hsem]
    rw [h1, h2, List.nil_append]
  refine ⟨?_, ⟨tU, ?_, ?_⟩, ⟨tD, ?_, ?_⟩, ?_, ?_, trivial, ?_⟩
  · intro f hf
    rcases List.mem_append.mp hf with hm | hm
    · exact ⟨_, (hupfl f hm).1, rfl, rfl, Or.inl rfl⟩
    · exact ⟨_, (hdnfl f hm).1, rfl, rfl, Or.inr rfl⟩
  · intro f hf hdown
    rcases List.mem_append.mp hf with hm | hm
    · rw [hupNotDown f hm] at hdown
      simp at hdown
    · rw [← hfixU]
      exact (hdnfl f hm).2.1
  · rw [hfilterUp]
    exact htU2
  · rw [hfixD]
    rw [List.getD_eq_getElem?_getD, List.getElem?_set]
    rw [if_pos rfl, if_pos hc]
    rfl
  · rw [hfilterDown]
    exact htD2
  · intro f hf hup
    rcases List.mem_append.mp hf with hm | hm
    · exact (hupfl f hm).2.1
    · rw [hdnNotUp f hm] at hup
      simp at hup
  · simp
  · intro j hj
    rw [List.getD_eq_getElem?_getD, List.getElem?_set,
      if_neg (fun hcc => hj hcc.symm), ← List.getD_eq_getElem?_getD]

theorem isDown_false_of_cid {r j : Nat} {f : Flow} {s : Sem}
    (hs : f.sem = some s) (hne : s.cid ≠ j) : isDown r j f = false := by
  cases hb : isDown r j f
  · rfl
  · obtain ⟨s2, hs2, _, _, hc2⟩ := (isDown_iff r j f).mp hb
    rw [hs] at hs2
    injection hs2 with hss
    subst hss
    exact absurd hc2 hne

theorem isUp_false_of_cid {r j : Nat} {f : Flow} {s : Sem}
    (hs : f.sem = some s) (hne : s.cid ≠ j) : isUp r j f = false := by
  cases hb : isUp r j f
  · rfl
  · obtain ⟨s2, hs2, _, _, hc2⟩ := (isUp_iff r j f).mp hb
    rw [hs] at hs2
    injection hs2 with hss
    subst hss
    exact absurd hc2 hne

theorem isDown_false_of_rid {r j : Nat} {f : Flow} {s : Sem}
    (hs : f.sem = some s) (hne : s.rid ≠ r) : isDown r j f = false := by
  cases hb : isDown r j f
  · rfl
  · obtain ⟨s2, hs2, _, hr2, _⟩ := (isDown_iff r j f).mp hb
    rw [hs] at hs2
    injection hs2 with hss
    subst hss
    exact absurd hr2 hne

theorem isUp_false_of_rid {r j : Nat} {f : Flow} {s : Sem}
    (hs : f.sem = some s) (hne : s.rid ≠ r) : isUp r j f = false := by
  cases hb : isUp r j f
  · rfl
  · obtain ⟨s2, hs2, _, hr2, _⟩ := (isUp_iff r j f).mp hb
    rw [hs] at hs2
    injection hs2 with hss
    subst hss
    exact absurd hr2 hne

/-- Structure of the INC chunk loop after `m` chunks: the state invariants
are preserved; every flow is tagged with the round id and a chunk id below
`m`; `last_downlink_trigger[j]` records the completion trigger of the last
DOWN flow of chunk `j`; every DOWN flow of a chunk is gated on one common
trigger, the completion trigger of the chunk's last UP flow; and every UP
flow of a chunk `c ≥ window` is gated on the completion trigger of the last
DOWN flow of chunk `c - window` of the same round. -/
theorem incChunkFold_struct (nodes k : Nat) (fsz : Int)
    (fid window rid : Nat) (hn : 2 ≤ nodes) :
    ∀ (m : Nat) (st0 : IncSt), IncPos st0 → m ≤ st0.ldt.length →
      (IncPos (foldEmit (incChunk nodes k fsz fid window rid) st0
          (List.range m)).1 ∧
       (foldEmit (incChunk nodes k fsz fid window rid) st0
          (List.range m)).1.ldt.length = st0.ldt.length ∧
       (foldEmit (incChunk nodes k fsz fid window rid) st0
          (List.range m)).1.iterStart = st0.iterStart) ∧
      (∀ f ∈ (foldEmit (incChunk nodes k fsz fid window rid) st0
          (List.range m)).2,
        ∃ s, f.sem = some s ∧ s.rid = rid ∧ s.cid < m ∧
          (s.dir = "UP" ∨ s.dir = "DOWN")) ∧
      (∀ j, j < m → ∃ t,
        (foldEmit (incChunk nodes k fsz fid window rid) st0
          (List.range m)).1.ldt.getD j none = some t ∧
        (((foldEmit (incChunk nodes k fsz fid window rid) st0
            (List.range m)).2.filter (isDown rid j)).map
          Flow.done).getLast? = some (some t)) ∧
      (∀ c f, f ∈ (foldEmit (incChunk nodes k fsz fid window rid) st0
          (List.range m)).2 → isDown rid c f = true →
        ∃ t, f.gate = some t ∧
          (((foldEmit (incChunk nodes k fsz fid window rid) st0
              (List.range m)).2.filter (isUp rid c)).map
            Flow.done).getLast? = some (some t) ∧
          ∀ g ∈ (foldEmit (incChunk nodes k fsz fid window rid) st0
              (List.range m)).2, isDown rid c g = true →
            g.gate = some t) ∧
      (∀ c f, 1 ≤ window → window ≤ c →
        f ∈ (foldEmit (incChunk nodes k fsz fid window rid) st0
          (List.range m)).2 → isUp rid c f = true →
        ∃ t, f.gate = some t ∧
          (((foldEmit (incChunk nodes k fsz fid window rid) st0
              (List.range m)).2.filter (isDown rid (c - window))).map
            Flow.done).getLast? = some (some t)) := by
  intro m
  induction m with
  | zero =>
    intro st0 hP _
    refine ⟨⟨hP, rfl, rfl⟩, ?_, ?_, ?_, ?_⟩
    · intro f hf
      have hf2 : f ∈ ([] : List Flow) := hf
      simp at hf2
    · intro j hj
      omega
    · intro c f hf
      have hf2 : f ∈ ([] : List Flow) := hf
      simp at hf2
    · intro c f _ _ hf
      have hf2 : f ∈ ([] : List Flow) := hf
      simp at hf2
  | succ m ih =>
    intro st0 hP hlen
    set F := foldEmit (incChunk nodes k fsz fid window rid) st0
      (List.range m) with hF
    obtain ⟨⟨ihPos, ihLen, ihIter⟩, ihTags, ihC, ihD, ihE⟩ :=
      ih st0 hP (by omega)
    rw [← hF] at ihPos ihLen ihIter ihTags ihC ihD ihE
    set G := incChunk nodes k fsz fid window rid F.1 m with hG2
    have hGstr := incChunk_struct nodes k fsz fid window rid F.1 m hn
      (by rw [ihLen]; omega)
    rw [← hG2] at hGstr
    obtain ⟨hGtags, ⟨tU, hGdg, hGuf⟩, ⟨tD, hGldt, hGdf⟩, hGug, hGlen,
      hGiter, hGpres⟩ := hGstr
    have hGpos2 := (incChunk_gates_ge nodes k fsz fid window rid F.1 m
      ihPos).2
    rw [← hG2] at hGpos2
    have h1 : foldEmit (incChunk nodes k fsz fid window rid) st0
        (List.range (m + 1)) = (G.1, F.2 ++ G.2) := by
      rw [hG2, hF, List.range_succ, foldEmit_append, foldEmit_single,
        List.append_nil]
    have hstate : (foldEmit (incChunk nodes k fsz fid window rid) st0
        (List.range (m + 1))).1 = G.1 := by rw [h1]
    have hflows : (foldEmit (incChunk nodes k fsz fid window rid) st0
        (List.range (m + 1))).2 = F.2 ++ G.2 := by rw [h1]
    have hFfalseDown : ∀ j, m ≤ j → ∀ f ∈ F.2, isDown rid j f = false := by
      intro j hj f hf
      obtain ⟨s, hs, _, hcid, _⟩ := ihTags f hf
      exact isDown_false_of_cid hs (by omega)
    have hFfalseUp : ∀ j, m ≤ j → ∀ f ∈ F.2, isUp rid j f = false := by
      intro j hj f hf
      obtain ⟨s, hs, _, hcid, _⟩ := ihTags f hf
      exact isUp_false_of_cid hs (by omega)
    have hGfalseDown : ∀ j, j ≠ m → ∀ f ∈ G.2, isDown rid j f = false := by
      intro j hj f hf
      obtain ⟨s, hs, _, hcid, _⟩ := hGtags f hf
      exact isDown_false_of_cid hs (by omega)
    have hGfalseUp : ∀ j, j ≠ m → ∀ f ∈ G.2, isUp rid j f = false := by
      intro j hj f hf
      obtain ⟨s, hs, _, hcid, _⟩ := hGtags f hf
      exact isUp_false_of_cid hs (by omega)
    have hfilterG_nil : ∀ (p : Flow → Bool), (∀ f ∈ G.2, p f = false) →
        (F.2 ++ G.2).filter p = F.2.filter p := by
      intro p hp
      rw [List.filter_append]
      have h2 : G.2.filter p = [] :=
        List.filter_eq_nil_iff.mpr (fun a ha => by simp [hp a ha])
      rw [h2, List.append_nil]
    have hfilterF_nil : ∀ (p : Flow → Bool), (∀ f ∈ F.2, p f = false) →
        (F.2 ++ G.2).filter p = G.2.filter p := by
      intro p hp
      rw [List.filter_append]
      have h2 : F.2.filter p = [] :=
        List.filter_eq_nil_iff.mpr (fun a ha => by simp [hp a ha])
      rw [h2, List.nil_append]
    have hcid_of_down : ∀ c f, f ∈ G.2 → isDown rid c f = true → c = m := by
      intro c f hf hd
      obtain ⟨s, hs, _, hcid, _⟩ := hGtags f hf
      obtain ⟨s2, hs2, _, _, hc2⟩ := (isDown_iff rid c f).mp hd
      rw [hs] at hs2
      injection hs2 with hss
      subst hss
      omega
    have hcid_of_up : ∀ c f, f ∈ G.2 → isUp rid c f = true → c = m := by
      intro c f hf hd
      obtain ⟨s, hs, _, hcid, _⟩ := hGtags f hf
      obtain ⟨s2, hs2, _, _, hc2⟩ := (isUp_iff rid c f).mp hd
      rw [hs] at hs2
      injection hs2 with hss
      subst hss
      omega
    have hcid_lt_of_down : ∀ c f, f ∈ F.2 → isDown rid c f = true →
        c < m := by
      intro c f hf hd
      obtain ⟨s, hs, _, hcid, _⟩ := ihTags f hf
      obtain ⟨s2, hs2, _, _, hc2⟩ := (isDown_iff rid c f).mp hd
      rw [hs] at hs2
      injection hs2 with hss
      subst hss
      omega
    have hcid_lt_of_up : ∀ c f, f ∈ F.2 → isUp rid c f = true → c < m := by
      intro c f hf hd
      obtain ⟨s, hs, _, hcid, _⟩ := ihTags f hf
      obtain ⟨s2, hs2, _, _, hc2⟩ := (isUp_iff rid c f).mp hd
      rw [hs] at hs2
      injection hs2 with hss
      subst hss
      omega
    refine ⟨⟨?_, ?_, ?_⟩, ?_, ?_, ?_, ?_⟩
    · rw [hstate]
      exact hGpos2
    · rw [hstate, hGlen]
      exact ihLen
    · rw [hstate, hGiter]
      exact ihIter
    · intro f hf
      rw [hflows] at hf
      rcases List.mem_append.mp hf with hm | hm
      · obtain ⟨s, hs, hr, hcid, hdir⟩ := ihTags f hm
        exact ⟨s, hs, hr, by omega, hdir⟩
      · obtain ⟨s, hs, hr, hcid, hdir⟩ := hGtags f hm
        exact ⟨s, hs, hr, by omega, hdir⟩
    · intro j hj
      by_cases hjm : j = m
      · subst hjm
        refine ⟨tD, ?_, ?_⟩
        · rw [hstate]
          exact hGldt
        · rw [hflows, hfilterF_nil _ (hFfalseDown j le_rfl)]
          exact hGdf
      · obtain ⟨t, ht1, ht2⟩ := ihC j (by omega)
        refine ⟨t, ?_, ?_⟩
        · rw [hstate, hGpres j hjm]
          exact ht1
        · rw [hflows, hfilterG_nil _ (hGfalseDown j hjm)]
          exact ht2
    · intro c f hf hdown
      rw [hflows] at hf
      rcases List.mem_append.mp hf with hm | hm
      · have hcm : c < m := hcid_lt_of_down c f hm hdown
        obtain ⟨t, ht1, ht2, ht3⟩ := ihD c f hm hdown
        refine ⟨t, ht1, ?_, ?_⟩
        · rw [hflows, hfilterG_nil _ (hGfalseUp c (by omega))]
          exact ht2
        · intro g hg hgd
          rw [hflows] at hg
          rcases List.mem_append.mp hg with hm2 | hm2
          · exact ht3 g hm2 hgd
          · have := hcid_of_down c g hm2 hgd
            omega
      · have hcm : c = m := hcid_of_down c f hm hdown
        subst hcm
        refine ⟨tU, hGdg f hm hdown, ?_, ?_⟩
        · rw [hflows, hfilterF_nil _ (hFfalseUp c le_rfl)]
          exact hGuf
        · intro g hg hgd
          rw [hflows] at hg
          rcases List.mem_append.mp hg with hm2 | hm2
          · have := hcid_lt_of_down c g hm2 hgd
            omega
          · exact hGdg g hm2 hgd
    · intro c f hw hwc hf hup
      rw [hflows] at hf
      rcases List.mem_append.mp hf with hm | hm
      · have hcm : c < m := hcid_lt_of_up c f hm hup
        obtain ⟨t, ht1, ht2⟩ := ihE c f hw hwc hm hup
        refine ⟨t, ht1, ?_⟩
        rw [hflows, hfilterG_nil _ (hGfalseDown (c - window) (by omega))]
        exact ht2
      · have hcm : c = m := hcid_of_up c f hm hup
        subst hcm
        obtain ⟨t0, ht01, ht02⟩ := ihC (c - window) (by omega)
        have ht0pos : 2 ≤ t0 := ihPos.2.1 (c - window) t0 ht01
        have hgate : f.gate = some t0 := by
          rw [hGug f hm hup]
          rw [show incChunkStart window F.1 c = some t0 from by
            unfold incChunkStart
            rw [if_neg (show ¬ c < window by omega), ht01]]
          show (if t0 = 0 then none else some t0) = some t0
          rw [if_neg (show ¬ t0 = 0 by omega)]
        refine ⟨t0, hgate, ?_⟩
        rw [hflows, hfilterG_nil _ (hGfalseDown (c - window) (by omega))]
        exact ht02

/-- Structure of the INC iteration loop after `n` iterations: every flow is
tagged with a round id in `[1, n]` and a chunk id below `chunks`; every DOWN
flow of a round/chunk is gated on one common trigger, the completion trigger
of the last UP flow of the same round and chunk; and every UP flow of a
chunk `c ≥ window` is gated on the completion trigger of the last DOWN flow
of chunk `c - window` of the same round. -/
theorem incIterFold_struct (nodes k : Nat) (fsz : Int)
    (fid chunks window : Nat) (hn : 2 ≤ nodes) :
    ∀ (n : Nat) (st0 : IncSt), IncPos st0 → chunks ≤ st0.ldt.length →
      (IncPos (foldEmit (incIter nodes k fsz fid chunks window) st0
          (List.range n)).1 ∧
       (foldEmit (incIter nodes k fsz fid chunks window) st0
          (List.range n)).1.ldt.length = st0.ldt.length) ∧
      (∀ f ∈ (foldEmit (incIter nodes k fsz fid chunks window) st0
          (List.range n)).2,
        ∃ s, f.sem = some s ∧ 1 ≤ s.rid ∧ s.rid ≤ n ∧ s.cid < chunks ∧
          (s.dir = "UP" ∨ s.dir = "DOWN")) ∧
      (∀ r c f, f ∈ (foldEmit (incIter nodes k fsz fid chunks window) st0
          (List.range n)).2 → isDown r c f = true →
        ∃ t, f.gate = some t ∧
          (((foldEmit (incIter nodes k fsz fid chunks window) st0
              (List.range n)).2.filter (isUp r c)).map
            Flow.done).getLast? = some (some t) ∧
          ∀ g ∈ (foldEmit (incIter nodes k fsz fid chunks window) st0
              (List.range n)).2, isDown r c g = true → g.gate = some t) ∧
      (∀ r c f, 1 ≤ window → window ≤ c →
        f ∈ (foldEmit (incIter nodes k fsz fid chunks window) st0
          (List.range n)).2 → isUp r c f = true →
        ∃ t, f.gate = some t ∧
          (((foldEmit (incIter nodes k fsz fid chunks window) st0
              (List.range n)).2.filter (isDown r (c - window))).map
            Flow.done).getLast? = some (some t)) := by
  intro n
  induction n with
  | zero =>
    intro st0 hP _
    refine ⟨⟨hP, rfl⟩, ?_, ?_, ?_⟩
    · intro f hf
      have hf2 : f ∈ ([] : List Flow) := hf
      simp at hf2
    · intro r c f hf
      have hf2 : f ∈ ([] : List Flow) := hf
      simp at hf2
    · intro r c f _ _ hf
      have hf2 : f ∈ ([] : List Flow) := hf
      simp at hf2
  | succ n ih =>
    intro st0 hP hlen
    set F := foldEmit (incIter nodes k fsz fid chunks window) st0
      (List.range n) with hF
    obtain ⟨⟨ihPos, ihLen⟩, ihTags, ihD, ihE⟩ := ih st0 hP hlen
    rw [← hF] at ihPos ihLen ihTags ihD ihE
    set P := foldEmit (incChunk nodes k fsz fid window (n + 1)) F.1
      (List.range chunks) with hPc
    have hchunk := incChunkFold_struct nodes k fsz fid window (n + 1) hn
      chunks F.1 ihPos (by rw [ihLen]; exact hlen)
    rw [← hPc] at hchunk
    obtain ⟨⟨hcPos, hcLen, _⟩, hcTags, hcC, hcD, hcE⟩ := hchunk
    have h1 : foldEmit (incIter nodes k fsz fid chunks window) st0
        (List.range (n + 1)) =
        ({ P.1 with iterStart := P.1.ldt.getD (chunks - 1) none },
         F.2 ++ P.2) := by
      rw [hPc, hF, List.range_succ, foldEmit_append, foldEmit_single,
        List.append_nil]
      simp only [incIter]
    have hstate : (foldEmit (incIter nodes k fsz fid chunks window) st0
        (List.range (n + 1))).1 =
        { P.1 with iterStart := P.1.ldt.getD (chunks - 1) none } := by
      rw [h1]
    have hflows : (foldEmit (incIter nodes k fsz fid chunks window) st0
        (List.range (n + 1))).2 = F.2 ++ P.2 := by
      rw [h1]
    have hFfalseDown : ∀ r c, n < r → ∀ f ∈ F.2, isDown r c f = false := by
      intro r c hr f hf
      obtain ⟨s, hs, _, hrle, _⟩ := ihTags f hf
      exact isDown_false_of_rid hs (by omega)
    have hFfalseUp : ∀ r c, n < r → ∀ f ∈ F.2, isUp r c f = false := by
      intro r c hr f hf
      obtain ⟨s, hs, _, hrle, _⟩ := ihTags f hf
      exact isUp_false_of_rid hs (by omega)
    have hPfalseDown : ∀ r c, r ≠ n + 1 → ∀ f ∈ P.2,
        isDown r c f = false := by
      intro r c hr f hf
      obtain ⟨s, hs, hrid, _⟩ := hcTags f hf
      exact isDown_false_of_rid hs (by omega)
    have hPfalseUp : ∀ r c, r ≠ n + 1 → ∀ f ∈ P.2, isUp r c f = false := by
      intro r c hr f hf
      obtain ⟨s, hs, hrid, _⟩ := hcTags f hf
      exact isUp_false_of_rid hs (by omega)
    have hfilterP_nil : ∀ (p : Flow → Bool), (∀ f ∈ P.2, p f = false) →
        (F.2 ++ P.2).filter p = F.2.filter p := by
      intro p hp
      rw [List.filter_append]
      have h2 : P.2.filter p = [] :=
        List.filter_eq_nil_iff.mpr (fun a ha => by simp [hp a ha])
      rw [h2, List.append_nil]
    have hfilterF_nil : ∀ (p : Flow → Bool), (∀ f ∈ F.2, p f = false) →
        (F.2 ++ P.2).filter p = P.2.filter p := by
      intro p hp
      rw [List.filter_append]
      have h2 : F.2.filter p = [] :=
        List.filter_eq_nil_iff.mpr (fun a ha => by simp [hp a ha])
      rw [h2, List.nil_append]
    have hrid_of_down : ∀ r c f, f ∈ P.2 → isDown r c f = true →
        r = n + 1 := by
      intro r c f hf hd
      obtain ⟨s, hs, hrid, _⟩ := hcTags f hf
      obtain ⟨s2, hs2, _, hr2, _⟩ := (isDown_iff r c f).mp hd
      rw [hs] at hs2
      injection hs2 with hss
      subst hss
      omega
    have hrid_of_up : ∀ r c f, f ∈ P.2 → isUp r c f = true →
        r = n + 1 := by
      intro r c f hf hd
      obtain ⟨s, hs, hrid, _⟩ := hcTags f hf
      obtain ⟨s2, hs2, _, hr2, _⟩ := (isUp_iff r c f).mp hd
      rw [hs] at hs2
      injection hs2 with hss
      subst hss
      omega
    have hrid_le_of_down : ∀ r c f, f ∈ F.2 → isDown r c f = true →
        r ≤ n := by
      intro r c f hf hd
      obtain ⟨s, hs, _, hrle, _⟩ := ihTags f hf
      obtain ⟨s2, hs2, _, hr2, _⟩ := (isDown_iff r c f).mp hd
      rw [hs] at hs2
      injection hs2 with hss
      subst hss
      omega
    have hrid_le_of_up : ∀ r c f, f ∈ F.2 → isUp r c f = true → r ≤ n := by
      intro r c f hf hd
      obtain ⟨s, hs, _, hrle, _⟩ := ihTags f hf
      obtain ⟨s2, hs2, _, hr2, _⟩ := (isUp_iff r c f).mp hd
      rw [hs] at hs2
      injection hs2 with hss
      subst hss
      omega
    refine ⟨⟨?_, ?_⟩, ?_, ?_, ?_⟩
    · rw [hstate]
      exact ⟨hcPos.1, hcPos.2.1,
        fun t ht => hcPos.2.1 (chunks - 1) t ht⟩
    · rw [hstate]
      show P.1.ldt.length = st0.ldt.length
      rw [hcLen]
      exact ihLen
    · intro f hf
      rw [hflows] at hf
      rcases List.mem_append.mp hf with hm | hm
      · obtain ⟨s, hs, h1r, h2r, hcid, hdir⟩ := ihTags f hm
        exact ⟨s, hs, h1r, by omega, hcid, hdir⟩
      · obtain ⟨s, hs, hrid, hcid, hdir⟩ := hcTags f hm
        exact ⟨s, hs, by omega, by omega, hcid, hdir⟩
    · intro r c f hf hdown
      rw [hflows] at hf
      rcases List.mem_append.mp hf with hm | hm
      · have hr : r ≤ n := hrid_le_of_down r c f hm hdown
        obtain ⟨t, ht1, ht2, ht3⟩ := ihD r c f hm hdown
        refine ⟨t, ht1, ?_, ?_⟩
        · rw [hflows, hfilterP_nil _ (hPfalseUp r c (by omega))]
          exact ht2
        · intro g hg hgd
          rw [hflows] at hg
          rcases List.mem_append.mp hg with hm2 | hm2
          · exact ht3 g hm2 hgd
          · have := hrid_of_down r c g hm2 hgd
            omega
      · have hr : r = n + 1 := hrid_of_down r c f hm hdown
        subst hr
        obtain ⟨t, ht1, ht2, ht3⟩ := hcD c f hm hdown
        refine ⟨t, ht1, ?_, ?_⟩
        · rw [hflows, hfilterF_nil _ (hFfalseUp (n + 1) c (by omega))]
          exact ht2
        · intro g hg hgd
          rw [hflows] at hg
          rcases List.mem_append.mp hg with hm2 | hm2
          · have := hrid_le_of_down (n + 1) c g hm2 hgd
            omega
          · exact ht3 g hm2 hgd
    · intro r c f hw hwc hf hup
      rw [hflows] at hf
      rcases List.mem_append.mp hf with hm | hm
      · have hr : r ≤ n := hrid_le_of_up r c f hm hup
        obtain ⟨t, ht1, ht2⟩ := ihE r c f hw hwc hm hup
        refine ⟨t, ht1, ?_⟩
        rw [hflows, hfilterP_nil _ (hPfalseDown r (c - window) (by omega))]
        exact ht2
      · have hr : r = n + 1 := hrid_of_up r c f hm hup
        subst hr
        obtain ⟨t, ht1, ht2⟩ := hcE c f hw hwc hm hup
        refine ⟨t, ht1, ?_⟩
        rw [hflows,
          hfilterF_nil _ (hFfalseDown (n + 1) (c - window) (by omega))]
        exact ht2

/-! ### Concrete-scenario claims -/

/-- C9: for the Tree generator with `nodes = 4` and `branch_factor = 2` (any
flow size), the parent map is `1 ↦ 0`, `2 ↦ 0`, `3 ↦ 1`; the upward phase
emits exactly the flows `3→1`, `2→0`, `1→0`, each starting immediately
(`gate = none`); the downward phase emits exactly `0→1`, `0→2`, `1→3`; and
the schedule holds 6 flows in total. -/
theorem C9_tree_scenario (fsz : Int) :
    treeParent 2 1 = 0 ∧ treeParent 2 2 = 0 ∧ treeParent 2 3 = 1 ∧
    (treeGen 4 2 fsz).flows.map (fun f => (f.src, f.dst, f.gate)) =
      [(3, 1, none), (2, 0, none), (1, 0, none),
       (0, 1, some 1), (0, 2, some 2), (1, 3, some 2)] ∧
    (treeGen 4 2 fsz).flows.length = 6 :=
  ⟨rfl, rfl, rfl, rfl, rfl⟩

/-- C9 witness at a concrete flow size. -/
theorem C9_tree_scenario_witness :
    (treeGen 4 2 1000).flows.length = 6 :=
  (C9_tree_scenario 1000).2.2.2.2

/-- C4: the Tree generator's `Triggers` header is the hardcoded formula
`(nodes - 1) * 2`, but the trigger section declares `trig_id` lines; at
`nodes = 4`, `branch_factor = 2` the header says 6 while only 5 trigger
lines are declared, so the header does not equal the number of
trigger-definition lines.  (The `Connections` header does match the 6 flow
lines.) -/
theorem C4_tree_header_mismatch :
    (treeGen 4 2 1000).connHeader = 6 ∧
    (treeGen 4 2 1000).flows.length = 6 ∧
    (treeGen 4 2 1000).trigHeader = 6 ∧
    (treeGen 4 2 1000).decls.length = 5 ∧
    ((treeGen 4 2 1000).trigHeader == ((treeGen 4 2 1000).decls.length : Int)) = false := by
  decide

/-- C2 counterexample: with `groups = 1`, `groupsize = 4` (so `conns = 4`),
phase 1 of the Ring generator emits 12 flows — one full `groupsize - 1`-hop
chain per starting offset `s`, i.e. `groupsize * (groupsize - 1)` — not 3;
the whole schedule has 16 flows. -/
theorem C2_counterexample :
    (ringPhase1 [0, 1, 2, 3] (4 / 4) 4 0 1000).2.length = 12 ∧
    ((ringPhase1 [0, 1, 2, 3] (4 / 4) 4 0 1000).2.length == 3) = false ∧
    (ringGen 4 4 4 1000 0 [0, 1, 2, 3]).flows.length = 16 := by
  decide

/-- C2 amended: for one group of size 4 (any flow size, locality flag and
shuffle outcome), phase 1 emits exactly 12 intra-ring reduction flows
(`groupsize * (groupsize - 1)`), phase 2 emits exactly 1 leader flow, and
phase 3 emits exactly 3 broadcast flows, for 16 flows in total. -/
theorem C2_amended (fsz : Int) (loc : Nat) (perm : List Nat) :
    (ringPhase1 perm (4 / 4) 4 loc fsz).2.length = 12 ∧
    (ringPhase2 perm (4 / 4) 4 fsz (ringPhase1 perm (4 / 4) 4 loc fsz).1.2
        (ringPhase1 perm (4 / 4) 4 loc fsz).1.1).2.length = 1 ∧
    (ringPhase3 perm (4 / 4) 4 loc fsz
        (ringPhase2 perm (4 / 4) 4 fsz (ringPhase1 perm (4 / 4) 4 loc fsz).1.2
          (ringPhase1 perm (4 / 4) 4 loc fsz).1.1).1.2
        (ringPhase2 perm (4 / 4) 4 fsz (ringPhase1 perm (4 / 4) 4 loc fsz).1.2
          (ringPhase1 perm (4 / 4) 4 loc fsz).1.1).1.1).2.length = 3 ∧
    (ringGen 4 4 4 fsz loc perm).flows.length = 16 :=
  ⟨rfl, rfl, rfl, rfl⟩

/-- C5 counterexample: in the Ring run with one group of size 4 (identity
shuffle), the ring's recorded reduction-done trigger — the gate of the
phase-2 leader flow, at index 12 — is trigger 8, but the final intra-ring
reduction flow of the ring (index 11) carries no `send_done_trigger` at all,
so the recorded trigger is not the final flow's completion trigger. -/
theorem C5_counterexample :
    ((ringGen 4 4 4 1000 0 [0, 1, 2, 3]).flows[12]?).map Flow.gate =
      some (some 8) ∧
    ((ringGen 4 4 4 1000 0 [0, 1, 2, 3]).flows[11]?).map Flow.done =
      some none ∧
    ((some 8 : Option Nat) == (none : Option Nat)) = false := by
  decide

/-- C1 counterexample: IncHierarchical run with `nodes = 3`, `k = 2`
(aggregator node 0), one chunk, one iteration.  The two downlink flows are
both gated on trigger 3 — the last uplink's completion trigger — whereas a
chained schedule would gate the second downlink on the first downlink's
completion trigger 4; `some 3 ≠ some 4`. -/
theorem C1_counterexample :
    (incGen 3 2 100 1 7 1 1).flows.map (fun f => (f.src, f.dst, f.gate, f.done)) =
      [(1, 0, none, some 2), (2, 0, none, some 3),
       (0, 1, some 3, some 4), (0, 2, some 3, some 5)] ∧
    ((some 3 : Option Nat) == some 4) = false := by
  decide

/-- C6 counterexample: Ring with `groupsize = 2` (two groups of two,
identity shuffle): with chains of a single hop, phase 1 allocates no
triggers, `group_end_triggers` records `trig_id - 1 = 0`, and the phase-2
leader flows are gated on trigger 0 — which the declaration section
(`trigger id t oneshot` for `t` in `1..trig_id`) never declares. -/
theorem C6_counterexample :
    ((ringGen 4 4 2 1000 0 [0, 1, 2, 3]).flows[4]?).map Flow.gate =
      some (some 0) ∧
    (ringGen 4 4 2 1000 0 [0, 1, 2, 3]).decls.count 0 = 0 := by
  decide

/-- C3: the Ring generator shuffles `srcs` unconditionally — a zero seed
only skips seeding the RNG, not the shuffle — so a seed-0 run's topology
depends on the RNG-drawn permutation: two legitimate shuffle outcomes of
`range 4` give different schedules.  By contrast the Supernode generator
consults the shuffled order only when the seed is nonzero, so its seed-0
output is independent of the permutation; and the Tree and IncHierarchical
generators take no permutation at all, so with fixed parameters (and, for
Ring, a fixed permutation as drawn from a fixed nonzero seed) every
generator's output is reproducible. -/
theorem C3_ring_seed0_shuffles :
    List.Perm [1, 0, 2, 3] (List.range 4) ∧
    List.Perm [0, 1, 2, 3] (List.range 4) ∧
    ((ringGen 4 4 4 1000 0 [1, 0, 2, 3] == ringGen 4 4 4 1000 0 [0, 1, 2, 3]) = false) ∧
    (∀ perm perm' : List Nat,
      supernodeGen 5 1000 1 0 perm = supernodeGen 5 1000 1 0 perm') := by
  refine ⟨by decide, by decide, by decide, fun perm perm' => rfl⟩

/-- C6 amended: for the Tree, Supernode and IncHierarchical generators on
all parameters, and for the Ring generator whenever the group size is at
least 3, every trigger id referenced by a flow (as a start gate or as an
attached completion trigger) has exactly one matching declaration, and the
declared ids form the contiguous range from 1 to the final counter value.
(With group size ≤ 2 the Ring generator's phase-2 flows reference the
never-declared trigger id 0.) -/
theorem C6_amended :
    (∀ (nodes conns gs : Nat) (fsz : Int) (loc : Nat) (perm : List Nat),
      3 ≤ gs →
      ClosedSched (ringGen nodes conns gs fsz loc perm) ∧
      ∃ T, (ringGen nodes conns gs fsz loc perm).decls = List.range' 1 T) ∧
    (∀ (nodes bf : Nat) (fsz : Int),
      ClosedSched (treeGen nodes bf fsz) ∧
      ∃ T, (treeGen nodes bf fsz).decls = List.range' 1 T) ∧
    (∀ (nodes : Nat) (fsz : Int) (iterations : Nat) (randseed : Int)
      (perm : List Nat),
      ClosedSched (supernodeGen nodes fsz iterations randseed perm) ∧
      ∃ T, (supernodeGen nodes fsz iterations randseed perm).decls =
        List.range' 1 T) ∧
    (∀ (nodes k : Nat) (fsz : Int) (chunks fid iterations window : Nat),
      ClosedSched (incGen nodes k fsz chunks fid iterations window) ∧
      ∃ T, (incGen nodes k fsz chunks fid iterations window).decls =
        List.range' 1 T) := by
  refine ⟨?_, ?_, ?_, ?_⟩
  · intro nodes conns gs fsz loc perm hgs
    exact ⟨ringGen_closed nodes conns gs fsz loc perm hgs, _, rfl⟩
  · intro nodes bf fsz
    exact ⟨treeGen_closed nodes bf fsz, _, rfl⟩
  · intro nodes fsz iterations randseed perm
    exact ⟨supernodeGen_closed nodes fsz iterations randseed perm, _, rfl⟩
  · intro nodes k fsz chunks fid iterations window
    exact ⟨incGen_closed nodes k fsz chunks fid iterations window, _, rfl⟩

/-- C6 amended, instantiated on one concrete run of each generator. -/
theorem C6_amended_witness :
    ClosedSched (ringGen 4 4 4 1000 0 [0, 1, 2, 3]) ∧
    ClosedSched (treeGen 4 2 1000) ∧
    ClosedSched (supernodeGen 5 1000 2 0 []) ∧
    ClosedSched (incGen 3 2 100 2 7 1 1) :=
  ⟨(C6_amended.1 4 4 4 1000 0 [0, 1, 2, 3] (by decide)).1,
   (C6_amended.2.1 4 2 1000).1,
   (C6_amended.2.2.1 5 1000 2 0 []).1,
   (C6_amended.2.2.2 3 2 100 2 7 1 1).1⟩

/-- C10: every run of the Tree, Supernode or IncHierarchical generator
declares a trigger id that no flow attaches as a completion trigger and no
flow references as a start gate: id 1 for Supernode and IncHierarchical
(their counter starts at 1 and is pre-incremented before every attachment),
and the final declared id for Tree (the counter is post-incremented after
the last attachment but the declaration range still includes it). -/
theorem C10_unreferenced_trigger :
    (∀ (nodes bf : Nat) (fsz : Int),
      Unref (treeGen nodes bf fsz) ((treeGen nodes bf fsz).decls.getLastD 0)) ∧
    (∀ (nodes : Nat) (fsz : Int) (iterations : Nat) (randseed : Int)
      (perm : List Nat),
      Unref (supernodeGen nodes fsz iterations randseed perm) 1) ∧
    (∀ (nodes k : Nat) (fsz : Int) (chunks fid iterations window : Nat),
      Unref (incGen nodes k fsz chunks fid iterations window) 1) :=
  ⟨treeGen_unref_last, supernodeGen_unref1, incGen_unref1⟩

/-- C1 amended: in the IncHierarchical generator (with at least two hosts),
for every iteration and chunk the downlink flows are *not* chained: every
downlink flow of round `it+1`, chunk `c` is gated on one common trigger —
the completion trigger of the *last* uplink flow of the same round and
chunk — and all downlink flows of that round and chunk carry that same
gate. -/
theorem C1_amended (nodes k : Nat) (fsz : Int)
    (chunks fid iterations window : Nat) (it c : Nat) (f : Flow)
    (hn : 2 ≤ nodes)
    (hf : f ∈ (incGen nodes k fsz chunks fid iterations window).flows)
    (hd : isDown (it + 1) c f = true) :
    ∃ t, f.gate = some t ∧
      (((incGen nodes k fsz chunks fid iterations window).flows.filter
          (isUp (it + 1) c)).map Flow.done).getLast? = some (some t) ∧
      ∀ g ∈ (incGen nodes k fsz chunks fid iterations window).flows,
        isDown (it + 1) c g = true → g.gate = some t := by
  have hinit : IncPos
      { flowId := 0, trig := 1, ldt := List.replicate chunks none,
        iterStart := none } := by
    refine ⟨le_rfl, ?_, ?_⟩
    · intro c2 t hh
      rw [List.getD_eq_getElem?_getD, List.getElem?_replicate] at hh
      split at hh <;> simp at hh
    · intro t hh
      simp at hh
  have h := incIterFold_struct nodes k fsz fid chunks window hn iterations
    { flowId := 0, trig := 1, ldt := List.replicate chunks none,
      iterStart := none } hinit (by simp)
  exact h.2.2.1 (it + 1) c f hf hd

/-- C1 amended, instantiated: in the run with `nodes = 3`, `k = 2`,
`flowsize = 100`, `chunks = 2`, `fid = 7`, one iteration and `window = 1`,
the second downlink flow of chunk 0 (flow id 4) is gated on trigger 3, the
completion trigger of the last uplink of chunk 0, as is every downlink of
that chunk. -/
theorem C1_amended_witness :
    2 ≤ 3 ∧
    ∃ t, ({ src := 0, dst := 2, flowId := 4, gate := some 3, size := 100,
            done := some 5,
            sem := some { op := "SUM", dir := "DOWN", fid := 7, rid := 1,
                          cid := 0 } } : Flow).gate = some t ∧
      (((incGen 3 2 100 2 7 1 1).flows.filter (isUp 1 0)).map
        Flow.done).getLast? = some (some t) ∧
      ∀ g ∈ (incGen 3 2 100 2 7 1 1).flows, isDown 1 0 g = true →
        g.gate = some t :=
  ⟨by decide,
   C1_amended 3 2 100 2 7 1 1 0 0
     { src := 0, dst := 2, flowId := 4, gate := some 3, size := 100,
       done := some 5,
       sem := some { op := "SUM", dir := "DOWN", fid := 7, rid := 1,
                     cid := 0 } }
     (by decide) (by decide) (by decide)⟩

/-- C8: in the IncHierarchical generator (with at least two hosts and a
positive window), every uplink flow of round `it+1`, chunk `c ≥ window` is
gated on the completion trigger of the last downlink flow of chunk
`c - window` of the *same* round — the sliding-window admission control. -/
theorem C8_sliding_window (nodes k : Nat) (fsz : Int)
    (chunks fid iterations window : Nat) (it c : Nat) (f : Flow)
    (hn : 2 ≤ nodes) (hw : 1 ≤ window) (hc : window ≤ c)
    (hf : f ∈ (incGen nodes k fsz chunks fid iterations window).flows)
    (hu : isUp (it + 1) c f = true) :
    ∃ t, f.gate = some t ∧
      (((incGen nodes k fsz chunks fid iterations window).flows.filter
          (isDown (it + 1) (c - window))).map Flow.done).getLast? =
        some (some t) := by
  have hinit : IncPos
      { flowId := 0, trig := 1, ldt := List.replicate chunks none,
        iterStart := none } := by
    refine ⟨le_rfl, ?_, ?_⟩
    · intro c2 t hh
      rw [List.getD_eq_getElem?_getD, List.getElem?_replicate] at hh
      split at hh <;> simp at hh
    · intro t hh
      simp at hh
  have h := incIterFold_struct nodes k fsz fid chunks window hn iterations
    { flowId := 0, trig := 1, ldt := List.replicate chunks none,
      iterStart := none } hinit (by simp)
  exact h.2.2.2 (it + 1) c f hw hc hf hu

/-- C8, instantiated: in the run with `nodes = 3`, `k = 2`,
`flowsize = 100`, `chunks = 2`, `fid = 7`, one iteration and `window = 1`,
the first uplink flow of chunk 1 (flow id 5) is gated on trigger 5, the
completion trigger of the last downlink of chunk 0 of the same round. -/
theorem C8_sliding_window_witness :
    2 ≤ 3 ∧ 1 ≤ 1 ∧
    ∃ t, ({ src := 1, dst := 0, flowId := 5, gate := some 5, size := 100,
            done := some 6,
            sem := some { op := "SUM", dir := "UP", fid := 7, rid := 1,
                          cid := 1 } } : Flow).gate = some t ∧
      (((incGen 3 2 100 2 7 1 1).flows.filter (isDown 1 0)).map
        Flow.done).getLast? = some (some t) :=
  ⟨by decide, by decide,
   C8_sliding_window 3 2 100 2 7 1 1 0 1
     { src := 1, dst := 0, flowId := 5, gate := some 5, size := 100,
       done := some 6,
       sem := some { op := "SUM", dir := "UP", fid := 7, rid := 1,
                     cid := 1 } }
     (by decide) (by decide) (by decide) (by decide) (by decide)⟩

end TmGen
